import Mathlib

/-!
# Crossword puzzle generator: placement engine

A shallow embedding of `src/crossword_puzzle_generator_2_dutch.cpp`
(classes `WordList`, `Dir`, `Point`, `Letter`, `Letters`, `Grid`) together with
the properties of the placement engine stated in the specification, and of the
members `doWeight`, `highestWeight` and `emplaceWord` of the class `Cwg` of
`src/crossword_puzzle_generator_dhayden.cpp`.

Conventions of the embedding.

* C++ `int` values are mathematical integers (`Int`).  Every integer the
  engine computes is bounded in absolute value by `m_size * m_size` plus the
  word length, and the constructor already needs `size * size` to fit an
  `int`, so no wrap-around of 32-bit arithmetic occurs; the one place where
  a signed value is converted to `unsigned` (the loop header of `add_word`)
  is modelled explicitly.
* In `Cwg::emplaceWord` and `Cwg::highestWeight` the comparisons are made on
  unsigned values; they are embedded with the reductions modulo `2 ^ 32`
  (`unsigned`) and `2 ^ 64` (`size_t`) written out.
* A `std::string` is a `List Char`.
* The object state (`m_size`, `m_grid`, `m_letters`) is passed explicitly.
  Member functions that mutate the object return the new state.
* A member function that can throw, or that would touch memory outside
  the `m_grid` buffer, returns `Except Fault _`.
* The random choices (`Dir::rnd_dir`, `WordList::rnd_word`) are inputs; for
  `rnd_word` itself the input is the value drawn from the distribution.
* Where a statement is about which cells are accessed, the member is embedded a
  second time with the accessor as a parameter (`can_place_via`, `add_word_via`),
  shown equal to the first embedding for the plain accessor, and run with an
  accessor that faults on any subscript outside `0 .. m_size - 1`.
-/

namespace Crossword

/-- Values of the enumeration `Dir::DirT`. -/
inductive Dir where
  | Horz
  | Vert
deriving DecidableEq, Repr

namespace Dir

/-- Member `Dir::horz`. -/
def horz (d : Dir) : Bool :=
  match d with
  | Horz => true
  | Vert => false

/-- Member `Dir::vert`. -/
def vert (d : Dir) : Bool :=
  match d with
  | Horz => false
  | Vert => true

/-- Member `Dir::operator!`: the other orientation. -/
def not (d : Dir) : Dir :=
  match d with
  | Horz => Vert
  | Vert => Horz

end Dir

/-- The struct `Point`: a grid coordinate tagged with an orientation. -/
structure Point where
  row : Int
  col : Int
  dir : Dir
deriving DecidableEq, Repr

namespace Point

/-- Member `Point::operator==`: row and column are compared, the orientation is not. -/
def same (p q : Point) : Bool :=
  p.row == q.row && p.col == q.col

/-- Member `Point::operator!=`. -/
def differs (p q : Point) : Bool :=
  !(p.same q)

/-- The coordinate pair of a point. -/
def coord (p : Point) : Int × Int :=
  (p.row, p.col)

/-- Value of the reference `colrow` of `add_word`: `pnt.dir.horz() ? pnt.col : pnt.row`. -/
def colrow (p : Point) : Int :=
  if p.dir.horz then p.col else p.row

/-- Assignment through the reference `colrow` of `add_word`. -/
def setColrow (p : Point) (v : Int) : Point :=
  if p.dir.horz then { p with col := v } else { p with row := v }

end Point

/-- Abnormal outcomes of a member function. -/
inductive Fault where
  /-- The exception `invalid_argument("Bad index")` of `Letters::operator[]`. -/
  | badIndex
  /-- An access outside the `m_grid` buffer (undefined behaviour in C++). -/
  | outOfRange
deriving DecidableEq, Repr

/-- The function `toupper` of `<cctype>` in the "C" locale. -/
def toupper (ch : Char) : Char :=
  if 'a'.toNat ≤ ch.toNat ∧ ch.toNat ≤ 'z'.toNat then Char.ofNat (ch.toNat - 32) else ch

namespace Letters

/-- Index computation of `Letters::operator[]`: `toupper(ch) - 'A'`, rejected
outside `0..25`. -/
def index (ch : Char) : Except Fault (Fin 26) :=
  let i : Int := ((toupper ch).toNat : Int) - ('A'.toNat : Int)
  if h : i < 0 ∨ i > 25 then .error .badIndex else .ok ⟨i.toNat, by omega⟩

end Letters

/-- The constant `Grid::Empty`. -/
def Empty : Char := '.'

/-- Data members of the class `Grid`.  `m_letters` is the array `Letter m_letters[26]`
of the class `Letters`, each `Letter` being its vector `pos`. -/
structure Grid where
  m_size : Int
  m_grid : List Char
  m_letters : Fin 26 → List Point

instance : DecidableEq Grid := fun a b =>
  decidable_of_iff
    (a.m_size = b.m_size ∧ a.m_grid = b.m_grid ∧
      ∀ i ∈ List.finRange 26, a.m_letters i = b.m_letters i)
    (by
      constructor
      · rintro ⟨h1, h2, h3⟩
        cases a; cases b
        simp only at h1 h2 h3
        subst h1; subst h2
        congr
        funext i
        exact h3 i (List.mem_finRange i)
      · rintro rfl
        exact ⟨rfl, rfl, fun _ _ => rfl⟩)

instance {ε α : Type} [DecidableEq ε] [DecidableEq α] : DecidableEq (Except ε α) := fun a b =>
  match a, b with
  | .ok x, .ok y => decidable_of_iff (x = y) ⟨fun h => congrArg _ h, Except.ok.inj⟩
  | .error x, .error y => decidable_of_iff (x = y) ⟨fun h => congrArg _ h, Except.error.inj⟩
  | .ok _, .error _ => isFalse (fun h => by cases h)
  | .error _, .ok _ => isFalse (fun h => by cases h)

instance : DecidableEq (Option (Grid × List Bool)) := fun a b =>
  match a, b with
  | none, none => isTrue rfl
  | some x, some y => decidable_of_iff (x = y) ⟨fun h => congrArg _ h, Option.some.inj⟩
  | none, some _ => isFalse (fun h => by cases h)
  | some _, none => isFalse (fun h => by cases h)

namespace Grid

/-- Constructor `Grid::Grid(int size)`: a buffer of `size * size` cells, all `Empty`. -/
def new (size : Int) : Grid :=
  { m_size := size
    m_grid := List.replicate (size * size).toNat Empty
    m_letters := fun _ => [] }

/-- Offset `r * m_size + c` used by every access to `m_grid`. -/
def offset (g : Grid) (r c : Int) : Int :=
  r * g.m_size + c

/-- Whether an offset lies inside the `m_grid` buffer. -/
def inBuffer (g : Grid) (off : Int) : Prop :=
  0 ≤ off ∧ off < (g.m_grid.length : Int)

instance (g : Grid) (off : Int) : Decidable (g.inBuffer off) := by
  unfold inBuffer; infer_instance

/-- Read of `m_grid[r * m_size + c]`. -/
def get (g : Grid) (r c : Int) : Except Fault Char :=
  if g.inBuffer (g.offset r c) then .ok (g.m_grid.getD (g.offset r c).toNat Empty)
  else .error .outOfRange

/-- Member `Grid::empty(r, c)`. -/
def empty (g : Grid) (r c : Int) : Except Fault Bool :=
  match g.get r c with
  | .ok ch => .ok (ch == Empty)
  | .error e => .error e

/-- Assignment `(*this)[p] = ch` through `Grid::operator[](const Point&)`. -/
def set (g : Grid) (p : Point) (ch : Char) : Except Fault Grid :=
  if g.inBuffer (g.offset p.row p.col) then
    .ok { g with m_grid := g.m_grid.set (g.offset p.row p.col).toNat ch }
  else .error .outOfRange

/-- Call `m_letters[i].push_back(p)` of `Letter::push_back`. -/
def push (g : Grid) (i : Fin 26) (p : Point) : Grid :=
  { g with m_letters := Function.update g.m_letters i (g.m_letters i ++ [p]) }

/-- Call `m_letters[i].erase(it)` of `Letter::erase`, `it` pointing at position `j`. -/
def erase (g : Grid) (i : Fin 26) (j : Nat) : Grid :=
  { g with m_letters := Function.update g.m_letters i ((g.m_letters i).eraseIdx j) }

/-- Short-circuit `a || b` on outcomes: `b` is not evaluated when `a` yields `true`. -/
def orElse (a b : Except Fault Bool) : Except Fault Bool :=
  match a with
  | .ok true => .ok true
  | .ok false => b
  | .error e => .error e

/-- Expression `!empty(r, c)`. -/
def notEmpty (g : Grid) (r c : Int) : Except Fault Bool :=
  match g.empty r c with
  | .ok b => .ok (!b)
  | .error e => .error e

/-- Expression `cond && !empty(r, c)`: the cell is read only when `cond` holds. -/
def andNotEmpty (g : Grid) (cond : Bool) (r c : Int) : Except Fault Bool :=
  if cond then g.notEmpty r c else .ok false

/-- The `for` loop of the horizontal branch of `can_place`: `n` iterations remain,
`i` is the letter position and `c` the column of the cell under test. -/
def can_place_horz_loop (g : Grid) (w r : Int) : Nat → Int → Int → Except Fault Bool
  | 0, _, _ => .ok true
  | n + 1, i, c =>
    if i = w then can_place_horz_loop g w r n (i + 1) (c + 1)
    else
      match orElse (g.notEmpty r c)
          (orElse (g.andNotEmpty (decide (r > 0)) (r - 1) c)
            (g.andNotEmpty (decide (r < g.m_size - 1)) (r + 1) c)) with
      | .ok true => .ok false
      | .ok false => can_place_horz_loop g w r n (i + 1) (c + 1)
      | .error e => .error e

/-- The `for` loop of the vertical branch of `can_place`. -/
def can_place_vert_loop (g : Grid) (w c : Int) : Nat → Int → Int → Except Fault Bool
  | 0, _, _ => .ok true
  | n + 1, i, r =>
    if i = w then can_place_vert_loop g w c n (i + 1) (r + 1)
    else
      match orElse (g.notEmpty r c)
          (orElse (g.andNotEmpty (decide (c > 0)) r (c - 1))
            (g.andNotEmpty (decide (c < g.m_size - 1)) r (c + 1))) with
      | .ok true => .ok false
      | .ok false => can_place_vert_loop g w c n (i + 1) (r + 1)
      | .error e => .error e

/-- Member `Grid::can_place(word, w, p)`; `p` is the point the iterator refers to. -/
def can_place (g : Grid) (word : List Char) (w : Int) (p : Point) : Except Fault Bool :=
  let dir := p.dir.not
  let size : Int := word.length
  if dir.horz then
    let r := p.row
    let c := p.col - w
    match orElse (.ok (decide (c < 0)))
        (orElse (.ok (decide (c + size > g.m_size)))
          (orElse (g.andNotEmpty (decide (c > 0)) r (c - 1))
            (g.andNotEmpty (decide (c + size < g.m_size)) r (c + size)))) with
    | .ok true => .ok false
    | .ok false => can_place_horz_loop g w r word.length 0 c
    | .error e => .error e
  else
    let c := p.col
    let r := p.row - w
    match orElse (.ok (decide (r < 0)))
        (orElse (.ok (decide (r + size > g.m_size)))
          (orElse (g.andNotEmpty (decide (r > 0)) (r - 1) c)
            (g.andNotEmpty (decide (r + size < g.m_size)) (r + size) c))) with
    | .ok true => .ok false
    | .ok false => can_place_vert_loop g w c word.length 0 r
    | .error e => .error e

/-- Body of the `for` loop of `add_word`, iterated over the remaining characters:
`pos` is the loop variable, `pnt` the local point whose `colrow` field the loop
assigns, `cross_pnt` the parameter. -/
def add_word_loop (cross_pnt pnt : Point) : List Char → Int → Grid → Except Fault Grid
  | [], _, g => .ok g
  | ch :: rest, pos, g =>
    match Letters.index ch with
    | .error e => .error e
    | .ok i =>
      let cur := pnt.setColrow pos
      let g1 := if cur.differs cross_pnt then g.push i cur else g
      match g1.set cur ch with
      | .error e => .error e
      | .ok g2 => add_word_loop cross_pnt cur rest (pos + 1) g2

/-- Member `Grid::add_word(word, w, cross_pnt)`.

The loop header is `for (unsigned pos = start, w = 0; pos < start + word.size(); ++pos)`.
For `start >= 0` it runs once per character.  For a negative `start` the
comparison is made on unsigned values: when `start + word.size() >= 0` the body
never runs; otherwise the body runs over the whole word and then reads the
terminating `'\0'`, for which `Letters::operator[]` throws. -/
def add_word (g : Grid) (word : List Char) (w : Int) (cross_pnt : Point) :
    Except Fault Grid :=
  let pnt : Point := { cross_pnt with dir := cross_pnt.dir.not }
  let start := pnt.colrow - w
  if 0 ≤ start then add_word_loop cross_pnt (pnt.setColrow start) word start g
  else if 0 ≤ start + (word.length : Int) then .ok g
  else
    match add_word_loop cross_pnt (pnt.setColrow start) word start g with
    | .error e => .error e
    | .ok _ => .error .badIndex

/-- Member `Grid::place_initial_word(word)`; `d` is the value returned by
`Dir::rnd_dir()`.  For an empty `std::string`, `word[0]` is `'\0'`. -/
def place_initial_word (g : Grid) (d : Dir) (word : List Char) : Except Fault Grid :=
  match Letters.index (word.headD (Char.ofNat 0)) with
  | .error e => .error e
  | .ok i =>
    let cross_pnt : Point := ⟨0, 0, d⟩
    add_word (g.push i cross_pnt) word 0 cross_pnt

/-- Inner loop of `place_crossing_word` over the positions of one letter:
`ps` are the entries from the iterator to the end, `j` the iterator's index. -/
def place_crossing_scan (g : Grid) (word : List Char) (w : Nat) (i : Fin 26) :
    List Point → Nat → Except Fault (Option Grid)
  | [], _ => .ok none
  | p :: ps, j =>
    match g.can_place word w p with
    | .error e => .error e
    | .ok true =>
      match (g.erase i j).add_word word w p with
      | .error e => .error e
      | .ok g2 => .ok (some g2)
    | .ok false => place_crossing_scan g word w i ps (j + 1)

/-- Outer loop of `place_crossing_word`: `rest` are the characters from
position `w` on. -/
def place_crossing_loop (g : Grid) (word : List Char) :
    List Char → Nat → Except Fault (Bool × Grid)
  | [], _ => .ok (false, g)
  | ch :: rest, w =>
    match Letters.index ch with
    | .error e => .error e
    | .ok i =>
      match place_crossing_scan g word w i (g.m_letters i) 0 with
      | .error e => .error e
      | .ok (some g2) => .ok (true, g2)
      | .ok none => place_crossing_loop g word rest (w + 1)

/-- Member `Grid::place_crossing_word(word)`: the returned `bool` and the new state. -/
def place_crossing_word (g : Grid) (word : List Char) : Except Fault (Bool × Grid) :=
  place_crossing_loop g word word 0

end Grid

/-- The constant `MaxTries`. -/
def MaxTries : Int := 10000

/-- The `for` loop of `Grid::generate` with bound `maxTries`:
`for (int i = 0; i < maxTries; ++i) if (place_crossing_word(rnd_word())) i = 0;`.
`rnd n` is the `n`-th word returned by `rnd_word`, `i` the loop counter and `log`
the outcomes of the attempts made so far, oldest first (kept for the statements
below, it does not influence the run).  The first argument bounds the number of
iterations; `none` means the bound was reached. -/
def generate_loop (maxTries : Int) (rnd : Nat → List Char) :
    Nat → Grid → Int → Nat → List Bool → Except Fault (Option (Grid × List Bool))
  | 0, _, _, _, _ => .ok none
  | fuel + 1, g, i, n, log =>
    if i < maxTries then
      match g.place_crossing_word (rnd n) with
      | .error e => .error e
      | .ok (placed, g2) =>
        generate_loop maxTries rnd fuel g2 ((if placed then 0 else i) + 1) (n + 1)
          (log ++ [placed])
    else .ok (some (g, log))

/-- Member `Grid::generate(wordlist)` with bound `maxTries`: the seed word is
`rnd 0` and is written with `d` as the value of `Dir::rnd_dir()`. -/
def generate (maxTries : Int) (g : Grid) (d : Dir) (rnd : Nat → List Char) (fuel : Nat) :
    Except Fault (Option (Grid × List Bool)) :=
  match g.place_initial_word d (rnd 0) with
  | .error e => .error e
  | .ok g1 => generate_loop maxTries rnd fuel g1 0 1 []

/-! ## The legality test as the specification words it -/

/-- The coordinate `k` steps away from `rc` along orientation `d`. -/
def step (d : Dir) (rc : Int × Int) (k : Int) : Int × Int :=
  match d with
  | .Horz => (rc.1, rc.2 + k)
  | .Vert => (rc.1 + k, rc.2)

namespace Grid

/-- A coordinate lies inside the grid bounds. -/
def inside (g : Grid) (rc : Int × Int) : Prop :=
  0 ≤ rc.1 ∧ rc.1 < g.m_size ∧ 0 ≤ rc.2 ∧ rc.2 < g.m_size

instance (g : Grid) (rc : Int × Int) : Decidable (g.inside rc) := by
  unfold inside; infer_instance

/-- Content of the cell at a coordinate. -/
def cell (g : Grid) (rc : Int × Int) : Char :=
  g.m_grid.getD (g.offset rc.1 rc.2).toNat Empty

/-- A coordinate is outside the grid, or its cell is `Empty`. -/
def outsideOrEmpty (g : Grid) (rc : Int × Int) : Prop :=
  ¬ g.inside rc ∨ g.cell rc = Empty

instance (g : Grid) (rc : Int × Int) : Decidable (g.outsideOrEmpty rc) := by
  unfold outsideOrEmpty; infer_instance

/-- The buffer of a grid of size `m_size` holds `m_size * m_size` cells. -/
def sized (g : Grid) : Prop :=
  (g.m_grid.length : Int) = g.m_size * g.m_size

instance (g : Grid) : Decidable g.sized := by
  unfold sized; infer_instance

/-- Legality of placing a word of length `L` with its `w`-th letter on the
coordinate of `p`, running in direction `D = opposite(p.dir)`, following the
numbered steps of the specification: the start cell is `w` steps back along
`D`; (1) the `L` cells of the run lie inside the grid; (2) the cell before the
start and the cell after the end are outside the grid or `Empty`; (3) every
cell of the run other than index `w` is `Empty` and so is each of its two
neighbours perpendicular to `D`, unless outside the grid. -/
def legal (g : Grid) (L w : Nat) (p : Point) : Prop :=
  let D := p.dir.not
  let start := step D p.coord (-(w : Int))
  (∀ k : Nat, k < L → g.inside (step D start k)) ∧
  (g.outsideOrEmpty (step D start (-1)) ∧ g.outsideOrEmpty (step D start L)) ∧
  (∀ k : Nat, k < L → k ≠ w →
    g.cell (step D start k) = Empty ∧
    g.outsideOrEmpty (step D.not (step D start k) (-1)) ∧
    g.outsideOrEmpty (step D.not (step D start k) 1))

instance (g : Grid) (L w : Nat) (p : Point) : Decidable (g.legal L w p) := by
  unfold legal; infer_instance

end Grid

/-- Component of a coordinate that varies along orientation `d`. -/
def along (d : Dir) (rc : Int × Int) : Int :=
  match d with
  | .Horz => rc.2
  | .Vert => rc.1

/-- Component of a coordinate that is constant along orientation `d`. -/
def across (d : Dir) (rc : Int × Int) : Int :=
  match d with
  | .Horz => rc.1
  | .Vert => rc.2

/-- The tests made by `can_place`, both branches at once, on the outcomes of
`empty`: `D` is the run direction, `s` the start coordinate. -/
def Grid.passes (g : Grid) (L : Nat) (w : Int) (p : Point) : Prop :=
  let D := p.dir.not
  let s := step D p.coord (-w)
  let E : Int × Int → Except Fault Bool := fun rc => g.empty rc.1 rc.2
  0 ≤ along D s ∧ along D s + L ≤ g.m_size ∧
  (along D s > 0 → E (step D s (-1)) = .ok true) ∧
  (along D s + L < g.m_size → E (step D s L) = .ok true) ∧
  ∀ k : Nat, k < L → (k : Int) ≠ w →
    E (step D s k) = .ok true ∧
    (across D s > 0 → E (step D.not (step D s k) (-1)) = .ok true) ∧
    (across D s < g.m_size - 1 → E (step D.not (step D s k) 1) = .ok true)

/-- Distance in the buffer between consecutive cells of a run of orientation `d`. -/
def Grid.stride (g : Grid) (d : Dir) : Int :=
  match d with
  | .Horz => 1
  | .Vert => g.m_size

/-- Buffer offset of the point `pnt` of `add_word` once `colrow` has been set to `x`. -/
def Grid.offAt (g : Grid) (pnt : Point) (x : Int) : Int :=
  g.offset (pnt.setColrow x).row (pnt.setColrow x).col

/-- The entries one run of the loop of `add_word` appends to the list of letter `i`,
in the order of the loop. -/
def newEntries (cross_pnt pnt : Point) : List Char → Int → Fin 26 → List Point
  | [], _, _ => []
  | ch :: rest, pos, i =>
    (if Letters.index ch = .ok i ∧ (pnt.setColrow pos).differs cross_pnt = true
      then [pnt.setColrow pos] else []) ++ newEntries cross_pnt pnt rest (pos + 1) i

/-- The local `pnt` of `add_word` after `pnt.dir = !pnt.dir`. -/
def Point.flip (p : Point) : Point :=
  { p with dir := p.dir.not }

/-- Coordinate of the `k`-th letter of a word whose `w`-th letter lies on the
coordinate of `p` and which runs in direction `opposite(p.dir)`: the start cell is
`w` steps back from `p`, the `k`-th cell `k` steps on from the start. -/
def runCell (p : Point) (w k : Int) : Int × Int :=
  step p.dir.not (step p.dir.not p.coord (-w)) k

/-- The point recorded for the `k`-th letter of such a word: its cell, tagged
with the run direction of the word. -/
def runPoint (p : Point) (w k : Int) : Point :=
  ⟨(runCell p w k).1, (runCell p w k).2, p.dir.not⟩

/-- Entries appended to the list of letter `i` when a word is committed through
`p` at letter position `w`: one per position `k` other than `w` whose letter
is `i`, in increasing `k`. -/
def appended (word : List Char) (w : Nat) (p : Point) (i : Fin 26) : List Point :=
  word.enum.filterMap fun kc =>
    if kc.1 ≠ w ∧ Letters.index kc.2 = .ok i then some (runPoint p w kc.1) else none

/-- The `j`-th entry of the position list of `word[w]`, with the index of that
list, when both exist. -/
def Grid.candidate (g : Grid) (word : List Char) (w j : Nat) : Option (Fin 26 × Point) :=
  match word[w]? with
  | none => none
  | some ch =>
    match Letters.index ch with
    | .error _ => none
    | .ok i => (g.m_letters i)[j]?.map fun p => (i, p)

/-- The pair `(w, j)` is legal: `can_place(word, w, p)` returns `true` for the `j`-th
entry `p` of the list of `word[w]`. -/
def Grid.fits (g : Grid) (word : List Char) (w j : Nat) : Prop :=
  match g.candidate word w j with
  | some ip => g.can_place word w ip.2 = .ok true
  | none => False

instance (g : Grid) (word : List Char) (w j : Nat) : Decidable (g.fits word w j) := by
  unfold Grid.fits
  cases g.candidate word w j <;> infer_instance

/-- Lexicographic order on pairs (letter position, index in the list). -/
def earlier (a b : Nat × Nat) : Prop :=
  a.1 < b.1 ∨ (a.1 = b.1 ∧ a.2 < b.2)

instance (a b : Nat × Nat) : Decidable (earlier a b) := by
  unfold earlier; infer_instance

/-- The pair `(w, j)` is the lexicographically least legal pair. -/
def Grid.firstFit (g : Grid) (word : List Char) (w j : Nat) : Prop :=
  g.fits word w j ∧ ∀ w' j', earlier (w', j') (w, j) → ¬ g.fits word w' j'

/-- Index in the buffer of the cell at a coordinate. -/
def Grid.slot (g : Grid) (rc : Int × Int) : Nat :=
  (g.offset rc.1 rc.2).toNat

/-- Every entry of every position list has its coordinate inside the grid. -/
def Grid.indexInside (g : Grid) : Prop :=
  ∀ i ∈ List.finRange 26, ∀ p ∈ g.m_letters i, g.inside p.coord

instance (g : Grid) : Decidable g.indexInside := by
  unfold Grid.indexInside; infer_instance

/-- The letter whose list has index `i`: `'A' + i`. -/
def Letters.letter (i : Fin 26) : Char :=
  Char.ofNat ('A'.toNat + i.val)

/-- Every character of the word is a letter, that is, accepted by `Letters::operator[]`. -/
def alphabetic (word : List Char) : Prop :=
  ∀ ch ∈ word, ∃ i, Letters.index ch = .ok i

/-- The coordinates of the `L` cells of a word placed through `p` at letter
position `w`. -/
def runCells (p : Point) (w : Int) (L : Nat) : List (Int × Int) :=
  (List.range L).map fun (k : Nat) => runCell p w k

/-- Number of placed words, given by their runs, that cover a coordinate. -/
def timesUsed (runs : List (List (Int × Int))) (rc : Int × Int) : Nat :=
  runs.countP fun r => decide (rc ∈ r)

/-- States reachable on a grid of size `size` from the seed word `seed`:
`place_initial_word` on the empty grid, followed by calls of
`place_crossing_word`, each of which returned.  Beside the state, the relation
keeps the history the invariants speak about: the coordinates consumed so far
as crossing points (most recent first) and the run of every word placed. -/
inductive Reach (size : Int) (seed : List Char) :
    Grid → List (Int × Int) → List (List (Int × Int)) → Prop
  | seeded (d : Dir) (g : Grid)
      (h : (Grid.new size).place_initial_word d seed = .ok g) :
      Reach size seed g [] [runCells ⟨0, 0, d⟩ 0 seed.length]
  | crossed (g : Grid) (used : List (Int × Int)) (runs : List (List (Int × Int)))
      (word : List Char) (g' : Grid) (w j : Nat) (i : Fin 26) (p : Point)
      (hr : Reach size seed g used runs)
      (h : g.place_crossing_word word = .ok (true, g'))
      (hfirst : g.firstFit word w j) (hcand : g.candidate word w j = some (i, p)) :
      Reach size seed g' (p.coord :: used) (runCells p w word.length :: runs)
  | failed (g : Grid) (used : List (Int × Int)) (runs : List (List (Int × Int)))
      (word : List Char) (g' : Grid)
      (hr : Reach size seed g used runs)
      (h : g.place_crossing_word word = .ok (false, g')) :
      Reach size seed g' used runs

/-- The facts kept along every reachable state: each entry lies on a cell that
holds a letter of its list; within a list no coordinate occurs twice; a consumed
coordinate holds a letter and is in no list; every cell of a placed word holds
a letter; an entry's coordinate is covered by one word, any coordinate by at
most two. -/
structure Inv (g : Grid) (used : List (Int × Int)) (runs : List (List (Int × Int))) : Prop where
  holds : ∀ i, ∀ p ∈ g.m_letters i, ∃ ch, g.get p.row p.col = .ok ch ∧ Letters.index ch = .ok i
  nodup : ∀ i, ((g.m_letters i).map Point.coord).Nodup
  gone : ∀ q ∈ used, (∃ ch, g.get q.1 q.2 = .ok ch ∧ ch ≠ Empty) ∧
    ∀ i, ∀ p ∈ g.m_letters i, p.coord ≠ q
  lettered : ∀ r ∈ runs, ∀ rc ∈ r, ∃ ch, g.get rc.1 rc.2 = .ok ch ∧ ch ≠ Empty
  once : ∀ i, ∀ p ∈ g.m_letters i, timesUsed runs p.coord ≤ 1
  twice : ∀ rc, timesUsed runs rc ≤ 2

/-- Member `Letters::operator[](ch)` on the array `m_letters`: the list stored at
index `toupper(ch) - 'A'`, or the exception. -/
def Letters.subscript (m_letters : Fin 26 → List Point) (ch : Char) : Except Fault (List Point) :=
  match Letters.index ch with
  | .error e => .error e
  | .ok i => .ok (m_letters i)

/-- A sequence of calls of `place_crossing_word`, one per word of the list in
order, on the state the previous call left; the returned `bool`s are dropped. -/
def Grid.placeAll (g : Grid) : List (List Char) → Except Fault Grid
  | [] => .ok g
  | word :: rest =>
    match g.place_crossing_word word with
    | .error e => .error e
    | .ok (_, g2) => placeAll g2 rest

/-- Two coordinates are next to each other in a row or in a column. -/
def adjacent (a b : Int × Int) : Prop :=
  (a.1 = b.1 ∧ (a.2 = b.2 + 1 ∨ b.2 = a.2 + 1)) ∨ (a.2 = b.2 ∧ (a.1 = b.1 + 1 ∨ b.1 = a.1 + 1))

instance (a b : Int × Int) : Decidable (adjacent a b) := by
  unfold adjacent; infer_instance

/-- Any two neighbouring cells of the grid that both hold a letter lie together
on the run of one of the placed words. -/
def Grid.joined (g : Grid) (runs : List (List (Int × Int))) : Prop :=
  ∀ a b, g.inside a → g.inside b → adjacent a b → g.cell a ≠ Empty → g.cell b ≠ Empty →
    ∃ r ∈ runs, a ∈ r ∧ b ∈ r

/-- No 2 x 2 block of cells of the grid is entirely non-empty. -/
def Grid.noBlock (g : Grid) : Prop :=
  ∀ r c : Int, g.inside (r, c) → g.inside (r + 1, c + 1) →
    g.cell (r, c) = Empty ∨ g.cell (r, c + 1) = Empty ∨ g.cell (r + 1, c) = Empty ∨
      g.cell (r + 1, c + 1) = Empty

/-- The constant `ShortestWord`. -/
def ShortestWord : Int := 3

/-- The constant `LongestWord`. -/
def LongestWord : Int := 8

/-- Conversion of an unsigned 64-bit value to `int` (32 bits, two's complement), as
in the call `Dist::param_type(0, m_words.size() - 1)`. -/
def toInt32 (n : Int) : Int :=
  (n + 2 ^ 31) % 2 ^ 32 - 2 ^ 31

/-- Data members of the class `WordList`.  The distribution `m_dist` is represented
by its two parameters, the least and the greatest value it is set to return. -/
structure WordList where
  m_words : List (List Char)
  m_dist : Int × Int
deriving DecidableEq

/-- The exception `runtime_error("Cannot open ...")` of the constructor of `WordList`. -/
inductive OpenError where
  | cannotOpen
deriving DecidableEq

namespace WordList

/-- The `for` loop of the constructor: the words still to be read from the stream
and the vector `m_words` built so far. -/
def read : List (List Char) → List (List Char) → List (List Char)
  | [], m_words => m_words
  | word :: rest, m_words =>
    if (word.length : Int) ≥ ShortestWord ∧ (word.length : Int) ≤ LongestWord then
      read rest (m_words ++ [word])
    else read rest m_words

/-- Constructor `WordList::WordList(filename)`.  The argument is the content of the
file as the sequence of words that `in >> word` yields, or `none` when the file
cannot be opened.  `m_words.size() - 1` is computed on unsigned 64-bit values and
passed as an `int`. -/
def new (file : Option (List (List Char))) : Except OpenError WordList :=
  match file with
  | none => .error .cannotOpen
  | some words =>
    let m_words := read words []
    .ok { m_words := m_words
          m_dist := (0, toInt32 (((m_words.length : Int) - 1) % 2 ^ 64)) }

/-- Member `WordList::rnd_word()`, `r` being the value the distribution returns: the
element `m_words[r]`, the `int` index being converted to an unsigned value. -/
def rnd_word (wl : WordList) (r : Int) : Except Fault (List Char) :=
  if 0 ≤ r ∧ r < (wl.m_words.length : Int) then .ok (wl.m_words.getD r.toNat [])
  else .error .outOfRange

end WordList

/-! ## The weight-based generator of `src/crossword_puzzle_generator_dhayden.cpp` -/

/-- The struct `Weight`: a column `x`, a row `y` and a weight `wt`. -/
structure Weight where
  x : Int
  y : Int
  wt : Int
deriving DecidableEq, Repr

/-- Data member of the class `Cwg`: the vector of rows `m_grid`. -/
structure Cwg where
  m_grid : List (List Char)
deriving DecidableEq

namespace Cwg

/-- Constructor `Cwg::Cwg(width, height)`: at least 3 x 3, every cell `'.'`. -/
def new (width height : Int) : Cwg :=
  let width := if width < 3 then 3 else width
  let height := if height < 3 then 3 else height
  { m_grid := List.replicate height.toNat (List.replicate width.toNat '.') }

/-- Read of `m_grid[row][col]`; a subscript outside a vector is a fault. -/
def get (g : Cwg) (row col : Int) : Except Fault Char :=
  if 0 ≤ row ∧ row < (g.m_grid.length : Int) then
    if 0 ≤ col ∧ col < ((g.m_grid.getD row.toNat []).length : Int) then
      .ok ((g.m_grid.getD row.toNat []).getD col.toNat '.')
    else .error .outOfRange
  else .error .outOfRange

/-- Expression `m_grid[row][col] != '.'`. -/
def notBlank (g : Cwg) (row col : Int) : Except Fault Bool :=
  match g.get row col with
  | .ok c => .ok (c != '.')
  | .error e => .error e

/-- The `for` loop of `doWeight`: the characters of the word from position `p` on,
the current values of the parameters `width` and `height`, and of `weight.wt`;
the result is the final value of `weight.wt`. -/
def doWeight_loop (g : Cwg) (dx dy : Int) : List Char → Int → Int → Int → Except Fault Int
  | [], _, _, wt => .ok wt
  | ch :: rest, width, height, wt =>
    match g.get height width with
    | .error e => .error e
    | .ok c =>
      if ch = c then doWeight_loop g dx dy rest (width + dx) (height + dy) (wt + 1)
      else if c ≠ '.' then .ok (-1)
      else
        match Grid.orElse (g.notBlank (height + dx) width)
            (Grid.orElse (g.notBlank height (width + dy))
              (Grid.orElse (g.notBlank (height - dx) width)
                (g.notBlank height (width - dy)))) with
        | .error e => .error e
        | .ok true => .ok (-1)
        | .ok false => doWeight_loop g dx dy rest (width + dx) (height + dy) wt

/-- Member `Cwg::doWeight(word, width, height, dx, dy)`. -/
def doWeight (g : Cwg) (word : List Char) (width height dx dy : Int) : Except Fault Weight :=
  match Grid.orElse (g.notBlank (height - dy) (width - dx))
      (g.notBlank (height + dy * (word.length : Int)) (width + dx * (word.length : Int))) with
  | .error e => .error e
  | .ok true => .ok ⟨width, height, -1⟩
  | .ok false =>
    match doWeight_loop g dx dy word width height 0 with
    | .error e => .error e
    | .ok wt => .ok ⟨width, height, wt⟩

/-- Every row of the grid has `W` cells and there are `H` rows. -/
def rect (g : Cwg) (W H : Nat) : Prop :=
  g.m_grid.length = H ∧ ∀ row ∈ g.m_grid, row.length = W

instance (g : Cwg) (W H : Nat) : Decidable (g.rect W H) := by
  unfold rect; infer_instance

/-- Content of the cell in column `x` of row `y`. -/
def cell (g : Cwg) (x y : Int) : Char :=
  if 0 ≤ x ∧ 0 ≤ y then (g.m_grid.getD y.toNat []).getD x.toNat '.' else '.'

/-- The letter `ch` cannot go on the cell `(x, y)` of a run of direction `(dx, dy)`:
the cell holds a letter different from `ch`, or it is blank and one of its two
neighbours perpendicular to the run is not blank. -/
def clash (g : Cwg) (dx dy : Int) (ch : Char) (x y : Int) : Prop :=
  (g.cell x y ≠ '.' ∧ g.cell x y ≠ ch) ∨
    (g.cell x y = '.' ∧ (g.cell (x + dy) (y + dx) ≠ '.' ∨ g.cell (x - dy) (y - dx) ≠ '.'))

instance (g : Cwg) (dx dy : Int) (ch : Char) (x y : Int) : Decidable (g.clash dx dy ch x y) := by
  unfold clash; infer_instance

/-- The word does not fit at `(x, y)` in direction `(dx, dy)`: the cell before the
start or the cell after the end of the run is not blank, or some letter of the
word cannot go on its cell. -/
def unfit (g : Cwg) (word : List Char) (x y dx dy : Int) : Prop :=
  g.cell (x - dx) (y - dy) ≠ '.' ∨
    g.cell (x + dx * (word.length : Int)) (y + dy * (word.length : Int)) ≠ '.' ∨
    ∃ p : Nat, p < word.length ∧ g.clash dx dy (word.getD p '.') (x + dx * p) (y + dy * p)

instance (g : Cwg) (word : List Char) (x y dx dy : Int) : Decidable (g.unfit word x y dx dy) := by
  unfold unfit; infer_instance

/-- Number of positions of the run whose cell already holds the letter of the word. -/
def intersections (g : Cwg) (word : List Char) (x y dx dy : Int) : Nat :=
  (List.range word.length).countP fun (p : Nat) =>
    decide (g.cell (x + dx * (p : Int)) (y + dy * (p : Int)) = word.getD p '.')

end Cwg

/-- The function `setDeltas(horizontal, dx, dy)`: the pair `(dx, dy)` it assigns. -/
def setDeltas (horizontal : Bool) : Int × Int :=
  if horizontal then (1, 0) else (0, 1)

/-- Value of an expression of type `unsigned` (32 bits). -/
def toUnsigned (n : Int) : Int :=
  n % 2 ^ 32

/-- Value of an expression of type `size_t` (64 bits). -/
def toSize (n : Int) : Int :=
  n % 2 ^ 64

namespace Cwg

/-- Member `Cwg::width()`: `m_grid[0].size()` as an `unsigned`; the subscript is a
fault when the grid has no row. -/
def width (g : Cwg) : Except Fault Int :=
  match g.m_grid with
  | [] => .error .outOfRange
  | row :: _ => .ok (toUnsigned row.length)

/-- Member `Cwg::height()`: `m_grid.size()` as an `unsigned`. -/
def height (g : Cwg) : Int :=
  toUnsigned g.m_grid.length

/-- Assignment `m_grid[row][col] = ch`; a subscript outside a vector is a fault. -/
def set (g : Cwg) (row col : Int) (ch : Char) : Except Fault Cwg :=
  if 0 ≤ row ∧ row < (g.m_grid.length : Int) then
    if 0 ≤ col ∧ col < ((g.m_grid.getD row.toNat []).length : Int) then
      .ok { m_grid := g.m_grid.set row.toNat ((g.m_grid.getD row.toNat []).set col.toNat ch) }
    else .error .outOfRange
  else .error .outOfRange

/-- The inner `for` loop of `highestWeight` on row `h`: `n` iterations remain, `w` is
the loop variable and `weight` the best position found so far. -/
def highestWeight_row (g : Cwg) (word : List Char) (dx dy : Int) (h : Int) :
    Nat → Int → Weight → Except Fault Weight
  | 0, _, weight => .ok weight
  | n + 1, w, weight =>
    match g.doWeight word w h dx dy with
    | .error e => .error e
    | .ok tmpWeight =>
      highestWeight_row g word dx dy h n (w + 1)
        (if tmpWeight.wt > weight.wt then tmpWeight else weight)

/-- The outer `for` loop of `highestWeight`: `m` iterations remain, `h` is the loop
variable.  The inner loop runs from `w = 1` while
`w < width() - dx * word.size() - 1`, a comparison of 64-bit unsigned values. -/
def highestWeight_rows (g : Cwg) (word : List Char) (dx dy : Int) :
    Nat → Int → Weight → Except Fault Weight
  | 0, _, weight => .ok weight
  | m + 1, h, weight =>
    match g.width with
    | .error e => .error e
    | .ok W =>
      match highestWeight_row g word dx dy h
          (toSize (W - dx * (word.length : Int) - 1) - 1).toNat 1 weight with
      | .error e => .error e
      | .ok weight2 => highestWeight_rows g word dx dy m (h + 1) weight2

/-- Member `Cwg::highestWeight(word, dx, dy)`.  The outer loop runs from `h = 1` while
`h < height() - dy * word.size() - 1`, a comparison of 64-bit unsigned values;
the loop counters are taken not to wrap around, which holds whenever the bound
is at most the number of rows (a larger bound makes `doWeight` leave the grid
first). -/
def highestWeight (g : Cwg) (word : List Char) (dx dy : Int) : Except Fault Weight :=
  highestWeight_rows g word dx dy
    (toSize (g.height - dy * (word.length : Int) - 1) - 1).toNat 1 ⟨1, 1, -1⟩

/-- The `for` loop of `emplaceWord` that writes the word: the characters still to
be written and the current values of `weight.x` and `weight.y`. -/
def emplaceWord_loop (dx dy : Int) : List Char → Int → Int → Cwg → Except Fault Cwg
  | [], _, _, g => .ok g
  | ch :: rest, x, y, g =>
    match g.set y x ch with
    | .error e => .error e
    | .ok g2 => emplaceWord_loop dx dy rest (x + dx) (y + dy) g2

/-- Member `Cwg::emplaceWord(word, horizontally)`: the returned `bool` and the new
state. -/
def emplaceWord (g : Cwg) (word : List Char) (horizontally : Bool) :
    Except Fault (Bool × Cwg) :=
  let dx := (setDeltas horizontally).1
  let dy := (setDeltas horizontally).2
  match g.width with
  | .error e => .error e
  | .ok W =>
    if toSize ((word.length : Int) * dx) > toUnsigned (W - 2) ∨
        toSize ((word.length : Int) * dy) > toUnsigned (g.height - 2) then .ok (false, g)
    else
      match g.highestWeight word dx dy with
      | .error e => .error e
      | .ok weight =>
        if weight.wt = -1 then .ok (false, g)
        else
          match emplaceWord_loop dx dy word weight.x weight.y g with
          | .error e => .error e
          | .ok g2 => .ok (true, g2)

/-- The position `(x, y)` is one of those the loops of `highestWeight` pass to
`doWeight` for a word of length `L` on a grid of `H` rows of `W` cells. -/
def scans (W H L : Nat) (dx dy x y : Int) : Prop :=
  1 ≤ x ∧ x < (W : Int) - dx * (L : Int) - 1 ∧ 1 ≤ y ∧ y < (H : Int) - dy * (L : Int) - 1

instance (W H L : Nat) (dx dy x y : Int) : Decidable (scans W H L dx dy x y) := by
  unfold scans; infer_instance

/-- The weight of a position: the field `wt` of what `doWeight` returns there. -/
def weightAt (g : Cwg) (word : List Char) (dx dy x y : Int) : Int :=
  match g.doWeight word x y dx dy with
  | .ok weight => weight.wt
  | .error _ => -1

/-- The position `(x, y)` is `(x', y')` or comes before it in the order of the
scan, row by row and within a row by column. -/
def scannedBefore (x y x' y' : Int) : Prop :=
  y < y' ∨ (y = y' ∧ x ≤ x')

instance (x y x' y' : Int) : Decidable (scannedBefore x y x' y') := by
  unfold scannedBefore; infer_instance

end Cwg

/-- A scan that keeps the first position of greatest weight: `D` gives the weight
of a position, the list holds the positions in the order of the scan. -/
def scanBest (D : Int → Int → Except Fault Weight) :
    List (Int × Int) → Weight → Except Fault Weight
  | [], weight => .ok weight
  | p :: rest, weight =>
    match D p.1 p.2 with
    | .error e => .error e
    | .ok tmpWeight =>
      scanBest D rest (if tmpWeight.wt > weight.wt then tmpWeight else weight)

/-- The positions of one row of the scan: `n` columns from column `w` on, in row `h`. -/
def scanRow (h : Int) : Nat → Int → List (Int × Int)
  | 0, _ => []
  | n + 1, w => (w, h) :: scanRow h n (w + 1)

/-- The positions of the scan: `m` rows from row `h` on, each of `cols` columns from
column 1 on. -/
def scanRows (cols : Nat) : Nat → Int → List (Int × Int)
  | 0, _ => []
  | m + 1, h => scanRow h cols 1 ++ scanRows cols m (h + 1)

/-- A loop of the shape shared by the two `for` loops of `can_place`: position
`w` is skipped, any other position `i` is rejected when `test` answers `true`
for its coordinate `x`. -/
def skipLoop (test : Int → Except Fault Bool) (w : Int) : Nat → Int → Int → Except Fault Bool
  | 0, _, _ => .ok true
  | n + 1, i, x =>
    if i = w then skipLoop test w n (i + 1) (x + 1)
    else
      match test x with
      | .ok true => .ok false
      | .ok false => skipLoop test w n (i + 1) (x + 1)
      | .error e => .error e

/-- Member `Grid::empty(r, c)` with the subscripts checked: a read whose row or
column is outside `0 .. m_size - 1` is reported as a fault, also when its offset
falls inside the buffer. -/
def Grid.emptyIn (g : Grid) (r c : Int) : Except Fault Bool :=
  if g.inside (r, c) then g.empty r c else .error .outOfRange

/-- Member `Grid::empty(r, c)` with the cell at `q` barred: a read of that cell is
reported as a fault. -/
def Grid.emptyBut (g : Grid) (q : Int × Int) (r c : Int) : Except Fault Bool :=
  if (r, c) = q then .error .outOfRange else g.empty r c

/-- Assignment `(*this)[p] = ch` with the subscripts checked: a write whose row or
column is outside `0 .. m_size - 1` is reported as a fault. -/
def Grid.setIn (g : Grid) (p : Point) (ch : Char) : Except Fault Grid :=
  if g.inside p.coord then g.set p ch else .error .outOfRange

/-- Expression `!empty(r, c)`, the grid being read through `E`. -/
def notVia (E : Int → Int → Except Fault Bool) (r c : Int) : Except Fault Bool :=
  match E r c with
  | .ok b => .ok (!b)
  | .error e => .error e

/-- Expression `cond && !empty(r, c)`, the grid being read through `E`. -/
def andNotVia (E : Int → Int → Except Fault Bool) (cond : Bool) (r c : Int) :
    Except Fault Bool :=
  if cond then notVia E r c else .ok false

/-- Member `Grid::can_place(word, w, p)` with every call of the member `empty`
made through `E`. -/
def Grid.can_place_via (g : Grid) (E : Int → Int → Except Fault Bool) (word : List Char)
    (w : Int) (p : Point) : Except Fault Bool :=
  let dir := p.dir.not
  let size : Int := word.length
  if dir.horz then
    let r := p.row
    let c := p.col - w
    match Grid.orElse (.ok (decide (c < 0)))
        (Grid.orElse (.ok (decide (c + size > g.m_size)))
          (Grid.orElse (andNotVia E (decide (c > 0)) r (c - 1))
            (andNotVia E (decide (c + size < g.m_size)) r (c + size)))) with
    | .ok true => .ok false
    | .ok false =>
      skipLoop (fun x => Grid.orElse (notVia E r x)
        (Grid.orElse (andNotVia E (decide (r > 0)) (r - 1) x)
          (andNotVia E (decide (r < g.m_size - 1)) (r + 1) x))) w word.length 0 c
    | .error e => .error e
  else
    let c := p.col
    let r := p.row - w
    match Grid.orElse (.ok (decide (r < 0)))
        (Grid.orElse (.ok (decide (r + size > g.m_size)))
          (Grid.orElse (andNotVia E (decide (r > 0)) (r - 1) c)
            (andNotVia E (decide (r + size < g.m_size)) (r + size) c))) with
    | .ok true => .ok false
    | .ok false =>
      skipLoop (fun x => Grid.orElse (notVia E x c)
        (Grid.orElse (andNotVia E (decide (c > 0)) x (c - 1))
          (andNotVia E (decide (c < g.m_size - 1)) x (c + 1)))) w word.length 0 r
    | .error e => .error e

/-- The loop of `add_word` with the assignment `(*this)[pnt] = ch` made through `S`. -/
def Grid.add_word_loop_via (S : Grid → Point → Char → Except Fault Grid) (cross_pnt pnt : Point) :
    List Char → Int → Grid → Except Fault Grid
  | [], _, g => .ok g
  | ch :: rest, pos, g =>
    match Letters.index ch with
    | .error e => .error e
    | .ok i =>
      let cur := pnt.setColrow pos
      let g1 := if cur.differs cross_pnt then g.push i cur else g
      match S g1 cur ch with
      | .error e => .error e
      | .ok g2 => add_word_loop_via S cross_pnt cur rest (pos + 1) g2

/-- Member `Grid::add_word(word, w, cross_pnt)` with the assignments to the grid
made through `S`. -/
def Grid.add_word_via (S : Grid → Point → Char → Except Fault Grid) (g : Grid)
    (word : List Char) (w : Int) (cross_pnt : Point) : Except Fault Grid :=
  let pnt : Point := { cross_pnt with dir := cross_pnt.dir.not }
  let start := pnt.colrow - w
  if 0 ≤ start then Grid.add_word_loop_via S cross_pnt (pnt.setColrow start) word start g
  else if 0 ≤ start + (word.length : Int) then .ok g
  else
    match Grid.add_word_loop_via S cross_pnt (pnt.setColrow start) word start g with
    | .error e => .error e
    | .ok _ => .error .badIndex

/-- Member `Grid::place_initial_word(word)` with the assignments to the grid made
through `S`. -/
def Grid.place_initial_word_via (S : Grid → Point → Char → Except Fault Grid) (g : Grid)
    (d : Dir) (word : List Char) : Except Fault Grid :=
  match Letters.index (word.headD (Char.ofNat 0)) with
  | .error e => .error e
  | .ok i =>
    let cross_pnt : Point := ⟨0, 0, d⟩
    Grid.add_word_via S (g.push i cross_pnt) word 0 cross_pnt

/-! ## Concrete states used to exercise the statements -/

/-- The specification scenario on a 5 x 5 grid: the seed word CAT written horizontally
from the anchor `(0, 0)`, with the position lists the seed placement leaves. -/
def catGrid : Grid :=
  { m_size := 5
    m_grid := "CAT......................".toList
    m_letters := fun i =>
      if i = 0 then [⟨0, 1, .Horz⟩]
      else if i = 2 then [⟨0, 0, .Vert⟩]
      else if i = 19 then [⟨0, 2, .Horz⟩]
      else [] }

/-- The scenario after ATE has crossed CAT at `(0, 1)`. -/
def catAteGrid : Grid :=
  { m_size := 5
    m_grid := "CAT...T....E.............".toList
    m_letters := fun i =>
      if i = 2 then [⟨0, 0, .Vert⟩]
      else if i = 4 then [⟨2, 1, .Vert⟩]
      else if i = 19 then [⟨0, 2, .Horz⟩, ⟨1, 1, .Vert⟩]
      else [] }

/-- The scenario after EE has then crossed ATE at `(2, 1)`. -/
def catAteEeGrid : Grid :=
  { m_size := 5
    m_grid := "CAT...T....EE............".toList
    m_letters := fun i =>
      if i = 2 then [⟨0, 0, .Vert⟩]
      else if i = 4 then [⟨2, 2, .Horz⟩]
      else if i = 19 then [⟨0, 2, .Horz⟩, ⟨1, 1, .Vert⟩]
      else [] }

/-- A 3 x 3 grid seeded with the four-letter word CATS written horizontally: the
fourth letter is stored at offset 3, the first cell of the second row, and
recorded at column 3. -/
def catsGrid : Grid :=
  { m_size := 3
    m_grid := "CATS.....".toList
    m_letters := fun i =>
      if i = 0 then [⟨0, 1, .Horz⟩]
      else if i = 2 then [⟨0, 0, .Vert⟩]
      else if i = 18 then [⟨0, 3, .Horz⟩]
      else if i = 19 then [⟨0, 2, .Horz⟩]
      else [] }

/-- The scenario grid seeded with the word written in lower case. -/
def lowerCatGrid : Grid :=
  { m_size := 5
    m_grid := "cat......................".toList
    m_letters := fun i =>
      if i = 0 then [⟨0, 1, .Horz⟩]
      else if i = 2 then [⟨0, 0, .Vert⟩]
      else if i = 19 then [⟨0, 2, .Horz⟩]
      else [] }

/-- A stream of sampled words for the scenario: ATE first, then TO for ever. -/
def ateThenTo (n : Nat) : List Char :=
  if n = 0 then "ATE".toList else "TO".toList

/-- The 5 x 5 grid after the seed `cat` (lower case, horizontal from the anchor)
has been crossed by ATE at `(0, 1)`: the cell `(0, 1)` now holds `'A'`. -/
def lowerCatAteGrid : Grid :=
  { m_size := 5
    m_grid := "cAt...T....E.............".toList
    m_letters := fun i =>
      if i = 2 then [⟨0, 0, .Vert⟩]
      else if i = 4 then [⟨2, 1, .Vert⟩]
      else if i = 19 then [⟨0, 2, .Horz⟩, ⟨1, 1, .Vert⟩]
      else [] }

/-- A stream of sampled words: CAT first, then DOG for ever. -/
def catThenDog (n : Nat) : List Char :=
  if n = 0 then "CAT".toList else "DOG".toList

/-- The scenario grid after TEA has crossed the seed CAT at its T, `(0, 2)`. -/
def catTeaGrid : Grid :=
  { m_size := 5
    m_grid := "CAT....E....A............".toList
    m_letters := fun i =>
      if i = 0 then [⟨0, 1, .Horz⟩, ⟨2, 2, .Vert⟩]
      else if i = 2 then [⟨0, 0, .Vert⟩]
      else if i = 4 then [⟨1, 2, .Vert⟩]
      else [] }

/-- The state after EEL has then crossed TEA at its E, `(1, 2)`: EEL lies in row 1
from column 2 on, right under the row of CAT. -/
def catTeaEelGrid : Grid :=
  { m_size := 5
    m_grid := "CAT....EEL..A............".toList
    m_letters := fun i =>
      if i = 0 then [⟨0, 1, .Horz⟩, ⟨2, 2, .Vert⟩]
      else if i = 2 then [⟨0, 0, .Vert⟩]
      else if i = 4 then [⟨1, 3, .Horz⟩]
      else if i = 11 then [⟨1, 4, .Horz⟩]
      else [] }

/-- A 3 x 3 grid seeded with the five-letter word HELLO written horizontally: the
letters fill row 0 and go on in row 1. -/
def helloGrid : Grid :=
  { m_size := 3
    m_grid := "HELLO....".toList
    m_letters := fun i =>
      if i = 4 then [⟨0, 1, .Horz⟩]
      else if i = 7 then [⟨0, 0, .Vert⟩]
      else if i = 11 then [⟨0, 2, .Horz⟩, ⟨0, 3, .Horz⟩]
      else if i = 14 then [⟨0, 4, .Horz⟩]
      else [] }

/-- A 7 x 5 grid of the weight-based generator holding CAT in row 1 and TEA going
down from its T. -/
def catTeaCwg : Cwg :=
  { m_grid := [".......".toList, ".CAT...".toList, "...E...".toList, "...A...".toList,
      ".......".toList] }

/-- The grid `catTeaCwg` after EAR has been placed along row 3 through the A of TEA. -/
def catTeaEarCwg : Cwg :=
  { m_grid := [".......".toList, ".CAT...".toList, "...E...".toList, "..EAR..".toList,
      ".......".toList] }

/-- The empty 7 x 5 grid after ON has been placed: on the first scanned position,
column 1 of row 1. -/
def onCwg : Cwg :=
  { m_grid := [".......".toList, ".ON....".toList, ".......".toList, ".......".toList,
      ".......".toList] }

/-- A 5 x 5 grid seeded with the seven-letter word ABCDEFG written horizontally: the
letters F and G are stored at offsets 5 and 6, the first two cells of row 1, and
recorded at columns 5 and 6 of row 0. -/
def longSeedGrid : Grid :=
  { m_size := 5
    m_grid := "ABCDEFG..................".toList
    m_letters := fun i =>
      if i = 0 then [⟨0, 0, .Vert⟩]
      else if i = 1 then [⟨0, 1, .Horz⟩]
      else if i = 2 then [⟨0, 2, .Horz⟩]
      else if i = 3 then [⟨0, 3, .Horz⟩]
      else if i = 4 then [⟨0, 4, .Horz⟩]
      else if i = 5 then [⟨0, 5, .Horz⟩]
      else if i = 6 then [⟨0, 6, .Horz⟩]
      else [] }

/-- The state after FXY has crossed the entry of F at row 0, column 5: the letters
X and Y are stored at offsets 10 and 15, the first cells of rows 2 and 3. -/
def longSeedFxyGrid : Grid :=
  { m_size := 5
    m_grid := "ABCDEFG...X....Y.........".toList
    m_letters := fun i =>
      if i = 0 then [⟨0, 0, .Vert⟩]
      else if i = 1 then [⟨0, 1, .Horz⟩]
      else if i = 2 then [⟨0, 2, .Horz⟩]
      else if i = 3 then [⟨0, 3, .Horz⟩]
      else if i = 4 then [⟨0, 4, .Horz⟩]
      else if i = 6 then [⟨0, 6, .Horz⟩]
      else if i = 23 then [⟨1, 5, .Vert⟩]
      else if i = 24 then [⟨2, 5, .Vert⟩]
      else [] }

/-- The 3 x 3 grid seeded with CATS after TOP has crossed the T at `(0, 2)`. -/
def catsTopGrid : Grid :=
  { m_size := 3
    m_grid := "CATS.O..P".toList
    m_letters := fun i =>
      if i = 0 then [⟨0, 1, .Horz⟩]
      else if i = 2 then [⟨0, 0, .Vert⟩]
      else if i = 14 then [⟨1, 2, .Vert⟩]
      else if i = 15 then [⟨2, 2, .Vert⟩]
      else if i = 18 then [⟨0, 3, .Horz⟩]
      else [] }

/-- A 7 x 5 grid of the weight-based generator holding the single letter C in
column 1 of row 1. -/
def cCwg : Cwg :=
  { m_grid := [".......".toList, ".C.....".toList, ".......".toList, ".......".toList,
      ".......".toList] }

/-! ## Outcomes and short-circuit evaluation -/

@[simp] theorem orElse_ok_true (b : Except Fault Bool) : Grid.orElse (.ok true) b = .ok true := rfl

@[simp] theorem orElse_ok_false (b : Except Fault Bool) : Grid.orElse (.ok false) b = b := rfl

theorem orElse_eq_false_iff (a b : Except Fault Bool) :
    Grid.orElse a b = .ok false ↔ a = .ok false ∧ b = .ok false := by
  rcases a with e | (_ | _) <;> simp [Grid.orElse]

theorem orElse_decide_eq_false_iff (P : Prop) [Decidable P] (b : Except Fault Bool) :
    Grid.orElse (.ok (decide P)) b = .ok false ↔ ¬ P ∧ b = .ok false := by
  by_cases h : P <;> simp [h, Grid.orElse]

namespace Grid

theorem notEmpty_eq_false_iff (g : Grid) (r c : Int) :
    g.notEmpty r c = .ok false ↔ g.empty r c = .ok true := by
  unfold notEmpty
  rcases g.empty r c with e | (_ | _) <;> simp

theorem andNotEmpty_eq_false_iff (g : Grid) (P : Prop) [Decidable P] (r c : Int) :
    g.andNotEmpty (decide P) r c = .ok false ↔ (P → g.empty r c = .ok true) := by
  unfold andNotEmpty
  by_cases h : P <;> simp [h, notEmpty_eq_false_iff]

theorem can_place_horz_loop_eq (g : Grid) (w r : Int) (n : Nat) (i c : Int) :
    g.can_place_horz_loop w r n i c =
      skipLoop (fun x => orElse (g.notEmpty r x)
        (orElse (g.andNotEmpty (decide (r > 0)) (r - 1) x)
          (g.andNotEmpty (decide (r < g.m_size - 1)) (r + 1) x))) w n i c := by
  induction n generalizing i c with
  | zero => rfl
  | succ n ih => simp only [can_place_horz_loop, skipLoop, ih]

theorem can_place_vert_loop_eq (g : Grid) (w c : Int) (n : Nat) (i r : Int) :
    g.can_place_vert_loop w c n i r =
      skipLoop (fun x => orElse (g.notEmpty x c)
        (orElse (g.andNotEmpty (decide (c > 0)) x (c - 1))
          (g.andNotEmpty (decide (c < g.m_size - 1)) x (c + 1)))) w n i r := by
  induction n generalizing i r with
  | zero => rfl
  | succ n ih => simp only [can_place_vert_loop, skipLoop, ih]

end Grid

theorem skipLoop_succ (test : Int → Except Fault Bool) (w : Int) (n : Nat) (i x : Int) :
    skipLoop test w (n + 1) i x =
      if i = w then skipLoop test w n (i + 1) (x + 1)
      else
        match test x with
        | .ok true => .ok false
        | .ok false => skipLoop test w n (i + 1) (x + 1)
        | .error e => .error e := rfl

theorem skipLoop_true_iff (test : Int → Except Fault Bool) (w : Int) (n : Nat) (i x : Int) :
    skipLoop test w n i x = .ok true ↔
      ∀ k : Nat, k < n → i + k ≠ w → test (x + k) = .ok false := by
  induction n generalizing i x with
  | zero => simp [skipLoop]
  | succ n ih =>
    have hsplit : (∀ k : Nat, k < n + 1 → i + k ≠ w → test (x + k) = .ok false) ↔
        ((i ≠ w → test x = .ok false) ∧
          ∀ k : Nat, k < n → i + 1 + k ≠ w → test (x + 1 + k) = .ok false) := by
      constructor
      · intro h
        refine ⟨fun hi => ?_, fun k hk hne => ?_⟩
        · have := h 0 (Nat.succ_pos n) (by simpa using hi)
          simpa using this
        · have := h (k + 1) (Nat.succ_lt_succ hk) (by push_cast; omega)
          have e : x + 1 + (k : Int) = x + ((k + 1 : Nat) : Int) := by push_cast; ring
          rw [e]; exact this
      · rintro ⟨h0, hs⟩ k hk hne
        cases k with
        | zero => simpa using h0 (by simpa using hne)
        | succ k =>
          have := hs k (Nat.lt_of_succ_lt_succ hk) (by push_cast at hne; omega)
          have e : x + 1 + (k : Int) = x + ((k + 1 : Nat) : Int) := by push_cast; ring
          rw [← e]; exact this
    rw [hsplit, ← ih, skipLoop_succ]
    by_cases hi : i = w
    · simp [hi]
    · simp only [hi, if_false]
      rcases test x with e | (_ | _) <;> simp [hi]

theorem skipLoop_returns (test : Int → Except Fault Bool) (w : Int) (n : Nat) (i x : Int)
    (h : ∀ k : Nat, k < n → i + k ≠ w → ∃ b, test (x + k) = .ok b) :
    ∃ b, skipLoop test w n i x = .ok b := by
  induction n generalizing i x with
  | zero => exact ⟨true, rfl⟩
  | succ n ih =>
    have hrec : ∃ b, skipLoop test w n (i + 1) (x + 1) = .ok b := by
      apply ih
      intro k hk hne
      have := h (k + 1) (Nat.succ_lt_succ hk) (by push_cast; omega)
      have e : x + 1 + (k : Int) = x + ((k + 1 : Nat) : Int) := by push_cast; ring
      rw [e]; exact this
    rw [skipLoop_succ]
    by_cases hi : i = w
    · simpa [hi] using hrec
    · simp only [hi, if_false]
      obtain ⟨b, hb⟩ := h 0 (Nat.succ_pos n) (by simpa using hi)
      simp only [Nat.cast_zero, add_zero] at hb
      rw [hb]
      cases b
      · simpa using hrec
      · exact ⟨false, rfl⟩

namespace Grid

theorem can_place_true_iff (g : Grid) (word : List Char) (w : Int) (p : Point) :
    g.can_place word w p = .ok true ↔ g.passes word.length w p := by
  have key : ∀ (a : Except Fault Bool) (b : Except Fault Bool),
      (match a with
        | .ok true => (Except.ok false : Except Fault Bool)
        | .ok false => b
        | .error e => .error e) = .ok true ↔ a = .ok false ∧ b = .ok true := by
    intro a b
    rcases a with e | (_ | _) <;> simp
  unfold can_place passes
  cases hd : p.dir
  · -- the entry is horizontal, the word runs vertically
    simp only [Dir.not, Dir.horz, step, along, across, Point.coord, if_false, Bool.false_eq_true]
    rw [key, can_place_vert_loop_eq, skipLoop_true_iff]
    simp only [orElse_decide_eq_false_iff, orElse_eq_false_iff, andNotEmpty_eq_false_iff,
      notEmpty_eq_false_iff, zero_add, ← sub_eq_add_neg, Except.ok.injEq,
      decide_eq_false_iff_not, not_lt, gt_iff_lt, and_assoc]
  · -- the entry is vertical, the word runs horizontally
    simp only [Dir.not, Dir.horz, step, along, across, Point.coord, if_true]
    rw [key, can_place_horz_loop_eq, skipLoop_true_iff]
    simp only [orElse_decide_eq_false_iff, orElse_eq_false_iff, andNotEmpty_eq_false_iff,
      notEmpty_eq_false_iff, zero_add, ← sub_eq_add_neg, Except.ok.injEq,
      decide_eq_false_iff_not, not_lt, gt_iff_lt, and_assoc]

end Grid

/-! ## Cells inside the grid -/

namespace Grid

theorem inside_inBuffer (g : Grid) (hs : g.sized) (rc : Int × Int) (h : g.inside rc) :
    g.inBuffer (g.offset rc.1 rc.2) := by
  obtain ⟨h1, h2, h3, h4⟩ := h
  unfold inBuffer offset
  rw [hs]
  constructor
  · have := mul_nonneg h1 (by omega : (0 : Int) ≤ g.m_size)
    omega
  · have h5 : rc.1 * g.m_size ≤ (g.m_size - 1) * g.m_size :=
      mul_le_mul_of_nonneg_right (by omega) (by omega)
    have h6 : (g.m_size - 1) * g.m_size = g.m_size * g.m_size - g.m_size := by ring
    omega

theorem empty_of_inBuffer (g : Grid) (r c : Int) (h : g.inBuffer (g.offset r c)) :
    g.empty r c = .ok (g.m_grid.getD (g.offset r c).toNat Empty == Empty) := by
  simp [empty, get, h]

theorem empty_of_inside (g : Grid) (hs : g.sized) (rc : Int × Int) (h : g.inside rc) :
    g.empty rc.1 rc.2 = .ok (g.cell rc == Empty) :=
  g.empty_of_inBuffer _ _ (g.inside_inBuffer hs rc h)

theorem empty_true_iff_of_inside (g : Grid) (hs : g.sized) (rc : Int × Int) (h : g.inside rc) :
    g.empty rc.1 rc.2 = .ok true ↔ g.cell rc = Empty := by
  rw [g.empty_of_inside hs rc h]
  simp

theorem guard_iff_outsideOrEmpty (g : Grid) (hs : g.sized) (rc : Int × Int) (P : Prop)
    (hP : P ↔ g.inside rc) :
    (P → g.empty rc.1 rc.2 = .ok true) ↔ g.outsideOrEmpty rc := by
  unfold outsideOrEmpty
  by_cases h : g.inside rc
  · rw [g.empty_true_iff_of_inside hs rc h]
    simp [h, hP]
  · simp [h, hP]

theorem passes_iff_legal (g : Grid) (L w : Nat) (p : Point) (hs : g.sized) (hw : w < L)
    (hp : g.inside p.coord) : g.passes L (w : Int) p ↔ g.legal L w p := by
  obtain ⟨hp1, hp2, hp3, hp4⟩ := hp
  simp only [Point.coord] at hp1 hp2 hp3 hp4
  unfold passes legal
  cases hd : p.dir
  · simp only [Dir.not, step, along, across, Point.coord]
    constructor
    · rintro ⟨hb1, hb2, h3, h4, h5⟩
      refine ⟨fun k hk => ?_, ⟨?_, ?_⟩, fun k hk hne => ?_⟩
      · simp only [inside]; omega
      · exact (g.guard_iff_outsideOrEmpty hs _ _ (by simp only [inside]; omega)).mp h3
      · exact (g.guard_iff_outsideOrEmpty hs _ _ (by simp only [inside]; omega)).mp h4
      · obtain ⟨e1, e2, e3⟩ := h5 k hk (by omega)
        refine ⟨?_, ?_, ?_⟩
        · exact (g.empty_true_iff_of_inside hs _ (by simp only [inside]; omega)).mp e1
        · exact (g.guard_iff_outsideOrEmpty hs _ _ (by simp only [inside]; omega)).mp e2
        · exact (g.guard_iff_outsideOrEmpty hs _ _ (by simp only [inside]; omega)).mp e3
    · rintro ⟨h1, ⟨h3, h4⟩, h5⟩
      have b0 := h1 0 (by omega)
      have b1 := h1 (L - 1) (by omega)
      simp only [inside] at b0 b1
      refine ⟨by omega, by omega, ?_, ?_, fun k hk hne => ?_⟩
      · exact (g.guard_iff_outsideOrEmpty hs _ _ (by simp only [inside]; omega)).mpr h3
      · exact (g.guard_iff_outsideOrEmpty hs _ _ (by simp only [inside]; omega)).mpr h4
      · obtain ⟨e1, e2, e3⟩ := h5 k hk (by omega)
        refine ⟨?_, ?_, ?_⟩
        · exact (g.empty_true_iff_of_inside hs _ (by simp only [inside]; omega)).mpr e1
        · exact (g.guard_iff_outsideOrEmpty hs _ _ (by simp only [inside]; omega)).mpr e2
        · exact (g.guard_iff_outsideOrEmpty hs _ _ (by simp only [inside]; omega)).mpr e3
  · simp only [Dir.not, step, along, across, Point.coord]
    constructor
    · rintro ⟨hb1, hb2, h3, h4, h5⟩
      refine ⟨fun k hk => ?_, ⟨?_, ?_⟩, fun k hk hne => ?_⟩
      · simp only [inside]; omega
      · exact (g.guard_iff_outsideOrEmpty hs _ _ (by simp only [inside]; omega)).mp h3
      · exact (g.guard_iff_outsideOrEmpty hs _ _ (by simp only [inside]; omega)).mp h4
      · obtain ⟨e1, e2, e3⟩ := h5 k hk (by omega)
        refine ⟨?_, ?_, ?_⟩
        · exact (g.empty_true_iff_of_inside hs _ (by simp only [inside]; omega)).mp e1
        · exact (g.guard_iff_outsideOrEmpty hs _ _ (by simp only [inside]; omega)).mp e2
        · exact (g.guard_iff_outsideOrEmpty hs _ _ (by simp only [inside]; omega)).mp e3
    · rintro ⟨h1, ⟨h3, h4⟩, h5⟩
      have b0 := h1 0 (by omega)
      have b1 := h1 (L - 1) (by omega)
      simp only [inside] at b0 b1
      refine ⟨by omega, by omega, ?_, ?_, fun k hk hne => ?_⟩
      · exact (g.guard_iff_outsideOrEmpty hs _ _ (by simp only [inside]; omega)).mpr h3
      · exact (g.guard_iff_outsideOrEmpty hs _ _ (by simp only [inside]; omega)).mpr h4
      · obtain ⟨e1, e2, e3⟩ := h5 k hk (by omega)
        refine ⟨?_, ?_, ?_⟩
        · exact (g.empty_true_iff_of_inside hs _ (by simp only [inside]; omega)).mpr e1
        · exact (g.guard_iff_outsideOrEmpty hs _ _ (by simp only [inside]; omega)).mpr e2
        · exact (g.guard_iff_outsideOrEmpty hs _ _ (by simp only [inside]; omega)).mpr e3

end Grid

theorem orElse_returns (a b : Except Fault Bool) (ha : ∃ x, a = .ok x)
    (hb : a = .ok false → ∃ y, b = .ok y) : ∃ z, Grid.orElse a b = .ok z := by
  obtain ⟨x, rfl⟩ := ha
  cases x
  · simpa using hb rfl
  · exact ⟨true, rfl⟩

namespace Grid

theorem notEmpty_returns (g : Grid) (r c : Int) (h : g.inBuffer (g.offset r c)) :
    ∃ b, g.notEmpty r c = .ok b := by
  unfold notEmpty
  rw [g.empty_of_inBuffer r c h]
  exact ⟨_, rfl⟩

theorem andNotEmpty_returns (g : Grid) (P : Prop) [Decidable P] (r c : Int)
    (h : P → g.inBuffer (g.offset r c)) : ∃ b, g.andNotEmpty (decide P) r c = .ok b := by
  unfold andNotEmpty
  by_cases hP : P
  · simpa [hP] using g.notEmpty_returns r c (h hP)
  · exact ⟨false, by simp [hP]⟩

theorem can_place_returns (g : Grid) (word : List Char) (w : Int) (p : Point) (hs : g.sized)
    (hp : g.inside p.coord) : ∃ b, g.can_place word w p = .ok b := by
  obtain ⟨hp1, hp2, hp3, hp4⟩ := hp
  simp only [Point.coord] at hp1 hp2 hp3 hp4
  have key : ∀ (a : Except Fault Bool) (b : Except Fault Bool), (∃ x, a = .ok x) →
      (a = .ok false → ∃ y, b = .ok y) →
      ∃ z : Bool, (match a with
        | .ok true => (Except.ok false : Except Fault Bool)
        | .ok false => b
        | .error e => .error e) = .ok z := by
    intro a b ha hb
    obtain ⟨x, rfl⟩ := ha
    cases x
    · simpa using hb rfl
    · exact ⟨false, rfl⟩
  have hin : ∀ r c : Int, 0 ≤ r → r < g.m_size → 0 ≤ c → c < g.m_size →
      g.inBuffer (g.offset r c) := fun r c h1 h2 h3 h4 =>
    g.inside_inBuffer hs (r, c) ⟨h1, h2, h3, h4⟩
  unfold can_place
  cases hd : p.dir
  · simp only [Dir.not, Dir.horz, if_false, Bool.false_eq_true]
    apply key
    · apply orElse_returns _ _ ⟨_, rfl⟩
      intro h1
      apply orElse_returns _ _ ⟨_, rfl⟩
      intro h2
      simp only [Except.ok.injEq, decide_eq_false_iff_not, not_lt, gt_iff_lt] at h1 h2
      apply orElse_returns
      · exact g.andNotEmpty_returns _ _ _ (fun h => hin _ _ (by omega) (by omega) hp3 hp4)
      · intro _
        exact g.andNotEmpty_returns _ _ _ (fun h => hin _ _ (by omega) (by omega) hp3 hp4)
    · intro h
      simp only [orElse_decide_eq_false_iff, not_lt, gt_iff_lt] at h
      obtain ⟨h1, h2, -⟩ := h
      rw [can_place_vert_loop_eq]
      apply skipLoop_returns
      intro k hk _
      apply orElse_returns
      · exact g.notEmpty_returns _ _ (hin _ _ (by omega) (by omega) hp3 hp4)
      · intro _
        apply orElse_returns
        · exact g.andNotEmpty_returns _ _ _ (fun h => hin _ _ (by omega) (by omega) (by omega) (by omega))
        · intro _
          exact g.andNotEmpty_returns _ _ _ (fun h => hin _ _ (by omega) (by omega) (by omega) (by omega))
  · simp only [Dir.not, Dir.horz, if_true]
    apply key
    · apply orElse_returns _ _ ⟨_, rfl⟩
      intro h1
      apply orElse_returns _ _ ⟨_, rfl⟩
      intro h2
      simp only [Except.ok.injEq, decide_eq_false_iff_not, not_lt, gt_iff_lt] at h1 h2
      apply orElse_returns
      · exact g.andNotEmpty_returns _ _ _ (fun h => hin _ _ hp1 hp2 (by omega) (by omega))
      · intro _
        exact g.andNotEmpty_returns _ _ _ (fun h => hin _ _ hp1 hp2 (by omega) (by omega))
    · intro h
      simp only [orElse_decide_eq_false_iff, not_lt, gt_iff_lt] at h
      obtain ⟨h1, h2, -⟩ := h
      rw [can_place_horz_loop_eq]
      apply skipLoop_returns
      intro k hk _
      apply orElse_returns
      · exact g.notEmpty_returns _ _ (hin _ _ hp1 hp2 (by omega) (by omega))
      · intro _
        apply orElse_returns
        · exact g.andNotEmpty_returns _ _ _ (fun h => hin _ _ (by omega) (by omega) (by omega) (by omega))
        · intro _
          exact g.andNotEmpty_returns _ _ _ (fun h => hin _ _ (by omega) (by omega) (by omega) (by omega))

end Grid

/-! ## The loop of `add_word` -/

namespace Point

@[simp] theorem setColrow_dir (p : Point) (v : Int) : (p.setColrow v).dir = p.dir := by
  unfold setColrow; split <;> rfl

@[simp] theorem setColrow_setColrow (p : Point) (v u : Int) :
    (p.setColrow v).setColrow u = p.setColrow u := by
  unfold setColrow
  cases hd : p.dir.horz <;> simp [hd]

theorem setColrow_coord (p : Point) (v : Int) :
    (p.setColrow v).coord = step p.dir (step p.dir p.coord (-(p.colrow))) v := by
  unfold setColrow colrow coord step
  cases hd : p.dir <;> simp [Dir.horz]

theorem differs_iff (p q : Point) : p.differs q = true ↔ p.coord ≠ q.coord := by
  unfold differs same coord
  simp only [Bool.not_eq_true', Bool.and_eq_false_imp, beq_iff_eq, ne_eq, Prod.mk.injEq, not_and]
  constructor
  · intro h h1
    simpa using h h1
  · intro h h1
    simpa using h h1

end Point

namespace Grid

theorem offAt_add (g : Grid) (pnt : Point) (x k : Int) :
    g.offAt pnt (x + k) = g.offAt pnt x + k * g.stride pnt.dir := by
  unfold offAt offset stride Point.setColrow
  cases hd : pnt.dir <;> simp [Dir.horz] <;> ring

theorem offAt_setColrow (g : Grid) (pnt : Point) (v x : Int) :
    g.offAt (pnt.setColrow v) x = g.offAt pnt x := by
  simp [offAt]

theorem set_ok_iff (g : Grid) (p : Point) (ch : Char) (g2 : Grid) :
    g.set p ch = .ok g2 ↔
      g.inBuffer (g.offset p.row p.col) ∧
        g2 = { g with m_grid := g.m_grid.set (g.offset p.row p.col).toNat ch } := by
  unfold set
  by_cases h : g.inBuffer (g.offset p.row p.col)
  · simp [h, eq_comm]
  · simp [h]

theorem add_word_loop_setColrow (cross_pnt pnt : Point) (v : Int) (cs : List Char) (pos : Int)
    (g : Grid) :
    add_word_loop cross_pnt (pnt.setColrow v) cs pos g = add_word_loop cross_pnt pnt cs pos g := by
  cases cs with
  | nil => rfl
  | cons ch rest => simp only [add_word_loop, Point.setColrow_setColrow]

/-- One iteration of the loop of `add_word`, read backwards from a normal outcome. -/
theorem add_word_loop_cons_ok (cross_pnt pnt : Point) (ch : Char) (rest : List Char) (pos : Int)
    (g g' : Grid) (h : add_word_loop cross_pnt pnt (ch :: rest) pos g = .ok g') :
    ∃ i, Letters.index ch = .ok i ∧
      g.inBuffer (g.offAt pnt pos) ∧
      add_word_loop cross_pnt pnt rest (pos + 1)
        { m_size := g.m_size
          m_grid := g.m_grid.set (g.offAt pnt pos).toNat ch
          m_letters :=
            if (pnt.setColrow pos).differs cross_pnt = true
              then Function.update g.m_letters i (g.m_letters i ++ [pnt.setColrow pos])
              else g.m_letters } = .ok g' := by
  simp only [add_word_loop] at h
  cases hi : Letters.index ch with
  | error e => simp [hi] at h
  | ok i =>
    simp only [hi] at h
    refine ⟨i, rfl, ?_⟩
    by_cases hd : (pnt.setColrow pos).differs cross_pnt = true
    · rw [if_pos hd] at h ⊢
      cases hs : (g.push i (pnt.setColrow pos)).set (pnt.setColrow pos) ch with
      | error e => simp [hs] at h
      | ok g2 =>
        simp only [hs] at h
        rw [add_word_loop_setColrow] at h
        obtain ⟨hb, rfl⟩ := (set_ok_iff _ _ _ _).mp hs
        exact ⟨hb, h⟩
    · rw [if_neg hd] at h ⊢
      cases hs : g.set (pnt.setColrow pos) ch with
      | error e => simp [hs] at h
      | ok g2 =>
        simp only [hs] at h
        rw [add_word_loop_setColrow] at h
        obtain ⟨hb, rfl⟩ := (set_ok_iff _ _ _ _).mp hs
        exact ⟨hb, h⟩

theorem add_word_loop_frame (cross_pnt pnt : Point) (cs : List Char) (pos : Int)
    (g g' : Grid) (h : add_word_loop cross_pnt pnt cs pos g = .ok g') :
    g'.m_size = g.m_size ∧ g'.m_grid.length = g.m_grid.length := by
  induction cs generalizing pos g with
  | nil =>
    simp only [add_word_loop, Except.ok.injEq] at h
    subst h
    exact ⟨rfl, rfl⟩
  | cons ch rest ih =>
    obtain ⟨i, -, -, h2⟩ := add_word_loop_cons_ok _ _ _ _ _ _ _ h
    have := ih _ _ h2
    simpa using this

theorem add_word_loop_letters (cross_pnt pnt : Point) (cs : List Char) (pos : Int)
    (g g' : Grid) (h : add_word_loop cross_pnt pnt cs pos g = .ok g') (i : Fin 26) :
    g'.m_letters i = g.m_letters i ++ newEntries cross_pnt pnt cs pos i := by
  induction cs generalizing pos g with
  | nil =>
    simp only [add_word_loop, Except.ok.injEq] at h
    subst h
    simp [newEntries]
  | cons ch rest ih =>
    obtain ⟨i0, hi0, -, h2⟩ := add_word_loop_cons_ok _ _ _ _ _ _ _ h
    rw [ih _ _ h2, newEntries, hi0]
    by_cases hd : (pnt.setColrow pos).differs cross_pnt = true
    · by_cases hii : i0 = i
      · subst hii
        simp [hd]
      · have hne : ¬ (Except.ok i0 : Except Fault (Fin 26)) = .ok i := fun h => hii (Except.ok.inj h)
        simp [hd, hne, Function.update_noteq (Ne.symm hii)]
    · simp [hd]

theorem add_word_loop_checked (cross_pnt pnt : Point) (cs : List Char) (pos : Int)
    (g g' : Grid) (h : add_word_loop cross_pnt pnt cs pos g = .ok g') :
    (∀ ch ∈ cs, ∃ i, Letters.index ch = .ok i) ∧
      ∀ k : Nat, k < cs.length → g.inBuffer (g.offAt pnt (pos + k)) := by
  induction cs generalizing pos g with
  | nil => simp
  | cons ch rest ih =>
    obtain ⟨i0, hi0, hb, h2⟩ := add_word_loop_cons_ok _ _ _ _ _ _ _ h
    obtain ⟨h3, h4⟩ := ih _ _ h2
    constructor
    · intro c hc
      rcases List.mem_cons.mp hc with rfl | hc
      · exact ⟨i0, hi0⟩
      · exact h3 c hc
    · intro k hk
      cases k with
      | zero => simpa using hb
      | succ k =>
        have := h4 k (by simpa using hk)
        simp only [inBuffer, offAt, offset, List.length_set] at this ⊢
        rw [show pos + ((k + 1 : Nat) : Int) = pos + 1 + k by push_cast; ring]
        exact this

theorem add_word_loop_other (cross_pnt pnt : Point) (cs : List Char) (pos : Int)
    (g g' : Grid) (h : add_word_loop cross_pnt pnt cs pos g = .ok g') (o : Nat)
    (ho : ∀ k : Nat, k < cs.length → (g.offAt pnt (pos + k)).toNat ≠ o) :
    g'.m_grid[o]? = g.m_grid[o]? := by
  induction cs generalizing pos g with
  | nil =>
    simp only [add_word_loop, Except.ok.injEq] at h
    subst h
    rfl
  | cons ch rest ih =>
    obtain ⟨i0, -, -, h2⟩ := add_word_loop_cons_ok _ _ _ _ _ _ _ h
    rw [ih _ _ h2]
    · have := ho 0 (by simp)
      simp only [Nat.cast_zero, add_zero] at this
      simp only [List.getElem?_set_ne this]
    · intro k hk
      have := ho (k + 1) (by simpa using hk)
      rw [show pos + ((k + 1 : Nat) : Int) = pos + 1 + k by push_cast; ring] at this
      simpa [offAt, offset] using this

theorem add_word_loop_run (cross_pnt pnt : Point) (cs : List Char) (pos : Int)
    (g g' : Grid) (h : add_word_loop cross_pnt pnt cs pos g = .ok g')
    (hst : g.stride pnt.dir ≠ 0) (k : Nat) (hk : k < cs.length) :
    g'.m_grid[(g.offAt pnt (pos + k)).toNat]? = some (cs.get ⟨k, hk⟩) := by
  induction cs generalizing pos g k with
  | nil => simp at hk
  | cons ch rest ih =>
    obtain ⟨i0, -, hb, h2⟩ := add_word_loop_cons_ok _ _ _ _ _ _ _ h
    cases k with
    | zero =>
      simp only [Nat.cast_zero, add_zero, List.get_eq_getElem, List.getElem_cons_zero]
      rw [add_word_loop_other _ _ _ _ _ _ h2]
      · simp only [List.getElem?_set, if_true]
        rw [if_pos]
        unfold inBuffer at hb
        omega
      · intro j hj
        obtain ⟨-, hin⟩ := add_word_loop_checked _ _ _ _ _ _ h2
        have hj2 := hin j hj
        simp only [inBuffer, offAt, offset, List.length_set] at hj2
        have e := g.offAt_add pnt pos (1 + j)
        simp only [inBuffer] at hb
        simp only [offAt, offset] at e hb ⊢
        rw [show pos + 1 + (j : Int) = pos + (1 + j) by ring] at hj2 ⊢
        intro heq
        have h3 : (1 + (j : Int)) * g.stride pnt.dir = 0 := by omega
        rcases mul_eq_zero.mp h3 with h4 | h4
        · omega
        · exact hst h4
    | succ k =>
      have := ih (pos + 1) _ h2 (by simpa using hst) k (by simpa using hk)
      rw [show pos + ((k + 1 : Nat) : Int) = pos + 1 + k by push_cast; ring]
      simpa [offAt, offset] using this

theorem add_word_loop_returns (cross_pnt pnt : Point) (cs : List Char) (pos : Int) (g : Grid)
    (hidx : ∀ ch ∈ cs, ∃ i, Letters.index ch = .ok i)
    (hbuf : ∀ k : Nat, k < cs.length → g.inBuffer (g.offAt pnt (pos + k))) :
    ∃ g', add_word_loop cross_pnt pnt cs pos g = .ok g' := by
  induction cs generalizing pos g with
  | nil => exact ⟨g, rfl⟩
  | cons ch rest ih =>
    obtain ⟨i, hi⟩ := hidx ch (List.mem_cons_self _ _)
    have hb := hbuf 0 (by simp)
    simp only [Nat.cast_zero, add_zero, offAt] at hb
    simp only [add_word_loop, hi]
    have hrest : ∀ g2 : Grid, g2.m_size = g.m_size → g2.m_grid.length = g.m_grid.length →
        ∃ g', add_word_loop cross_pnt pnt rest (pos + 1) g2 = .ok g' := by
      intro g2 e1 e2
      apply ih
      · exact fun c hc => hidx c (List.mem_cons_of_mem _ hc)
      · intro k hk
        have := hbuf (k + 1) (by simpa using hk)
        rw [show pos + ((k + 1 : Nat) : Int) = pos + 1 + k by push_cast; ring] at this
        simpa [inBuffer, offAt, offset, e1, e2] using this
    by_cases hd : (pnt.setColrow pos).differs cross_pnt = true
    · rw [if_pos hd]
      have hs : (g.push i (pnt.setColrow pos)).set (pnt.setColrow pos) ch =
          .ok { g.push i (pnt.setColrow pos) with
            m_grid := g.m_grid.set (g.offset (pnt.setColrow pos).row (pnt.setColrow pos).col).toNat ch } :=
        (set_ok_iff _ _ _ _).mpr ⟨hb, rfl⟩
      rw [hs]
      simp only [add_word_loop_setColrow]
      exact hrest _ rfl (by simp [push])
    · rw [if_neg hd]
      have hs : g.set (pnt.setColrow pos) ch =
          .ok { g with
            m_grid := g.m_grid.set (g.offset (pnt.setColrow pos).row (pnt.setColrow pos).col).toNat ch } :=
        (set_ok_iff _ _ _ _).mpr ⟨hb, rfl⟩
      rw [hs]
      simp only [add_word_loop_setColrow]
      exact hrest _ rfl (by simp)

end Grid

/-! ## `add_word` as a whole -/

theorem runCell_self (p : Point) (w : Int) : runCell p w w = p.coord := by
  unfold runCell step Point.coord
  cases p.dir <;> simp [Dir.not]

theorem runCell_eq_iff (p : Point) (w k : Int) : runCell p w k = p.coord ↔ k = w := by
  unfold runCell step Point.coord
  cases p.dir <;> simp [Dir.not] <;> constructor <;> intro h <;> omega

theorem runCell_inj (p : Point) (w k l : Int) (h : runCell p w k = runCell p w l) : k = l := by
  unfold runCell step Point.coord at h
  cases hd : p.dir <;> simp [Dir.not, hd] at h <;> omega

theorem flip_setColrow (p : Point) (w k : Int) :
    p.flip.setColrow (p.flip.colrow - w + k) = runPoint p w k := by
  unfold runPoint runCell step Point.flip Point.setColrow Point.colrow Point.coord
  cases hd : p.dir <;> simp [Dir.not, Dir.horz] <;> ring

namespace Grid

theorem offAt_flip (g : Grid) (p : Point) (w k : Int) :
    g.offAt p.flip (p.flip.colrow - w + k) = g.offset (runCell p w k).1 (runCell p w k).2 := by
  unfold offAt
  rw [flip_setColrow]
  rfl

theorem add_word_eq_loop (g : Grid) (word : List Char) (w : Int) (p : Point)
    (hstart : 0 ≤ p.flip.colrow - w) :
    g.add_word word w p = add_word_loop p p.flip word (p.flip.colrow - w) g := by
  unfold add_word
  simp only [Point.flip] at hstart ⊢
  rw [if_pos hstart, add_word_loop_setColrow]

end Grid

theorem newEntries_eq_filterMap (cross_pnt pnt : Point) (start : Int) (i : Fin 26)
    (cs : List Char) (n : Nat) :
    newEntries cross_pnt pnt cs (start + n) i =
      (cs.enumFrom n).filterMap fun kc =>
        if Letters.index kc.2 = .ok i ∧ (pnt.setColrow (start + kc.1)).differs cross_pnt = true
          then some (pnt.setColrow (start + kc.1)) else none := by
  induction cs generalizing n with
  | nil => simp [newEntries]
  | cons ch rest ih =>
    have := ih (n + 1)
    rw [show start + ((n + 1 : Nat) : Int) = start + n + 1 by push_cast; ring] at this
    rw [newEntries, this, List.enumFrom_cons, List.filterMap_cons]
    by_cases hc : Letters.index ch = .ok i ∧ (pnt.setColrow (start + n)).differs cross_pnt = true
    · simp [hc]
    · simp [hc]

theorem newEntries_eq_appended (word : List Char) (w : Nat) (p : Point) (i : Fin 26) :
    newEntries p p.flip word (p.flip.colrow - w) i = appended word w p i := by
  have := newEntries_eq_filterMap p p.flip (p.flip.colrow - w) i word 0
  simp only [Nat.cast_zero, add_zero] at this
  rw [this]
  unfold appended List.enum
  congr 1
  funext kc
  rw [flip_setColrow]
  have h1 : (runPoint p w kc.1).differs p = true ↔ kc.1 ≠ w := by
    rw [Point.differs_iff]
    have h2 : (runPoint p w kc.1).coord = runCell p w kc.1 := rfl
    rw [h2, Ne, runCell_eq_iff]
    exact_mod_cast Iff.rfl
  simp only [h1, and_comm]

/-! ## The search of `place_crossing_word` -/

theorem drop_eq_cons (word : List Char) (n : Nat) (ch : Char) (rest : List Char)
    (h : word.drop n = ch :: rest) : word[n]? = some ch ∧ word.drop (n + 1) = rest := by
  constructor
  · have := congrArg (fun l => l[0]?) h
    simpa [List.getElem?_drop] using this
  · have := congrArg (fun l => l.drop 1) h
    simpa [List.drop_drop, Nat.add_comm] using this

namespace Grid

theorem scan_some (g : Grid) (word : List Char) (w : Nat) (i : Fin 26) (ps : List Point)
    (j0 : Nat) (g' : Grid) (h : place_crossing_scan g word w i ps j0 = .ok (some g')) :
    ∃ j p, ps[j]? = some p ∧ g.can_place word w p = .ok true ∧
      (∀ j' p', j' < j → ps[j']? = some p' → g.can_place word w p' = .ok false) ∧
      (g.erase i (j0 + j)).add_word word w p = .ok g' := by
  induction ps generalizing j0 with
  | nil => simp [place_crossing_scan] at h
  | cons p ps ih =>
    simp only [place_crossing_scan] at h
    rcases hc : g.can_place word w p with e | (_ | _)
    · simp [hc] at h
    · simp only [hc] at h
      obtain ⟨j, q, h1, h2, h3, h4⟩ := ih (j0 + 1) h
      refine ⟨j + 1, q, by simpa using h1, h2, ?_, ?_⟩
      · intro j' p' hj' hp'
        cases j' with
        | zero =>
          simp only [List.getElem?_cons_zero, Option.some.injEq] at hp'
          subst hp'
          exact hc
        | succ j' => exact h3 j' p' (by omega) (by simpa using hp')
      · rw [show j0 + (j + 1) = j0 + 1 + j by omega]
        exact h4
    · simp only [hc] at h
      refine ⟨0, p, by simp, hc, ?_, ?_⟩
      · intro j' p' hj'
        omega
      · cases ha : (g.erase i j0).add_word word w p with
        | error e => simp [ha] at h
        | ok g2 =>
          simp only [ha, Except.ok.injEq, Option.some.injEq] at h
          subst h
          exact ha

theorem scan_none (g : Grid) (word : List Char) (w : Nat) (i : Fin 26) (ps : List Point)
    (j0 : Nat) (h : place_crossing_scan g word w i ps j0 = .ok none) :
    ∀ p ∈ ps, g.can_place word w p = .ok false := by
  induction ps generalizing j0 with
  | nil => simp
  | cons p ps ih =>
    simp only [place_crossing_scan] at h
    rcases hc : g.can_place word w p with e | (_ | _)
    · simp [hc] at h
    · simp only [hc] at h
      intro q hq
      rcases List.mem_cons.mp hq with rfl | hq
      · exact hc
      · exact ih (j0 + 1) h q hq
    · simp only [hc] at h
      cases ha : (g.erase i j0).add_word word w p with
      | error e => simp [ha] at h
      | ok g2 => simp [ha] at h

theorem scan_returns (g : Grid) (word : List Char) (w : Nat) (i : Fin 26) (ps : List Point)
    (j0 : Nat) (hc : ∀ p ∈ ps, ∃ b, g.can_place word w p = .ok b)
    (ha : ∀ j p, ps[j]? = some p → g.can_place word w p = .ok true →
      ∃ g', (g.erase i (j0 + j)).add_word word w p = .ok g') :
    ∃ r, place_crossing_scan g word w i ps j0 = .ok r := by
  induction ps generalizing j0 with
  | nil => exact ⟨none, rfl⟩
  | cons p ps ih =>
    simp only [place_crossing_scan]
    obtain ⟨b, hb⟩ := hc p (List.mem_cons_self _ _)
    rw [hb]
    cases b
    · simp only
      apply ih
      · exact fun q hq => hc q (List.mem_cons_of_mem _ hq)
      · intro j q hq hq2
        have := ha (j + 1) q (by simpa using hq) hq2
        rw [show j0 + (j + 1) = j0 + 1 + j by omega] at this
        exact this
    · simp only
      obtain ⟨g', hg'⟩ := ha 0 p (by simp) hb
      simp only [Nat.add_zero] at hg'
      rw [hg']
      exact ⟨_, rfl⟩

theorem candidate_eq_some (g : Grid) (word : List Char) (w j : Nat) (i : Fin 26) (p : Point) :
    g.candidate word w j = some (i, p) ↔
      ∃ ch, word[w]? = some ch ∧ Letters.index ch = .ok i ∧ (g.m_letters i)[j]? = some p := by
  cases hw : word[w]? with
  | none => simp [candidate, hw]
  | some ch =>
    cases hi : Letters.index ch with
    | error e => simp [candidate, hw, hi]
    | ok i0 =>
      cases hj : (g.m_letters i0)[j]? with
      | none =>
        simp only [candidate, hw, hi, hj, Option.map_none', Option.some.injEq, exists_eq_left',
          Except.ok.injEq]
        constructor
        · intro h
          cases h
        · rintro ⟨rfl, h⟩
          rw [hj] at h
          cases h
      | some q =>
        simp only [candidate, hw, hi, hj, Option.map_some', Option.some.injEq, Prod.mk.injEq,
          exists_eq_left', Except.ok.injEq]
        constructor
        · rintro ⟨rfl, rfl⟩
          exact ⟨rfl, hj⟩
        · rintro ⟨rfl, h⟩
          rw [hj] at h
          exact ⟨rfl, Option.some.inj h⟩

theorem fits_iff (g : Grid) (word : List Char) (w j : Nat) :
    g.fits word w j ↔ ∃ ch i p, word[w]? = some ch ∧ Letters.index ch = .ok i ∧
      (g.m_letters i)[j]? = some p ∧ g.can_place word w p = .ok true := by
  unfold fits
  cases hc : g.candidate word w j with
  | none =>
    simp only [false_iff]
    rintro ⟨ch, i, p, h1, h2, h3, -⟩
    have := (g.candidate_eq_some word w j i p).mpr ⟨ch, h1, h2, h3⟩
    rw [hc] at this
    cases this
  | some ip =>
    obtain ⟨i, p⟩ := ip
    obtain ⟨ch, h1, h2, h3⟩ := (g.candidate_eq_some word w j i p).mp hc
    simp only
    constructor
    · intro h
      exact ⟨ch, i, p, h1, h2, h3, h⟩
    · rintro ⟨ch', i', p', q1, q2, q3, q4⟩
      rw [h1] at q1
      cases q1
      rw [h2] at q2
      cases q2
      rw [h3] at q3
      cases q3
      exact q4

theorem loop_false (g : Grid) (word rest : List Char) (w0 : Nat) (g' : Grid)
    (h : place_crossing_loop g word rest w0 = .ok (false, g')) (hrest : rest = word.drop w0) :
    g' = g ∧ ∀ w' j', w0 ≤ w' → ¬ g.fits word w' j' := by
  induction rest generalizing w0 with
  | nil =>
    simp only [place_crossing_loop, Except.ok.injEq, Prod.mk.injEq, true_and] at h
    refine ⟨h.symm, fun w' j' hw' hf => ?_⟩
    obtain ⟨ch, i, p, h1, -⟩ := (g.fits_iff word w' j').mp hf
    have hlen : word.length ≤ w0 := List.drop_eq_nil_iff.mp hrest.symm
    have : word[w']? = none := List.getElem?_eq_none (by omega)
    rw [this] at h1
    cases h1
  | cons ch rest ih =>
    obtain ⟨hch, hdrop⟩ := drop_eq_cons word w0 ch rest hrest.symm
    simp only [place_crossing_loop] at h
    cases hi : Letters.index ch with
    | error e => simp [hi] at h
    | ok i =>
      simp only [hi] at h
      rcases hs : place_crossing_scan g word w0 i (g.m_letters i) 0 with e | (_ | g2)
      · simp [hs] at h
      · simp only [hs] at h
        obtain ⟨e1, e2⟩ := ih (w0 + 1) h hdrop.symm
        refine ⟨e1, fun w' j' hw' hf => ?_⟩
        by_cases hw0 : w' = w0
        · subst hw0
          obtain ⟨ch', i', p, h1, h2, h3, h4⟩ := (g.fits_iff word w' j').mp hf
          rw [hch] at h1
          cases h1
          rw [hi] at h2
          cases h2
          have := scan_none g word w' i _ 0 hs p (List.getElem?_mem h3)
          rw [this] at h4
          cases h4
        · exact e2 w' j' (by omega) hf
      · simp [hs] at h

theorem loop_true (g : Grid) (word rest : List Char) (w0 : Nat) (g' : Grid)
    (h : place_crossing_loop g word rest w0 = .ok (true, g')) (hrest : rest = word.drop w0) :
    ∃ w j i p, g.candidate word w j = some (i, p) ∧ g.fits word w j ∧
      (∀ w' j', w0 ≤ w' → earlier (w', j') (w, j) → ¬ g.fits word w' j') ∧
      (g.erase i j).add_word word w p = .ok g' := by
  induction rest generalizing w0 with
  | nil => simp [place_crossing_loop] at h
  | cons ch rest ih =>
    obtain ⟨hch, hdrop⟩ := drop_eq_cons word w0 ch rest hrest.symm
    simp only [place_crossing_loop] at h
    cases hi : Letters.index ch with
    | error e => simp [hi] at h
    | ok i =>
      simp only [hi] at h
      rcases hs : place_crossing_scan g word w0 i (g.m_letters i) 0 with e | (_ | g2)
      · simp [hs] at h
      · simp only [hs] at h
        obtain ⟨w, j, i2, p, h1, h2, h3, h4⟩ := ih (w0 + 1) h hdrop.symm
        refine ⟨w, j, i2, p, h1, h2, fun w' j' hw' he hf => ?_, h4⟩
        by_cases hw0 : w' = w0
        · subst hw0
          obtain ⟨ch', i', q, q1, q2, q3, q4⟩ := (g.fits_iff word w' j').mp hf
          rw [hch] at q1
          cases q1
          rw [hi] at q2
          cases q2
          have := scan_none g word w' i _ 0 hs q (List.getElem?_mem q3)
          rw [this] at q4
          cases q4
        · exact h3 w' j' (by omega) he hf
      · simp only [hs, Except.ok.injEq, Prod.mk.injEq, true_and] at h
        subst h
        obtain ⟨j, p, h1, h2, h3, h4⟩ := scan_some g word w0 i _ 0 g2 hs
        rw [Nat.zero_add] at h4
        have hcand : g.candidate word w0 j = some (i, p) :=
          (g.candidate_eq_some word w0 j i p).mpr ⟨ch, hch, hi, h1⟩
        refine ⟨w0, j, i, p, hcand, ?_, fun w' j' hw' he hf => ?_, h4⟩
        · exact (g.fits_iff word w0 j).mpr ⟨ch, i, p, hch, hi, h1, h2⟩
        · rcases he with he | ⟨he1, he2⟩
          · simp only at he
            omega
          · simp only at he1 he2
            subst he1
            obtain ⟨ch', i', q, q1, q2, q3, q4⟩ := (g.fits_iff word w' j').mp hf
            rw [hch] at q1
            cases q1
            rw [hi] at q2
            cases q2
            have := h3 j' q he2 q3
            rw [this] at q4
            cases q4

theorem loop_returns (g : Grid) (word rest : List Char) (w0 : Nat)
    (hidx : ∀ ch ∈ rest, ∃ i, Letters.index ch = .ok i)
    (hc : ∀ (w : Nat) (i : Fin 26) (p : Point), p ∈ g.m_letters i →
      ∃ b, g.can_place word w p = .ok b)
    (ha : ∀ (w : Nat) (i : Fin 26) (j : Nat) (p : Point), (g.m_letters i)[j]? = some p →
      g.can_place word w p = .ok true → ∃ g', (g.erase i j).add_word word w p = .ok g') :
    ∃ r, place_crossing_loop g word rest w0 = .ok r := by
  induction rest generalizing w0 with
  | nil => exact ⟨_, rfl⟩
  | cons ch rest ih =>
    obtain ⟨i, hi⟩ := hidx ch (List.mem_cons_self _ _)
    simp only [place_crossing_loop, hi]
    obtain ⟨r, hr⟩ := scan_returns g word w0 i (g.m_letters i) 0 (fun p hp => hc w0 i p hp)
      (fun j p hj hp => by rw [Nat.zero_add]; exact ha w0 i j p hj hp)
    rw [hr]
    cases r with
    | none => exact ih (w0 + 1) (fun c hc' => hidx c (List.mem_cons_of_mem _ hc'))
    | some g2 => exact ⟨_, rfl⟩

end Grid

/-! ## What a committed placement does -/

namespace Grid

theorem passes_start (g : Grid) (L : Nat) (w : Int) (p : Point) (h : g.passes L w p) :
    0 ≤ p.flip.colrow - w := by
  have h1 := h.1
  unfold along step Point.coord at h1
  unfold Point.flip Point.colrow
  cases hd : p.dir <;> simp [hd, Dir.not, Dir.horz] at h1 ⊢ <;> omega

theorem passes_size_pos (g : Grid) (L : Nat) (w : Int) (p : Point) (h : g.passes L w p)
    (hL : 0 < L) : 0 < g.m_size := by
  have h1 := h.1
  have h2 := h.2.1
  omega

theorem passes_run_inside (g : Grid) (L : Nat) (w : Int) (p : Point) (h : g.passes L w p)
    (hp : g.inside p.coord) (k : Nat) (hk : k < L) : g.inside (runCell p w k) := by
  have h1 := h.1
  have h2 := h.2.1
  obtain ⟨q1, q2, q3, q4⟩ := hp
  unfold along step Point.coord at h1 h2
  unfold inside runCell step Point.coord at *
  cases hd : p.dir <;> simp [hd, Dir.not] at h1 h2 q1 q2 q3 q4 ⊢ <;> omega

theorem passes_run_empty (g : Grid) (L : Nat) (w : Int) (p : Point) (h : g.passes L w p)
    (k : Nat) (hk : k < L) (hkw : (k : Int) ≠ w) :
    g.empty (runCell p w k).1 (runCell p w k).2 = .ok true :=
  (h.2.2.2.2 k hk hkw).1

theorem stride_ne_zero (g : Grid) (d : Dir) (h : 0 < g.m_size) : g.stride d ≠ 0 := by
  unfold stride
  cases d
  · simp
  · simp only
    omega

theorem commit_facts (g : Grid) (word : List Char) (w : Nat) (p : Point) (i : Fin 26) (j : Nat)
    (g' : Grid) (hp : g.passes word.length w p)
    (h : (g.erase i j).add_word word w p = .ok g') :
    g'.m_size = g.m_size ∧ g'.m_grid.length = g.m_grid.length ∧
    (∀ i', g'.m_letters i' = (g.erase i j).m_letters i' ++ appended word w p i') ∧
    alphabetic word ∧
    (∀ k : Nat, k < word.length → g.inBuffer (g.offset (runCell p w k).1 (runCell p w k).2)) ∧
    (∀ (k : Nat) (hk : k < word.length), g'.m_grid[g.slot (runCell p w k)]? = some (word.get ⟨k, hk⟩)) ∧
    (∀ o : Nat, (∀ k : Nat, k < word.length → g.slot (runCell p w k) ≠ o) →
      g'.m_grid[o]? = g.m_grid[o]?) := by
  have hstart := g.passes_start _ _ _ hp
  rw [add_word_eq_loop _ _ _ _ hstart] at h
  have hoff : ∀ k : Int, (g.erase i j).offAt p.flip (p.flip.colrow - w + k) =
      g.offset (runCell p w k).1 (runCell p w k).2 := fun k => offAt_flip _ p w k
  obtain ⟨f1, f2⟩ := add_word_loop_frame _ _ _ _ _ _ h
  obtain ⟨c1, c2⟩ := add_word_loop_checked _ _ _ _ _ _ h
  refine ⟨f1, f2, fun i' => ?_, c1, fun k hk => ?_, fun k hk => ?_, fun o ho => ?_⟩
  · rw [add_word_loop_letters _ _ _ _ _ _ h i', newEntries_eq_appended]
  · have := c2 k hk
    rw [hoff] at this
    exact this
  · by_cases hL : word.length = 0
    · omega
    · have hN : 0 < g.m_size := g.passes_size_pos _ _ _ hp (by omega)
      have := add_word_loop_run _ _ _ _ _ _ h (stride_ne_zero (g.erase i j) _ hN) k hk
      rw [hoff] at this
      exact this
  · apply add_word_loop_other _ _ _ _ _ _ h o
    intro k hk
    rw [hoff]
    exact ho k hk

end Grid

/-! ## The legality test (C1) -/

/-- The concrete scenario state is what the seed placement produces. -/
theorem catGrid_is_seeded :
    (Grid.new 5).place_initial_word .Vert "CAT".toList = .ok catGrid := by decide

/-- The second scenario state is what crossing ATE into the first produces. -/
theorem catAteGrid_is_crossed :
    catGrid.place_crossing_word "ATE".toList = .ok (true, catAteGrid) := by decide

/-- C1. On a grid whose buffer holds `m_size * m_size` cells, for a letter position
`w` inside the word and a candidate whose coordinate lies inside the grid,
`can_place` returns, and it returns `true` exactly when the legality test of the
specification holds: the run lies inside the grid, the cells before the start
and after the end are outside the grid or `Empty`, and every cell of the run
other than index `w` is `Empty` with both perpendicular neighbours outside the
grid or `Empty`. -/
theorem can_place_eq_legal (g : Grid) (word : List Char) (w : Nat) (p : Point)
    (hs : g.sized) (hw : w < word.length) (hp : g.inside p.coord) :
    g.can_place word (w : Int) p = .ok (decide (g.legal word.length w p)) := by
  obtain ⟨b, hb⟩ := g.can_place_returns word w p hs hp
  have hiff := (g.can_place_true_iff word w p).trans (g.passes_iff_legal _ w p hs hw hp)
  rw [hb]
  cases b
  · have : ¬ g.legal word.length w p := fun h => by
      have := hiff.mpr h
      rw [hb] at this
      cases this
    simp [this]
  · have : g.legal word.length w p := hiff.mp hb
    simp [this]

/-- C1 at the scenario: ATE through the A of CAT is legal and `can_place` says so. -/
theorem can_place_eq_legal_witness :
    catGrid.sized ∧ 0 < "ATE".toList.length ∧ catGrid.inside (Point.mk 0 1 .Horz).coord ∧
      catGrid.can_place "ATE".toList ((0 : Nat) : Int) ⟨0, 1, .Horz⟩ =
        .ok (decide (catGrid.legal "ATE".toList.length 0 ⟨0, 1, .Horz⟩)) :=
  ⟨by decide, by decide, by decide,
    can_place_eq_legal catGrid "ATE".toList 0 ⟨0, 1, .Horz⟩ (by decide) (by decide) (by decide)⟩

/-! ## Crossing attempts: failure (C2), index update (C4) -/

namespace Grid

theorem slot_inj (g : Grid) (rc rc' : Int × Int) (h : g.inside rc) (h' : g.inside rc')
    (e : g.slot rc = g.slot rc') : rc = rc' := by
  obtain ⟨a1, a2, a3, a4⟩ := h
  obtain ⟨b1, b2, b3, b4⟩ := h'
  unfold slot offset at e
  have hN : (0 : Int) ≤ g.m_size := by omega
  have n1 : 0 ≤ rc.1 * g.m_size := mul_nonneg a1 hN
  have n2 : 0 ≤ rc'.1 * g.m_size := mul_nonneg b1 hN
  have e2 : rc.1 * g.m_size + rc.2 = rc'.1 * g.m_size + rc'.2 := by omega
  have hrow : rc.1 = rc'.1 := by
    rcases lt_trichotomy rc.1 rc'.1 with hlt | heq | hgt
    · have : (rc.1 + 1) * g.m_size ≤ rc'.1 * g.m_size :=
        mul_le_mul_of_nonneg_right (by omega) hN
      have e3 : (rc.1 + 1) * g.m_size = rc.1 * g.m_size + g.m_size := by ring
      omega
    · exact heq
    · have : (rc'.1 + 1) * g.m_size ≤ rc.1 * g.m_size :=
        mul_le_mul_of_nonneg_right (by omega) hN
      have e3 : (rc'.1 + 1) * g.m_size = rc'.1 * g.m_size + g.m_size := by ring
      omega
  have hcol : rc.2 = rc'.2 := by
    rw [hrow] at e2
    omega
  exact Prod.ext hrow hcol

theorem cell_eq (g : Grid) (rc : Int × Int) : g.cell rc = (g.m_grid[g.slot rc]?).getD Empty := by
  simp [cell, slot]

theorem indexInside_apply (g : Grid) (h : g.indexInside) (i : Fin 26) (p : Point)
    (hp : p ∈ g.m_letters i) : g.inside p.coord :=
  h i (List.mem_finRange i) p hp

/-- A successful call went through the least legal pair, and its outcome is the
entry's erasure followed by `add_word`. -/
theorem place_crossing_word_true (g : Grid) (word : List Char) (g' : Grid)
    (h : g.place_crossing_word word = .ok (true, g')) :
    ∃ w j i p, g.candidate word w j = some (i, p) ∧ g.firstFit word w j ∧
      g.passes word.length w p ∧ w < word.length ∧
      (g.erase i j).add_word word w p = .ok g' := by
  obtain ⟨w, j, i, p, h1, h2, h3, h4⟩ := g.loop_true word word 0 g' h (by simp)
  refine ⟨w, j, i, p, h1, ⟨h2, fun w' j' he => h3 w' j' (Nat.zero_le _) he⟩, ?_, ?_, h4⟩
  · obtain ⟨ch, i', p', q1, q2, q3, q4⟩ := (g.fits_iff word w j).mp h2
    obtain ⟨ch2, r1, r2, r3⟩ := (g.candidate_eq_some word w j i p).mp h1
    rw [q1] at r1
    cases r1
    rw [q2] at r2
    cases r2
    rw [q3] at r3
    cases r3
    exact (g.can_place_true_iff word w _).mp q4
  · obtain ⟨ch2, r1, -⟩ := (g.candidate_eq_some word w j i p).mp h1
    by_contra hlt
    have : word[w]? = none := List.getElem?_eq_none (by omega)
    rw [this] at r1
    cases r1

theorem add_word_returns (g : Grid) (word : List Char) (w : Nat) (p : Point) (i : Fin 26)
    (j : Nat) (hs : g.sized) (hp : g.inside p.coord) (hpass : g.passes word.length w p)
    (hw : alphabetic word) : ∃ g', (g.erase i j).add_word word w p = .ok g' := by
  rw [add_word_eq_loop _ _ _ _ (g.passes_start _ _ _ hpass)]
  apply add_word_loop_returns _ _ _ _ _ hw
  intro k hk
  rw [offAt_flip]
  exact g.inside_inBuffer hs _ (g.passes_run_inside _ _ _ hpass hp k hk)

theorem place_crossing_word_returns (g : Grid) (word : List Char) (hs : g.sized)
    (hin : g.indexInside) (hw : alphabetic word) : ∃ r, g.place_crossing_word word = .ok r := by
  apply g.loop_returns word word 0 hw
  · intro w i p hp
    exact g.can_place_returns word w p hs (g.indexInside_apply hin i p hp)
  · intro w i j p hj hc
    exact g.add_word_returns word w p i j hs
      (g.indexInside_apply hin i p (List.getElem?_mem hj))
      ((g.can_place_true_iff word w p).mp hc) hw

theorem mem_appended (word : List Char) (w : Nat) (p : Point) (i : Fin 26) (q : Point) :
    q ∈ appended word w p i ↔
      ∃ (k : Nat) (hk : k < word.length), k ≠ w ∧ Letters.index (word.get ⟨k, hk⟩) = .ok i ∧
        q = runPoint p w k := by
  unfold appended
  simp only [List.mem_filterMap, Prod.exists]
  constructor
  · rintro ⟨k, ch, hmem, hq⟩
    obtain ⟨hk, hget⟩ := List.mk_mem_enum_iff_getElem?.mp hmem |> fun h =>
      (List.getElem?_eq_some_iff.mp h)
    by_cases hc : k ≠ w ∧ Letters.index ch = .ok i
    · rw [if_pos hc] at hq
      refine ⟨k, hk, hc.1, ?_, (Option.some.inj hq).symm⟩
      simp only [List.get_eq_getElem, hget]
      exact hc.2
    · rw [if_neg hc] at hq
      cases hq
  · rintro ⟨k, hk, h1, h2, rfl⟩
    refine ⟨k, word.get ⟨k, hk⟩, ?_, ?_⟩
    · exact List.mk_mem_enum_iff_getElem?.mpr (by simp)
    · rw [if_pos ⟨h1, h2⟩]

end Grid

/-- A failed attempt returns the state it was given. -/
theorem failed_attempt_state (g : Grid) (word : List Char) (g' : Grid)
    (h : g.place_crossing_word word = .ok (false, g')) : g' = g :=
  (g.loop_false word word 0 g' h (by simp)).1

/-- C2. A failed attempt has no side effects: when `place_crossing_word` returns
`false`, the state after the call (size, every grid cell, every position list)
is the state before it. -/
theorem place_crossing_word_false_unchanged (g : Grid) (word : List Char) (g' : Grid)
    (h : g.place_crossing_word word = .ok (false, g')) : g' = g :=
  (g.loop_false word word 0 g' h (by simp)).1

/-- C2 at the scenario: after ATE has crossed CAT, the word TO finds two recorded
T positions, both illegal; the call returns `false` and leaves the state as it was. -/
theorem place_crossing_word_false_unchanged_witness :
    catAteGrid.place_crossing_word "TO".toList = .ok (false, catAteGrid) ∧
      catAteGrid = catAteGrid :=
  ⟨by decide,
    place_crossing_word_false_unchanged catAteGrid "TO".toList catAteGrid (by decide)⟩

/-- C4. Index update on commit. When `place_crossing_word` succeeds it does so
through the first legal entry `p`, the `j`-th of the list `i` of `word[w]`, and
the new position lists are: for list `i` the old list with its `j`-th entry erased,
for every other list the old list, each followed by the entries `appended`,
one for every `k` other than `w` whose letter belongs to the list, in increasing
`k`, at the coordinate of the `k`-th cell and tagged with the run direction of
the new word.  No appended entry has the coordinate of `p`: the consumed entry
is not recorded again. -/
theorem place_crossing_word_index (g : Grid) (word : List Char) (g' : Grid)
    (h : g.place_crossing_word word = .ok (true, g')) :
    ∃ w j i p, g.candidate word w j = some (i, p) ∧ g.firstFit word w j ∧
      (∀ i', g'.m_letters i' =
        (if i' = i then (g.m_letters i').eraseIdx j else g.m_letters i') ++
          appended word w p i') ∧
      ∀ i', ∀ q ∈ appended word w p i', q.coord ≠ p.coord ∧ q.dir = p.dir.not := by
  obtain ⟨w, j, i, p, h1, h2, h3, h4, h5⟩ := g.place_crossing_word_true word g' h
  obtain ⟨-, -, f3, -⟩ := g.commit_facts word w p i j g' h3 h5
  refine ⟨w, j, i, p, h1, h2, fun i' => ?_, fun i' q hq => ?_⟩
  · rw [f3 i']
    congr 1
    by_cases hi : i' = i
    · subst hi
      simp [Grid.erase]
    · simp [Grid.erase, hi]
  · obtain ⟨k, hk, hkw, -, rfl⟩ := (Grid.mem_appended word w p i' q).mp hq
    refine ⟨fun e => ?_, rfl⟩
    have e2 : runCell p w k = p.coord := e
    have := (runCell_eq_iff p w k).mp e2
    exact hkw (by exact_mod_cast this)

/-- C4 at the scenario: after ATE crosses CAT at `(0, 1)` the list for A no longer
contains `(0, 1)`, T has gained `(1, 1)` and E has gained `(2, 1)`, both tagged
vertical. -/
theorem place_crossing_word_index_witness :
    catGrid.place_crossing_word "ATE".toList = .ok (true, catAteGrid) ∧
      (∃ w j i p, catGrid.candidate "ATE".toList w j = some (i, p) ∧
        catGrid.firstFit "ATE".toList w j ∧
        (∀ i', catAteGrid.m_letters i' =
          (if i' = i then (catGrid.m_letters i').eraseIdx j else catGrid.m_letters i') ++
            appended "ATE".toList w p i') ∧
        ∀ i', ∀ q ∈ appended "ATE".toList w p i', q.coord ≠ p.coord ∧ q.dir = p.dir.not) ∧
      (∀ q ∈ catAteGrid.m_letters 0, q.coord ≠ (0, 1)) ∧
      catAteGrid.m_letters 19 = catGrid.m_letters 19 ++ [⟨1, 1, .Vert⟩] ∧
      catAteGrid.m_letters 4 = catGrid.m_letters 4 ++ [⟨2, 1, .Vert⟩] :=
  ⟨by decide, place_crossing_word_index catGrid "ATE".toList catAteGrid (by decide),
    by decide, by decide, by decide⟩

/-! ## The seed placement (C6) -/

namespace Grid

theorem index_ne_Empty (ch : Char) (i : Fin 26) (h : Letters.index ch = .ok i) : ch ≠ Empty := by
  rintro rfl
  have e : Letters.index Empty = .error .badIndex := by decide
  rw [e] at h
  cases h

/-- What `place_initial_word` leaves on an empty grid: the entry pushed for the
first letter carries `d`, the loop of `add_word` runs from the anchor in direction
`opposite(d)` and records every further letter with that direction. -/
theorem seed_facts (size : Int) (d : Dir) (word : List Char) (g' : Grid)
    (h : (Grid.new size).place_initial_word d word = .ok g') :
    ∃ i, Letters.index (word.headD (Char.ofNat 0)) = .ok i ∧
      word ≠ [] ∧ size ≠ 0 ∧
      g'.m_size = size ∧ g'.m_grid.length = (size * size).toNat ∧
      (∀ i', g'.m_letters i' =
        (if i' = i then [⟨0, 0, d⟩] else []) ++ appended word 0 ⟨0, 0, d⟩ i') ∧
      alphabetic word ∧
      (∀ k : Nat, k < word.length →
        (Grid.new size).inBuffer ((Grid.new size).offset (runCell ⟨0, 0, d⟩ 0 k).1
          (runCell ⟨0, 0, d⟩ 0 k).2)) ∧
      (∀ (k : Nat) (hk : k < word.length),
        g'.m_grid[(Grid.new size).slot (runCell ⟨0, 0, d⟩ 0 k)]? = some (word.get ⟨k, hk⟩)) ∧
      (∀ o : Nat, (∀ k : Nat, k < word.length → (Grid.new size).slot (runCell ⟨0, 0, d⟩ 0 k) ≠ o) →
        g'.m_grid[o]? = some Empty ∨ (Grid.new size).m_grid.length ≤ o) := by
  unfold place_initial_word at h
  cases hi : Letters.index (word.headD (Char.ofNat 0)) with
  | error e =>
    rw [hi] at h
    cases h
  | ok i =>
    rw [hi] at h
    have hstart : 0 ≤ (Point.mk 0 0 d).flip.colrow - ((0 : Nat) : Int) := by
      simp only [Point.flip, Point.colrow]
      split <;> simp
    have h' : ((Grid.new size).push i ⟨0, 0, d⟩).add_word word ((0 : Nat) : Int) ⟨0, 0, d⟩ = .ok g' := by
      simpa using h
    rw [add_word_eq_loop _ _ _ _ hstart] at h'
    have hoff : ∀ k : Int, ((Grid.new size).push i ⟨0, 0, d⟩).offAt (Point.mk 0 0 d).flip
        ((Point.mk 0 0 d).flip.colrow - ((0 : Nat) : Int) + k) =
        (Grid.new size).offset (runCell ⟨0, 0, d⟩ ((0 : Nat) : Int) k).1
          (runCell ⟨0, 0, d⟩ ((0 : Nat) : Int) k).2 := fun k => offAt_flip _ _ _ k
    obtain ⟨f1, f2⟩ := add_word_loop_frame _ _ _ _ _ _ h'
    obtain ⟨c1, c2⟩ := add_word_loop_checked _ _ _ _ _ _ h'
    have hne : word ≠ [] := by
      rintro rfl
      have e : Letters.index (([] : List Char).headD (Char.ofNat 0)) = .error .badIndex := by
        decide
      rw [e] at hi
      cases hi
    have hlen : 0 < word.length := List.length_pos.mpr hne
    have hsz : size ≠ 0 := by
      rintro rfl
      have := c2 0 hlen
      simp [inBuffer, Grid.new, push] at this
      omega
    have hcells : ∀ k : Nat, k < word.length →
        (Grid.new size).inBuffer ((Grid.new size).offset (runCell ⟨0, 0, d⟩ 0 k).1
          (runCell ⟨0, 0, d⟩ 0 k).2) := by
      intro k hk
      have := c2 k hk
      rw [hoff] at this
      simpa using this
    refine ⟨i, rfl, hne, hsz, f1, ?_, fun i' => ?_, c1, hcells, fun k hk => ?_, fun o ho => ?_⟩
    · rw [f2]
      simp [Grid.new, push]
    · rw [add_word_loop_letters _ _ _ _ _ _ h' i', newEntries_eq_appended]
      congr 1
      by_cases hii : i' = i
      · subst hii
        simp [push, Grid.new]
      · simp [push, Grid.new, hii, Function.update_noteq hii]
    · have hst : ((Grid.new size).push i ⟨0, 0, d⟩).stride (Point.mk 0 0 d).flip.dir ≠ 0 := by
        unfold stride
        cases (Point.mk 0 0 d).flip.dir
        · simp
        · simpa [push, Grid.new] using hsz
      have := add_word_loop_run _ _ _ _ _ _ h' hst k hk
      rw [hoff] at this
      simpa [slot] using this
    · have := add_word_loop_other _ _ _ _ _ _ h' o (by
        intro k hk
        rw [hoff]
        simpa [slot] using ho k hk)
      rw [this]
      by_cases hlt : o < (Grid.new size).m_grid.length
      · left
        simp only [push, Grid.new, List.length_replicate] at hlt ⊢
        rw [List.getElem?_eq_getElem (by simpa using hlt)]
        simp
      · right
        omega

end Grid

theorem runCell_anchor (d : Dir) (k : Int) : runCell ⟨0, 0, d⟩ 0 k = step d.not (0, 0) k := by
  unfold runCell step Point.coord
  cases d <;> simp [Dir.not]

/-- C6 (what the code does). After `place_initial_word` on an empty grid, with `d`
the value of `Dir::rnd_dir()`: the word is written from the anchor `(0, 0)` in
direction `opposite(d)`; every entry recorded away from the anchor is tagged
`opposite(d)`, the direction of the word; but the entry recorded for the first
letter, at the anchor, is tagged `d`, the other direction. -/
theorem place_initial_word_first_tag (size : Int) (d : Dir) (word : List Char) (g' : Grid)
    (h : (Grid.new size).place_initial_word d word = .ok g') :
    ∃ i, Letters.index (word.headD (Char.ofNat 0)) = .ok i ∧
      (∀ (k : Nat) (hk : k < word.length),
        g'.m_grid[g'.slot (step d.not (0, 0) k)]? = some (word.get ⟨k, hk⟩)) ∧
      (g'.m_letters i).head? = some ⟨0, 0, d⟩ ∧
      (∀ i' q, q ∈ g'.m_letters i' → q.coord ≠ (0, 0) → q.dir = d.not) ∧
      d ≠ d.not := by
  obtain ⟨i, h1, -, -, h4, -, h6, -, -, h9, -⟩ := Grid.seed_facts size d word g' h
  refine ⟨i, h1, fun k hk => ?_, ?_, fun i' q hq hne => ?_, by cases d <;> simp [Dir.not]⟩
  · have := h9 k hk
    rw [runCell_anchor] at this
    simpa [Grid.slot, Grid.offset, h4, Grid.new] using this
  · rw [h6 i]
    simp
  · rw [h6 i'] at hq
    rcases List.mem_append.mp hq with hq | hq
    · by_cases hii : i' = i
      · simp only [hii, if_true, List.mem_singleton] at hq
        subst hq
        exact absurd rfl hne
      · simp [hii] at hq
    · obtain ⟨k, hk, -, -, rfl⟩ := (Grid.mem_appended word 0 _ i' q).mp hq
      rfl

/-- C6 at the scenario: with `rnd_dir()` returning `Vert`, CAT is written
horizontally, A and T are recorded as horizontal, and C at the anchor is recorded
as vertical. -/
theorem place_initial_word_first_tag_witness :
    (Grid.new 5).place_initial_word .Vert "CAT".toList = .ok catGrid ∧
      (∃ i, Letters.index ("CAT".toList.headD (Char.ofNat 0)) = .ok i ∧
        (∀ (k : Nat) (hk : k < "CAT".toList.length),
          catGrid.m_grid[catGrid.slot (step Dir.Vert.not (0, 0) k)]? =
            some ("CAT".toList.get ⟨k, hk⟩)) ∧
        (catGrid.m_letters i).head? = some ⟨0, 0, .Vert⟩ ∧
        (∀ i' q, q ∈ catGrid.m_letters i' → q.coord ≠ (0, 0) → q.dir = Dir.Vert.not) ∧
        Dir.Vert ≠ Dir.Vert.not) ∧
      catGrid.cell (0, 0) = 'C' ∧ catGrid.cell (0, 1) = 'A' ∧ catGrid.cell (0, 2) = 'T' ∧
      catGrid.m_letters 2 = [⟨0, 0, .Vert⟩] ∧ catGrid.m_letters 0 = [⟨0, 1, .Horz⟩] ∧
      catGrid.m_letters 19 = [⟨0, 2, .Horz⟩] :=
  ⟨by decide, place_initial_word_first_tag 5 .Vert "CAT".toList catGrid (by decide),
    by decide, by decide, by decide, by decide, by decide, by decide⟩

/-! ## The generation loop: failure counter (C7) -/

theorem generate_loop_succ (maxTries : Int) (rnd : Nat → List Char) (fuel : Nat) (g : Grid)
    (i : Int) (n : Nat) (log : List Bool) :
    generate_loop maxTries rnd (fuel + 1) g i n log =
      if i < maxTries then
        match g.place_crossing_word (rnd n) with
        | .error e => .error e
        | .ok (placed, g2) =>
          generate_loop maxTries rnd fuel g2 ((if placed then 0 else i) + 1) (n + 1)
            (log ++ [placed])
      else .ok (some (g, log)) := rfl

/-- A run of failing attempts that exhausts the counter ends the loop. -/
theorem generate_loop_failures (maxTries : Int) (rnd : Nat → List Char) (g : Grid) (m : Nat)
    (i : Int) (n : Nat) (log : List Bool) (hi : i + m = maxTries)
    (hf : ∀ k : Nat, k < m → g.place_crossing_word (rnd (n + k)) = .ok (false, g)) :
    generate_loop maxTries rnd (m + 1) g i n log =
      .ok (some (g, log ++ List.replicate m false)) := by
  induction m generalizing i n log with
  | zero =>
    rw [generate_loop_succ, if_neg (by simp at hi; omega)]
    simp
  | succ m ih =>
    rw [generate_loop_succ, if_pos (by push_cast at hi; omega)]
    have h0 := hf 0 (by omega)
    rw [Nat.add_zero] at h0
    rw [h0]
    simp only [Bool.false_eq_true, if_false]
    rw [ih (i + 1) (n + 1) (log ++ [false]) (by push_cast at hi; omega)
      (fun k hk => by
        have := hf (k + 1) (by omega)
        rw [show n + (k + 1) = n + 1 + k by omega] at this
        exact this)]
    simp [List.replicate_succ]

/-- C7 (what the code does). When an attempt succeeds, the assignment `i = 0` is
followed by the `++i` of the loop header, so the counter restarts at 1: if the
attempts after the success all fail, the loop ends after `maxTries - 1` of them,
not `maxTries`. -/
theorem generate_loop_after_success (maxTries : Int) (rnd : Nat → List Char) (g g1 : Grid)
    (i : Int) (n : Nat) (log : List Bool) (hi0 : 0 ≤ i) (hi : i < maxTries)
    (hs : g.place_crossing_word (rnd n) = .ok (true, g1))
    (hf : ∀ k : Nat, (k : Int) < maxTries - 1 →
      g1.place_crossing_word (rnd (n + 1 + k)) = .ok (false, g1)) :
    generate_loop maxTries rnd (maxTries.toNat + 1) g i n log =
      .ok (some (g1, log ++ [true] ++ List.replicate (maxTries.toNat - 1) false)) := by
  rw [generate_loop_succ, if_pos hi, hs]
  simp only [if_true]
  have hm : maxTries.toNat = (maxTries.toNat - 1) + 1 := by omega
  rw [hm, generate_loop_failures maxTries rnd g1 (maxTries.toNat - 1) (0 + 1) (n + 1)
    (log ++ [true]) (by omega) (fun k hk => hf k (by omega))]
  simp

/-- C7 at the scenario with `maxTries = 3`: ATE is placed, then TO fails twice and
the loop ends; only two failed attempts follow the success.  With the constant
`MaxTries` of the program, 9999 failed attempts follow the success. -/
theorem generate_loop_after_success_witness :
    (0 : Int) ≤ 0 ∧ (0 : Int) < 3 ∧
      catGrid.place_crossing_word (ateThenTo 0) = .ok (true, catAteGrid) ∧
      (∀ k : Nat, (k : Int) < 3 - 1 →
        catAteGrid.place_crossing_word (ateThenTo (0 + 1 + k)) = .ok (false, catAteGrid)) ∧
      generate_loop 3 ateThenTo ((3 : Int).toNat + 1) catGrid 0 0 [] =
        .ok (some (catAteGrid, [] ++ [true] ++ List.replicate ((3 : Int).toNat - 1) false)) ∧
      generate_loop 3 ateThenTo 4 catGrid 0 0 [] = .ok (some (catAteGrid, [true, false, false])) ∧
      generate_loop MaxTries ateThenTo (MaxTries.toNat + 1) catGrid 0 0 [] =
        .ok (some (catAteGrid, [] ++ [true] ++ List.replicate (MaxTries.toNat - 1) false)) ∧
      MaxTries.toNat - 1 = 9999 :=
  have hto : ∀ k : Nat,
      catAteGrid.place_crossing_word (ateThenTo (0 + 1 + k)) = .ok (false, catAteGrid) :=
    fun k => by
      have e : ateThenTo (0 + 1 + k) = "TO".toList := by simp [ateThenTo]
      rw [e]
      decide
  ⟨by decide, by decide, by decide, fun k _ => hto k,
    generate_loop_after_success 3 ateThenTo catGrid catAteGrid 0 0 [] (by decide) (by decide)
      (by decide) (fun k _ => hto k),
    by decide,
    generate_loop_after_success MaxTries ateThenTo catGrid catAteGrid 0 0 [] (by decide)
      (by decide) (by decide) (fun k _ => hto k),
    by decide⟩

/-! ## The termination measure -/

namespace Grid

theorem empty_true_iff (g : Grid) (r c : Int) :
    g.empty r c = .ok true ↔
      g.inBuffer (g.offset r c) ∧ g.m_grid[(g.offset r c).toNat]? = some Empty := by
  unfold empty get
  by_cases h : g.inBuffer (g.offset r c)
  · have hlt : (g.offset r c).toNat < g.m_grid.length := by
      unfold inBuffer at h
      omega
    simp [h, List.getElem?_eq_getElem hlt]
  · simp [h]

theorem place_crossing_word_wf (g : Grid) (word : List Char) (b : Bool) (g' : Grid)
    (hs : g.sized) (hin : g.indexInside) (h : g.place_crossing_word word = .ok (b, g')) :
    g'.sized ∧ g'.indexInside := by
  cases b
  · have := (g.loop_false word word 0 g' h (by simp)).1
    subst this
    exact ⟨hs, hin⟩
  · obtain ⟨w, j, i, p, h1, -, h3, h4, h5⟩ := g.place_crossing_word_true word g' h
    obtain ⟨f1, f2, f3, -⟩ := g.commit_facts word w p i j g' h3 h5
    obtain ⟨ch, -, -, r3⟩ := (g.candidate_eq_some word w j i p).mp h1
    have hp : g.inside p.coord := g.indexInside_apply hin i p (List.getElem?_mem r3)
    constructor
    · unfold sized at hs ⊢
      rw [f1, f2]
      exact hs
    · intro i' _ q hq
      rw [f3 i'] at hq
      have hins : ∀ rc, g.inside rc → g'.inside rc := fun rc hrc => by
        unfold inside at hrc ⊢
        rw [f1]
        exact hrc
      rcases List.mem_append.mp hq with hq | hq
      · apply hins
        apply g.indexInside_apply hin i'
        unfold erase at hq
        by_cases hii : i' = i
        · subst hii
          simp only [Function.update_same] at hq
          exact List.mem_of_mem_eraseIdx hq
        · simpa [Function.update_noteq hii] using hq
      · obtain ⟨k, hk, -, -, rfl⟩ := (mem_appended word w p i' q).mp hq
        exact hins _ (g.passes_run_inside _ _ _ h3 hp k hk)

theorem seed_wf (size : Int) (d : Dir) (word : List Char) (g' : Grid)
    (h : (Grid.new size).place_initial_word d word = .ok g')
    (hfit : (word.length : Int) ≤ size) : g'.sized ∧ g'.indexInside := by
  obtain ⟨i, -, hne, -, h4, h5, h6, -⟩ := seed_facts size d word g' h
  have hlen : 0 < word.length := List.length_pos.mpr hne
  constructor
  · unfold sized
    rw [h4, h5]
    have : 0 ≤ size * size := mul_self_nonneg size
    omega
  · intro i' _ q hq
    rw [h6 i'] at hq
    rcases List.mem_append.mp hq with hq | hq
    · by_cases hii : i' = i
      · simp only [hii, if_true, List.mem_singleton] at hq
        subst hq
        simp only [inside, Point.coord, h4]
        omega
      · simp [hii] at hq
    · obtain ⟨k, hk, -, -, rfl⟩ := (mem_appended word 0 _ i' q).mp hq
      have e : (runPoint ⟨0, 0, d⟩ ((0 : Nat) : Int) k).coord = step d.not (0, 0) k := by
        have := runCell_anchor d k
        simpa [runPoint, Point.coord] using this
      rw [e]
      unfold inside step
      rw [h4]
      cases d <;> simp [Dir.not] <;> omega

end Grid

/-! ## Termination of the generation loop (C8) -/

theorem generate_loop_more_fuel (maxTries : Int) (rnd : Nat → List Char) (fuel : Nat) :
    ∀ (g : Grid) (i : Int) (n : Nat) (log : List Bool),
      generate_loop maxTries rnd fuel g i n log ≠ .ok none →
      generate_loop maxTries rnd (fuel + 1) g i n log =
        generate_loop maxTries rnd fuel g i n log := by
  induction fuel with
  | zero =>
    intro g i n log h
    exact absurd rfl h
  | succ fuel ih =>
    intro g i n log h
    rw [generate_loop_succ maxTries rnd (fuel + 1), generate_loop_succ maxTries rnd fuel]
    rw [generate_loop_succ maxTries rnd fuel] at h
    by_cases hlt : i < maxTries
    · simp only [if_pos hlt] at h ⊢
      rcases hr : g.place_crossing_word (rnd n) with e | ⟨placed, g2⟩
      · rfl
      · rw [hr] at h
        exact ih g2 _ _ _ h
    · simp only [if_neg hlt]

theorem generate_loop_stable (maxTries : Int) (rnd : Nat → List Char) (fuel : Nat)
    (g : Grid) (i : Int) (n : Nat) (log : List Bool)
    (h : generate_loop maxTries rnd fuel g i n log ≠ .ok none) (fuel' : Nat)
    (hle : fuel ≤ fuel') :
    generate_loop maxTries rnd fuel' g i n log = generate_loop maxTries rnd fuel g i n log := by
  induction fuel' with
  | zero =>
    have : fuel = 0 := by omega
    subst this
    rfl
  | succ k ih =>
    by_cases hk : fuel ≤ k
    · have e := ih hk
      rw [generate_loop_more_fuel maxTries rnd k g i n log (by rw [e]; exact h), e]
    · have : fuel = k + 1 := by omega
      subst this
      rfl

namespace Grid

theorem get_congr (g : Grid) (r c r' c' : Int) (h : g.offset r c = g.offset r' c') :
    g.get r c = g.get r' c' := by
  unfold get
  rw [h]

theorem get_ok_iff (g : Grid) (r c : Int) (ch : Char) :
    g.get r c = .ok ch ↔
      g.inBuffer (g.offset r c) ∧ g.m_grid[(g.offset r c).toNat]? = some ch := by
  unfold get
  by_cases h : g.inBuffer (g.offset r c)
  · have hlt : (g.offset r c).toNat < g.m_grid.length := by
      unfold inBuffer at h
      omega
    simp [h, List.getElem?_eq_getElem hlt]
  · simp [h]

theorem firstFit_unique (g : Grid) (word : List Char) (w j w' j' : Nat)
    (h : g.firstFit word w j) (h' : g.firstFit word w' j') : w = w' ∧ j = j' := by
  by_contra hne
  have hcases : earlier (w, j) (w', j') ∨ earlier (w', j') (w, j) := by
    unfold earlier
    simp only
    omega
  rcases hcases with hc | hc
  · exact h'.2 w j hc h.1
  · exact h.2 w' j' hc h'.1

/-- The facts of a successful crossing, in terms of `get`. -/
theorem crossing_facts (g : Grid) (word : List Char) (g' : Grid) (w j : Nat) (i : Fin 26)
    (p : Point) (h : g.place_crossing_word word = .ok (true, g'))
    (hfirst : g.firstFit word w j) (hcand : g.candidate word w j = some (i, p)) :
    g.passes word.length w p ∧ (g.m_letters i)[j]? = some p ∧
    (∃ hw : w < word.length, Letters.index (word.get ⟨w, hw⟩) = .ok i) ∧
    g'.m_size = g.m_size ∧
    (∀ i', g'.m_letters i' = (g.erase i j).m_letters i' ++ appended word w p i') ∧
    (∀ (k : Nat) (hk : k < word.length),
      g'.get (runCell p w k).1 (runCell p w k).2 = .ok (word.get ⟨k, hk⟩) ∧
      ∃ i', Letters.index (word.get ⟨k, hk⟩) = .ok i') ∧
    (∀ (k : Nat), k < word.length → k ≠ w →
      g.get (runCell p w k).1 (runCell p w k).2 = .ok Empty) ∧
    (∀ r c : Int, (∀ k : Nat, k < word.length →
      g.offset r c ≠ g.offset (runCell p w k).1 (runCell p w k).2) → g'.get r c = g.get r c) := by
  obtain ⟨w', j', i', p', h1, h2, h3, h4, h5⟩ := g.place_crossing_word_true word g' h
  obtain ⟨rfl, rfl⟩ := g.firstFit_unique word w j w' j' hfirst h2
  rw [hcand] at h1
  simp only [Option.some.injEq, Prod.mk.injEq] at h1
  obtain ⟨rfl, rfl⟩ := h1
  obtain ⟨ch, r1, r2, r3⟩ := (g.candidate_eq_some word w j i p).mp hcand
  obtain ⟨f1, f2, f3, f4, f5, f6, f7⟩ := g.commit_facts word w p i j g' h3 h5
  have hoff : ∀ r c, g'.offset r c = g.offset r c := fun r c => by simp [offset, f1]
  have hbuf : ∀ o, g'.inBuffer o ↔ g.inBuffer o := fun o => by simp [inBuffer, f2]
  refine ⟨h3, r3, ⟨h4, ?_⟩, f1, f3, fun k hk => ⟨?_, ?_⟩, fun k hk hkw => ?_, fun r c hne => ?_⟩
  · have : word.get ⟨w, h4⟩ = ch := by
      have := (List.getElem?_eq_some_iff.mp r1).2
      simpa using this
    rw [this]
    exact r2
  · rw [get_ok_iff, hoff, hbuf]
    exact ⟨f5 k hk, f6 k hk⟩
  · exact f4 _ (List.get_mem _ _ _)
  · have he := g.passes_run_empty _ _ _ h3 k hk (by exact_mod_cast hkw)
    rw [get_ok_iff]
    exact (g.empty_true_iff _ _).mp he
  · unfold get
    rw [hoff]
    by_cases hb : g.inBuffer (g.offset r c)
    · rw [if_pos hb, if_pos ((hbuf _).mpr hb)]
      congr 1
      have : g'.m_grid[(g.offset r c).toNat]? = g.m_grid[(g.offset r c).toNat]? := by
        apply f7
        intro k hk e
        apply hne k hk
        have hk5 := f5 k hk
        unfold slot at e
        unfold inBuffer at hb hk5
        omega
      simp [List.getD_eq_getElem?_getD, this]
    · rw [if_neg hb, if_neg (fun hb' => hb ((hbuf _).mp hb'))]

end Grid

theorem mem_runCells (p : Point) (w : Int) (L : Nat) (rc : Int × Int) :
    rc ∈ runCells p w L ↔ ∃ k : Nat, k < L ∧ rc = runCell p w k := by
  unfold runCells
  simp only [List.mem_map, List.mem_range]
  constructor
  · rintro ⟨k, hk, rfl⟩
    exact ⟨k, hk, rfl⟩
  · rintro ⟨k, hk, rfl⟩
    exact ⟨k, hk, rfl⟩

theorem timesUsed_cons (r : List (Int × Int)) (runs : List (List (Int × Int))) (rc : Int × Int) :
    timesUsed (r :: runs) rc = timesUsed runs rc + (if rc ∈ r then 1 else 0) := by
  unfold timesUsed
  rw [List.countP_cons]
  simp

theorem timesUsed_eq_zero (runs : List (List (Int × Int))) (rc : Int × Int)
    (h : ∀ r ∈ runs, rc ∉ r) : timesUsed runs rc = 0 := by
  unfold timesUsed
  rw [List.countP_eq_zero]
  intro r hr
  simpa using h r hr

theorem nodup_filterMap_enumFrom {β : Type} (f : Nat → Char → Option β)
    (hf : ∀ k k' c c' b, f k c = some b → f k' c' = some b → k = k') (cs : List Char) (n : Nat) :
    ((cs.enumFrom n).filterMap fun kc => f kc.1 kc.2).Nodup := by
  induction cs generalizing n with
  | nil => simp
  | cons c cs ih =>
    rw [List.enumFrom_cons, List.filterMap_cons]
    cases hfc : f n c with
    | none => simpa [hfc] using ih (n + 1)
    | some b =>
      simp only [hfc]
      rw [List.nodup_cons]
      refine ⟨?_, ih (n + 1)⟩
      intro hb
      obtain ⟨kc, hkc, hfk⟩ := List.mem_filterMap.mp hb
      have := hf n kc.1 c kc.2 b hfc hfk
      have hle := List.le_fst_of_mem_enumFrom hkc
      omega

theorem nodup_appended (word : List Char) (w : Nat) (p : Point) (i : Fin 26) :
    ((appended word w p i).map Point.coord).Nodup := by
  unfold appended List.enum
  rw [List.map_filterMap]
  apply nodup_filterMap_enumFrom
    (fun k c => (if k ≠ w ∧ Letters.index c = .ok i then some (runPoint p w k) else none).map
      Point.coord)
  intro k k' c c' b h1 h2
  by_cases hc : k ≠ w ∧ Letters.index c = .ok i
  · by_cases hc' : k' ≠ w ∧ Letters.index c' = .ok i
    · rw [if_pos hc] at h1
      rw [if_pos hc'] at h2
      simp only [Option.map_some', Option.some.injEq] at h1 h2
      have e : runCell p w k = runCell p w k' := by
        have a1 : (runPoint p w k).coord = runCell p w k := rfl
        have a2 : (runPoint p w k').coord = runCell p w k' := rfl
        rw [← a1, ← a2, h1, h2]
      exact_mod_cast runCell_inj p w k k' e
    · rw [if_neg hc'] at h2
      cases h2
  · rw [if_neg hc] at h1
    cases h1

namespace Grid

theorem crossing_keeps_letter (g : Grid) (word : List Char) (g' : Grid) (w j : Nat) (i : Fin 26)
    (p : Point) (h : g.place_crossing_word word = .ok (true, g'))
    (hfirst : g.firstFit word w j) (hcand : g.candidate word w j = some (i, p))
    (hp : ∃ chp, g.get p.row p.col = .ok chp ∧ Letters.index chp = .ok i)
    (r c : Int) (ch : Char) (hget : g.get r c = .ok ch) (hne : ch ≠ Empty) :
    ∃ ch', g'.get r c = .ok ch' ∧ Letters.index ch' = Letters.index ch ∧ ch' ≠ Empty := by
  obtain ⟨-, -, ⟨hw, hwi⟩, f1, -, f6, f7, f8⟩ := g.crossing_facts word g' w j i p h hfirst hcand
  by_cases hex : ∃ k : Nat, k < word.length ∧
      g.offset r c = g.offset (runCell p w k).1 (runCell p w k).2
  · obtain ⟨k, hk, e⟩ := hex
    by_cases hkw : k = w
    · subst hkw
      have e2 : g.offset r c = g.offset p.row p.col := by
        rw [e, runCell_self]
        rfl
      obtain ⟨chp, hp1, hp2⟩ := hp
      have hch : ch = chp := by
        have := g.get_congr _ _ _ _ e2
        rw [hget, hp1] at this
        exact Except.ok.inj this
      subst hch
      have e3 : g'.offset r c = g'.offset (runCell p k k).1 (runCell p k k).2 := by
        simpa [offset, f1] using e
      refine ⟨word.get ⟨k, hk⟩, ?_, ?_, index_ne_Empty _ _ hwi⟩
      · rw [g'.get_congr _ _ _ _ e3]
        exact (f6 k hk).1
      · rw [hwi, hp2]
    · have h1 := f7 k hk hkw
      have h2 := g.get_congr _ _ _ _ e
      rw [hget, h1] at h2
      exact absurd (Except.ok.inj h2) hne
  · have hex' : ∀ k : Nat, k < word.length →
        g.offset r c ≠ g.offset (runCell p w k).1 (runCell p w k).2 :=
      fun k hk e => hex ⟨k, hk, e⟩
    exact ⟨ch, by rw [f8 r c hex']; exact hget, rfl, hne⟩

/-- A cell holding a letter is not one of the cells the crossing word newly fills. -/
theorem lettered_not_new (g : Grid) (word : List Char) (g' : Grid) (w j : Nat) (i : Fin 26)
    (p : Point) (h : g.place_crossing_word word = .ok (true, g'))
    (hfirst : g.firstFit word w j) (hcand : g.candidate word w j = some (i, p))
    (rc : Int × Int) (ch : Char) (hget : g.get rc.1 rc.2 = .ok ch) (hne : ch ≠ Empty)
    (k : Nat) (hk : k < word.length) (hkw : k ≠ w) : rc ≠ runCell p w k := by
  obtain ⟨-, -, -, -, -, -, f7, -⟩ := g.crossing_facts word g' w j i p h hfirst hcand
  rintro rfl
  rw [f7 k hk hkw] at hget
  exact hne (Except.ok.inj hget).symm

theorem mem_erase (g : Grid) (i : Fin 26) (j : Nat) (i' : Fin 26) (q : Point)
    (h : q ∈ (g.erase i j).m_letters i') : q ∈ g.m_letters i' := by
  unfold erase at h
  by_cases hii : i' = i
  · subst hii
    simp only [Function.update_same] at h
    exact List.mem_of_mem_eraseIdx h
  · simpa [Function.update_noteq hii] using h

/-- After the consumed entry is erased, no entry of the index has its coordinate. -/
theorem erased_coord_gone (g : Grid) (used : List (Int × Int)) (runs : List (List (Int × Int)))
    (hinv : Inv g used runs) (i : Fin 26) (j : Nat) (p : Point)
    (hj : (g.m_letters i)[j]? = some p) (i' : Fin 26) (q : Point)
    (h : q ∈ (g.erase i j).m_letters i') : q.coord ≠ p.coord := by
  have hpm : p ∈ g.m_letters i := List.getElem?_mem hj
  intro e
  by_cases hii : i' = i
  · subst hii
    unfold erase at h
    simp only [Function.update_same] at h
    obtain ⟨j', hj', hq⟩ := List.mem_eraseIdx_iff_getElem?.mp h
    have hnd := hinv.nodup i'
    have h1 : ((g.m_letters i').map Point.coord)[j']? = some q.coord := by
      simp [List.getElem?_map, hq]
    have h2 : ((g.m_letters i').map Point.coord)[j]? = some p.coord := by
      simp [List.getElem?_map, hj]
    have hlt : j' < ((g.m_letters i').map Point.coord).length := by
      rw [List.length_map]
      exact (List.getElem?_eq_some_iff.mp hq).1
    exact hj' (List.getElem?_inj hlt hnd (by rw [h1, h2, e]))
  · have hq := mem_erase g i j i' q h
    obtain ⟨c1, g1, x1⟩ := hinv.holds i' q hq
    obtain ⟨c2, g2, x2⟩ := hinv.holds i p hpm
    have e1 : q.row = p.row := congrArg Prod.fst e
    have e2 : q.col = p.col := congrArg Prod.snd e
    rw [e1, e2, g2] at g1
    have := Except.ok.inj g1
    subst this
    rw [x1] at x2
    exact hii (Except.ok.inj x2)

end Grid

theorem Inv.crossed (g : Grid) (used : List (Int × Int)) (runs : List (List (Int × Int)))
    (hinv : Inv g used runs) (word : List Char) (g' : Grid) (w j : Nat) (i : Fin 26)
    (p : Point) (h : g.place_crossing_word word = .ok (true, g'))
    (hfirst : g.firstFit word w j) (hcand : g.candidate word w j = some (i, p)) :
    Inv g' (p.coord :: used) (runCells p w word.length :: runs) := by
  obtain ⟨-, r3, ⟨hw, hwi⟩, f1, f3, f6, f7, f8⟩ :=
    g.crossing_facts word g' w j i p h hfirst hcand
  have hpm : p ∈ g.m_letters i := List.getElem?_mem r3
  have hp := hinv.holds i p hpm
  have keep := g.crossing_keeps_letter word g' w j i p h hfirst hcand hp
  have notnew := g.lettered_not_new word g' w j i p h hfirst hcand
  have gonep := g.erased_coord_gone used runs hinv i j p r3
  -- an old entry that survives the erasure
  have old : ∀ i' q, q ∈ (g.erase i j).m_letters i' →
      q ∈ g.m_letters i' ∧ q.coord ≠ p.coord ∧ q.coord ∉ runCells p w word.length := by
    intro i' q hq
    have hq' := Grid.mem_erase g i j i' q hq
    refine ⟨hq', gonep i' q hq, fun hmem => ?_⟩
    obtain ⟨k, hk, e⟩ := (mem_runCells p w word.length q.coord).mp hmem
    by_cases hkw : k = w
    · subst hkw
      rw [runCell_self] at e
      exact gonep i' q hq e
    · obtain ⟨ch, c1, c2⟩ := hinv.holds i' q hq'
      exact notnew q.coord ch c1 (Grid.index_ne_Empty ch i' c2) k hk hkw e
  -- a newly recorded entry
  have fresh : ∀ i' q, q ∈ appended word w p i' →
      ∃ (k : Nat) (hk : k < word.length), k ≠ w ∧
        Letters.index (word.get ⟨k, hk⟩) = .ok i' ∧ q = runPoint p w k :=
    fun i' q hq => (Grid.mem_appended word w p i' q).mp hq
  have unused : ∀ (k : Nat), k < word.length → k ≠ w → timesUsed runs (runCell p w k) = 0 := by
    intro k hk hkw
    apply timesUsed_eq_zero
    intro r hr hmem
    obtain ⟨ch, c1, c2⟩ := hinv.lettered r hr _ hmem
    exact notnew _ ch c1 c2 k hk hkw rfl
  constructor
  · -- holds
    intro i' q hq
    rw [f3 i'] at hq
    rcases List.mem_append.mp hq with hq | hq
    · obtain ⟨ch, c1, c2⟩ := hinv.holds i' q (old i' q hq).1
      obtain ⟨ch', d1, d2, -⟩ := keep q.row q.col ch c1 (Grid.index_ne_Empty ch i' c2)
      exact ⟨ch', d1, by rw [d2, c2]⟩
    · obtain ⟨k, hk, -, hki, rfl⟩ := fresh i' q hq
      exact ⟨_, (f6 k hk).1, hki⟩
  · -- nodup
    intro i'
    rw [f3 i', List.map_append, List.nodup_append]
    refine ⟨?_, nodup_appended word w p i', ?_⟩
    · apply List.Nodup.sublist _ (hinv.nodup i')
      apply List.Sublist.map
      unfold Grid.erase
      by_cases hii : i' = i
      · subst hii
        simp only [Function.update_same]
        exact List.eraseIdx_sublist _ _
      · simp [Function.update_noteq hii]
    · intro x hx1 hx2
      obtain ⟨q, hq, rfl⟩ := List.mem_map.mp hx1
      obtain ⟨q2, hq2, e⟩ := List.mem_map.mp hx2
      obtain ⟨k, hk, hkw, -, rfl⟩ := fresh i' q2 hq2
      apply (old i' q hq).2.2
      rw [← e]
      exact (mem_runCells p w word.length _).mpr ⟨k, hk, rfl⟩
  · -- gone
    intro q hq
    rcases List.mem_cons.mp hq with rfl | hq
    · constructor
      · obtain ⟨ch, c1, c2⟩ := hp
        obtain ⟨ch', d1, -, d3⟩ := keep p.row p.col ch c1 (Grid.index_ne_Empty ch i c2)
        exact ⟨ch', d1, d3⟩
      · intro i' q' hq'
        rw [f3 i'] at hq'
        rcases List.mem_append.mp hq' with hq' | hq'
        · exact (old i' q' hq').2.1
        · obtain ⟨k, hk, hkw, -, rfl⟩ := fresh i' q' hq'
          intro e
          have e2 : runCell p w k = p.coord := e
          exact hkw (by exact_mod_cast (runCell_eq_iff p w k).mp e2)
    · obtain ⟨⟨ch, c1, c2⟩, hno⟩ := hinv.gone q hq
      constructor
      · obtain ⟨ch', d1, -, d3⟩ := keep q.1 q.2 ch c1 c2
        exact ⟨ch', d1, d3⟩
      · intro i' q' hq'
        rw [f3 i'] at hq'
        rcases List.mem_append.mp hq' with hq' | hq'
        · exact hno i' q' (old i' q' hq').1
        · obtain ⟨k, hk, hkw, -, rfl⟩ := fresh i' q' hq'
          intro e
          exact notnew q ch c1 c2 k hk hkw e.symm
  · -- lettered
    intro r hr rc hrc
    rcases List.mem_cons.mp hr with rfl | hr
    · obtain ⟨k, hk, rfl⟩ := (mem_runCells p w word.length rc).mp hrc
      obtain ⟨d1, i', d2⟩ := f6 k hk
      exact ⟨_, d1, Grid.index_ne_Empty _ i' d2⟩
    · obtain ⟨ch, c1, c2⟩ := hinv.lettered r hr rc hrc
      obtain ⟨ch', d1, -, d3⟩ := keep rc.1 rc.2 ch c1 c2
      exact ⟨ch', d1, d3⟩
  · -- once
    intro i' q hq
    rw [f3 i'] at hq
    rw [timesUsed_cons]
    rcases List.mem_append.mp hq with hq | hq
    · obtain ⟨o1, -, o3⟩ := old i' q hq
      rw [if_neg o3]
      exact hinv.once i' q o1
    · obtain ⟨k, hk, hkw, -, rfl⟩ := fresh i' q hq
      have e : (runPoint p w k).coord = runCell p w k := rfl
      rw [e, unused k hk hkw]
      split <;> omega
  · -- twice
    intro rc
    rw [timesUsed_cons]
    by_cases hmem : rc ∈ runCells p w word.length
    · rw [if_pos hmem]
      obtain ⟨k, hk, rfl⟩ := (mem_runCells p w word.length rc).mp hmem
      by_cases hkw : k = w
      · subst hkw
        rw [runCell_self]
        have := hinv.once i p hpm
        omega
      · rw [unused k hk hkw]
        omega
    · rw [if_neg hmem]
      exact hinv.twice rc

theorem Inv.seeded (size : Int) (d : Dir) (seed : List Char) (g : Grid)
    (h : (Grid.new size).place_initial_word d seed = .ok g) :
    Inv g [] [runCells ⟨0, 0, d⟩ 0 seed.length] := by
  obtain ⟨i, h1, hne, -, h4, h5, h6, h7, h8, h9, -⟩ := Grid.seed_facts size d seed g h
  have hlen : 0 < seed.length := List.length_pos.mpr hne
  have hget : ∀ (k : Nat) (hk : k < seed.length),
      g.get (runCell ⟨0, 0, d⟩ 0 k).1 (runCell ⟨0, 0, d⟩ 0 k).2 = .ok (seed.get ⟨k, hk⟩) := by
    intro k hk
    rw [Grid.get_ok_iff]
    have hb := h8 k hk
    have hc := h9 k hk
    simp only [Grid.inBuffer, Grid.offset, Grid.slot, Grid.new, List.length_replicate] at hb hc
    simp only [Grid.inBuffer, Grid.offset, h4, h5]
    exact ⟨hb, hc⟩
  have hhead : seed.get ⟨0, hlen⟩ = seed.headD (Char.ofNat 0) := by
    cases seed with
    | nil => exact absurd rfl hne
    | cons c cs => rfl
  have fresh : ∀ i' q, q ∈ appended seed 0 ⟨0, 0, d⟩ i' →
      ∃ (k : Nat) (hk : k < seed.length), k ≠ 0 ∧
        Letters.index (seed.get ⟨k, hk⟩) = .ok i' ∧ q = runPoint ⟨0, 0, d⟩ ((0 : Nat) : Int) k :=
    fun i' q hq => (Grid.mem_appended seed 0 _ i' q).mp hq
  have entry : ∀ i' q, q ∈ g.m_letters i' →
      ∃ (k : Nat) (hk : k < seed.length), Letters.index (seed.get ⟨k, hk⟩) = .ok i' ∧
        q.coord = runCell ⟨0, 0, d⟩ 0 k := by
    intro i' q hq
    rw [h6 i'] at hq
    rcases List.mem_append.mp hq with hq | hq
    · by_cases hii : i' = i
      · simp only [hii, if_true, List.mem_singleton] at hq
        subst hq
        refine ⟨0, hlen, ?_, ?_⟩
        · rw [hhead, h1, hii]
        · have := runCell_self ⟨0, 0, d⟩ 0
          simpa using this.symm
      · simp [hii] at hq
    · obtain ⟨k, hk, -, hki, rfl⟩ := fresh i' q hq
      exact ⟨k, hk, hki, by simp [runPoint, Point.coord]⟩
  constructor
  · intro i' q hq
    obtain ⟨k, hk, hki, e⟩ := entry i' q hq
    have e1 : q.row = (runCell ⟨0, 0, d⟩ 0 k).1 := congrArg Prod.fst e
    have e2 : q.col = (runCell ⟨0, 0, d⟩ 0 k).2 := congrArg Prod.snd e
    exact ⟨_, by rw [e1, e2]; exact hget k hk, hki⟩
  · intro i'
    rw [h6 i', List.map_append, List.nodup_append]
    refine ⟨?_, nodup_appended seed 0 _ i', ?_⟩
    · split
      · simp
      · simp
    · intro x hx1 hx2
      obtain ⟨q2, hq2, e⟩ := List.mem_map.mp hx2
      obtain ⟨k, hk, hk0, -, rfl⟩ := fresh i' q2 hq2
      have hx : x = (0, 0) := by
        split at hx1
        · simpa [Point.coord] using hx1
        · simp at hx1
      rw [hx] at e
      have e2 : runCell ⟨0, 0, d⟩ ((0 : Nat) : Int) k = (Point.mk 0 0 d).coord := e
      exact hk0 (by exact_mod_cast (runCell_eq_iff _ _ k).mp e2)
  · intro q hq
    simp at hq
  · intro r hr rc hrc
    simp only [List.mem_singleton] at hr
    subst hr
    obtain ⟨k, hk, rfl⟩ := (mem_runCells _ _ _ rc).mp hrc
    exact ⟨_, hget k hk, by
      obtain ⟨i', hi'⟩ := h7 _ (List.get_mem seed k hk)
      exact Grid.index_ne_Empty _ i' hi'⟩
  · intro i' q _
    rw [timesUsed_cons]
    have : timesUsed [] q.coord = 0 := rfl
    rw [this]
    split <;> omega
  · intro rc
    rw [timesUsed_cons]
    have : timesUsed [] rc = 0 := rfl
    rw [this]
    split <;> omega

theorem Reach.inv (size : Int) (seed : List Char) (g : Grid) (used : List (Int × Int))
    (runs : List (List (Int × Int))) (h : Reach size seed g used runs) : Inv g used runs := by
  induction h with
  | seeded d g h => exact Inv.seeded size d seed g h
  | crossed g used runs word g' w j i p _ h hfirst hcand ih =>
    exact Inv.crossed g used runs ih word g' w j i p h hfirst hcand
  | failed g used runs word g' _ h ih =>
    have := failed_attempt_state g word g' h
    subst this
    exact ih

/-- Every successful call of `place_crossing_word` extends the reachable states: the
pair it went through exists and is the least legal one. -/
theorem Reach.crossing (size : Int) (seed : List Char) (g : Grid) (used : List (Int × Int))
    (runs : List (List (Int × Int))) (h : Reach size seed g used runs) (word : List Char)
    (g' : Grid) (hc : g.place_crossing_word word = .ok (true, g')) :
    ∃ q run, Reach size seed g' (q :: used) (run :: runs) := by
  obtain ⟨w, j, i, p, h1, h2, -⟩ := g.place_crossing_word_true word g' hc
  exact ⟨p.coord, runCells p w word.length, Reach.crossed g used runs word g' w j i p h hc h2 h1⟩

theorem Reach.wf (size : Int) (seed : List Char) (g : Grid) (used : List (Int × Int))
    (runs : List (List (Int × Int))) (h : Reach size seed g used runs)
    (hfit : (seed.length : Int) ≤ size) : g.sized ∧ g.indexInside := by
  induction h with
  | seeded d g h => exact Grid.seed_wf size d seed g h hfit
  | crossed g used runs word g' w j i p _ h _ _ ih =>
    exact g.place_crossing_word_wf word true g' ih.1 ih.2 h
  | failed g used runs word g' _ h ih =>
    exact g.place_crossing_word_wf word false g' ih.1 ih.2 h

theorem toupper_of_index (ch : Char) (i : Fin 26) (h : Letters.index ch = .ok i) :
    toupper ch = Letters.letter i := by
  unfold Letters.index at h
  simp only at h
  split at h
  · cases h
  · rename_i hr
    have hi := Except.ok.inj h
    have hv : i.val = (((toupper ch).toNat : Int) - ('A'.toNat : Int)).toNat := by
      rw [← hi]
    unfold Letters.letter
    have : 'A'.toNat + i.val = (toupper ch).toNat := by
      rw [hv]
      omega
    rw [this, Char.ofNat_toNat]

/-- The scenario as a reachable state: seed CAT, then ATE crossing at `(0, 1)`. -/
theorem catAteGrid_reachable :
    Reach 5 "CAT".toList catAteGrid [(0, 1)]
      [runCells ⟨0, 1, .Horz⟩ 0 3, runCells ⟨0, 0, .Vert⟩ 0 3] := by
  have hseed : Reach 5 "CAT".toList catGrid [] [runCells ⟨0, 0, .Vert⟩ 0 "CAT".toList.length] :=
    Reach.seeded .Vert catGrid (by decide)
  have hfirst : catGrid.firstFit "ATE".toList 0 0 := by
    refine ⟨by decide, fun w' j' he => ?_⟩
    unfold earlier at he
    simp at he
  exact Reach.crossed catGrid [] _ "ATE".toList catAteGrid 0 0 0 ⟨0, 1, .Horz⟩ hseed
    (by decide) hfirst (by decide)

/-- C9. Double-cross invariant.  In every state reachable from an empty grid by
`place_initial_word` followed by calls of `place_crossing_word`: no entry of any
position list has a coordinate that was consumed as a crossing point; each
coordinate occurs at most once in the whole index; and every coordinate is
covered by at most two of the words placed. -/
theorem consumed_never_again (size : Int) (seed : List Char) (g : Grid)
    (used : List (Int × Int)) (runs : List (List (Int × Int)))
    (h : Reach size seed g used runs) :
    (∀ q ∈ used, ∀ i, ∀ p ∈ g.m_letters i, p.coord ≠ q) ∧
    (∀ (i i' : Fin 26) (j j' : Nat) (p p' : Point), (g.m_letters i)[j]? = some p →
      (g.m_letters i')[j']? = some p' → p.coord = p'.coord → i = i' ∧ j = j') ∧
    ∀ rc, timesUsed runs rc ≤ 2 := by
  have hinv := Reach.inv size seed g used runs h
  refine ⟨fun q hq => (hinv.gone q hq).2, ?_, hinv.twice⟩
  intro i i' j j' p p' hj hj' e
  obtain ⟨c1, g1, x1⟩ := hinv.holds i p (List.getElem?_mem hj)
  obtain ⟨c2, g2, x2⟩ := hinv.holds i' p' (List.getElem?_mem hj')
  have e1 : p.row = p'.row := congrArg Prod.fst e
  have e2 : p.col = p'.col := congrArg Prod.snd e
  rw [e1, e2, g2] at g1
  have hc := Except.ok.inj g1
  subst hc
  rw [x1] at x2
  have hi := Except.ok.inj x2
  subst hi
  refine ⟨rfl, ?_⟩
  have hnd := hinv.nodup i
  have h1 : ((g.m_letters i).map Point.coord)[j]? = some p.coord := by
    simp [List.getElem?_map, hj]
  have h2 : ((g.m_letters i).map Point.coord)[j']? = some p'.coord := by
    simp [List.getElem?_map, hj']
  have hlt : j < ((g.m_letters i).map Point.coord).length := by
    rw [List.length_map]
    exact (List.getElem?_eq_some_iff.mp hj).1
  exact List.getElem?_inj hlt hnd (by rw [h1, h2, e])

/-- C9 at the scenario: after ATE has crossed CAT at `(0, 1)`, no list holds an
entry at `(0, 1)`. -/
theorem consumed_never_again_witness :
    Reach 5 "CAT".toList catAteGrid [(0, 1)]
        [runCells ⟨0, 1, .Horz⟩ 0 3, runCells ⟨0, 0, .Vert⟩ 0 3] ∧
      ((∀ q ∈ [((0 : Int), (1 : Int))], ∀ i, ∀ p ∈ catAteGrid.m_letters i, p.coord ≠ q) ∧
        (∀ (i i' : Fin 26) (j j' : Nat) (p p' : Point), (catAteGrid.m_letters i)[j]? = some p →
          (catAteGrid.m_letters i')[j']? = some p' → p.coord = p'.coord → i = i' ∧ j = j') ∧
        ∀ rc, timesUsed [runCells ⟨0, 1, .Horz⟩ 0 3, runCells ⟨0, 0, .Vert⟩ 0 3] rc ≤ 2) ∧
      timesUsed [runCells ⟨0, 1, .Horz⟩ 0 3, runCells ⟨0, 0, .Vert⟩ 0 3] (0, 1) = 2 :=
  ⟨catAteGrid_reachable,
    consumed_never_again 5 "CAT".toList catAteGrid _ _ catAteGrid_reachable, by decide⟩

/-- C10 as stated fails in two ways.  On a 3 x 3 grid the seed CATS, written
horizontally, leaves an entry at column 3, outside the grid.  And a seed given
in lower case leaves the entry of the list of C on a cell that holds `'c'`,
not `'C'`. -/
theorem index_entry_counterexample :
    (Reach 3 "CATS".toList catsGrid [] [runCells ⟨0, 0, .Vert⟩ 0 4] ∧
      (⟨0, 3, .Horz⟩ : Point) ∈ catsGrid.m_letters 18 ∧
      ¬ catsGrid.inside (Point.mk 0 3 .Horz).coord) ∧
    (Reach 5 "cat".toList lowerCatGrid [] [runCells ⟨0, 0, .Vert⟩ 0 3] ∧
      (⟨0, 0, .Vert⟩ : Point) ∈ lowerCatGrid.m_letters 2 ∧
      lowerCatGrid.cell (Point.mk 0 0 .Vert).coord = 'c' ∧
      lowerCatGrid.cell (Point.mk 0 0 .Vert).coord ≠ Letters.letter 2) :=
  ⟨⟨Reach.seeded .Vert catsGrid (by decide), by decide, by decide⟩,
    ⟨Reach.seeded .Vert lowerCatGrid (by decide), by decide, by decide, by decide⟩⟩

/-- C10, amended.  In every state reachable by `place_initial_word` with a seed
word no longer than the grid size, followed by calls of `place_crossing_word`:
every entry in the position list of a letter has a coordinate inside the grid;
the cell there holds that letter in upper or lower case (its `toupper` is the
letter); and the coordinate has not been consumed as a crossing point. -/
theorem index_consistent (size : Int) (seed : List Char) (g : Grid)
    (used : List (Int × Int)) (runs : List (List (Int × Int)))
    (h : Reach size seed g used runs) (hfit : (seed.length : Int) ≤ size) :
    ∀ i, ∀ p ∈ g.m_letters i,
      g.inside p.coord ∧ toupper (g.cell p.coord) = Letters.letter i ∧ p.coord ∉ used := by
  intro i p hp
  have hinv := Reach.inv size seed g used runs h
  obtain ⟨hs, hin⟩ := Reach.wf size seed g used runs h hfit
  have hins := g.indexInside_apply hin i p hp
  obtain ⟨ch, c1, c2⟩ := hinv.holds i p hp
  refine ⟨hins, ?_, fun hu => (hinv.gone _ hu).2 i p hp rfl⟩
  have hcell : g.cell p.coord = ch := by
    have hb := g.inside_inBuffer hs _ hins
    unfold Grid.get at c1
    simp only [Point.coord] at hb
    rw [if_pos hb] at c1
    exact Except.ok.inj c1
  rw [hcell]
  exact toupper_of_index ch i c2

/-- C10, amended, at the scenario: the entries left after ATE has crossed CAT. -/
theorem index_consistent_witness :
    Reach 5 "CAT".toList catAteGrid [(0, 1)]
        [runCells ⟨0, 1, .Horz⟩ 0 3, runCells ⟨0, 0, .Vert⟩ 0 3] ∧
      (("CAT".toList.length : Nat) : Int) ≤ 5 ∧
      ∀ i, ∀ p ∈ catAteGrid.m_letters i,
        catAteGrid.inside p.coord ∧ toupper (catAteGrid.cell p.coord) = Letters.letter i ∧
          p.coord ∉ [((0 : Int), (1 : Int))] :=
  ⟨catAteGrid_reachable, by decide,
    index_consistent 5 "CAT".toList catAteGrid _ _ catAteGrid_reachable (by decide)⟩

/-! ## No overwrite (C11) -/

/-- C11 as stated fails for words of mixed case.  In the state reached from the
seed `cat`, the word ATE is placed through the cell `(0, 1)`: that cell held
`'a'` before the call and holds `'A'` after it. -/
theorem no_overwrite_counterexample :
    Reach 5 "cat".toList lowerCatGrid [] [runCells ⟨0, 0, .Vert⟩ 0 3] ∧
      lowerCatGrid.place_crossing_word "ATE".toList = .ok (true, lowerCatAteGrid) ∧
      lowerCatGrid.get 0 1 = .ok 'a' ∧ lowerCatAteGrid.get 0 1 = .ok 'A' :=
  ⟨Reach.seeded .Vert lowerCatGrid (by decide), by decide, by decide, by decide⟩

/-- C11, amended.  In every state reachable by `place_initial_word` followed by calls
of `place_crossing_word`, a successful call, made through the entry `p` at letter
position `w`: writes its letters other than `word[w]` into cells that were
`Empty`; re-writes the crossing cell, which held a letter, with `word[w]`, the
same letter up to case (the identical character when both are in upper case);
and leaves every other non-empty cell with the content it had. -/
theorem no_overwrite (size : Int) (seed : List Char) (g : Grid)
    (used : List (Int × Int)) (runs : List (List (Int × Int)))
    (h : Reach size seed g used runs) (word : List Char) (g' : Grid)
    (hc : g.place_crossing_word word = .ok (true, g')) :
    ∃ (w j : Nat) (i : Fin 26) (p : Point) (hw : w < word.length),
      g.candidate word w j = some (i, p) ∧ g.firstFit word w j ∧
      (∀ k : Nat, k < word.length → k ≠ w →
        g.get (runCell p w k).1 (runCell p w k).2 = .ok Empty) ∧
      (∃ ch, g.get p.row p.col = .ok ch ∧ ch ≠ Empty ∧
        g'.get p.row p.col = .ok (word.get ⟨w, hw⟩) ∧
        toupper (word.get ⟨w, hw⟩) = toupper ch ∧
        (toupper (word.get ⟨w, hw⟩) = word.get ⟨w, hw⟩ → toupper ch = ch →
          g'.get p.row p.col = g.get p.row p.col)) ∧
      ∀ (r c : Int) (ch : Char), g.get r c = .ok ch → ch ≠ Empty →
        g.offset r c ≠ g.offset p.row p.col → g'.get r c = .ok ch := by
  obtain ⟨w, j, i, p, h1, h2, -⟩ := g.place_crossing_word_true word g' hc
  obtain ⟨-, f2, ⟨hw, hwi⟩, -, -, f6, f7, f8⟩ := g.crossing_facts word g' w j i p hc h2 h1
  have hinv := Reach.inv size seed g used runs h
  obtain ⟨ch, c1, c2⟩ := hinv.holds i p (List.getElem?_mem f2)
  have hself : g'.get p.row p.col = .ok (word.get ⟨w, hw⟩) := by
    have := (f6 w hw).1
    rw [runCell_self] at this
    exact this
  have hup : toupper (word.get ⟨w, hw⟩) = toupper ch := by
    rw [toupper_of_index _ i hwi, toupper_of_index _ i c2]
  refine ⟨w, j, i, p, hw, h1, h2, f7, ⟨ch, c1, Grid.index_ne_Empty ch i c2, hself, hup, ?_⟩, ?_⟩
  · intro e1 e2
    rw [hself, c1, ← e1, hup, e2]
  · intro r c x hx hne hoff
    rw [f8 r c]
    · exact hx
    · intro k hk e
      by_cases hkw : k = w
      · subst hkw
        rw [runCell_self] at e
        exact hoff e
      · have := g.get_congr _ _ _ _ e
        rw [hx, f7 k hk hkw] at this
        exact hne (Except.ok.inj this)

/-- C11, amended, at the scenario: ATE crossing CAT at `(0, 1)`. -/
theorem no_overwrite_witness :
    Reach 5 "CAT".toList catGrid [] [runCells ⟨0, 0, .Vert⟩ 0 3] ∧
      catGrid.place_crossing_word "ATE".toList = .ok (true, catAteGrid) ∧
      (∃ (w j : Nat) (i : Fin 26) (p : Point) (hw : w < "ATE".toList.length),
        catGrid.candidate "ATE".toList w j = some (i, p) ∧ catGrid.firstFit "ATE".toList w j ∧
        (∀ k : Nat, k < "ATE".toList.length → k ≠ w →
          catGrid.get (runCell p w k).1 (runCell p w k).2 = .ok Empty) ∧
        (∃ ch, catGrid.get p.row p.col = .ok ch ∧ ch ≠ Empty ∧
          catAteGrid.get p.row p.col = .ok ("ATE".toList.get ⟨w, hw⟩) ∧
          toupper ("ATE".toList.get ⟨w, hw⟩) = toupper ch ∧
          (toupper ("ATE".toList.get ⟨w, hw⟩) = "ATE".toList.get ⟨w, hw⟩ → toupper ch = ch →
            catAteGrid.get p.row p.col = catGrid.get p.row p.col)) ∧
        ∀ (r c : Int) (ch : Char), catGrid.get r c = .ok ch → ch ≠ Empty →
          catGrid.offset r c ≠ catGrid.offset p.row p.col → catAteGrid.get r c = .ok ch) ∧
      catGrid.get 0 1 = .ok 'A' ∧ catAteGrid.get 0 1 = .ok 'A' :=
  ⟨Reach.seeded .Vert catGrid (by decide), by decide,
    no_overwrite 5 "CAT".toList catGrid _ _ (Reach.seeded .Vert catGrid (by decide))
      "ATE".toList catAteGrid (by decide),
    by decide, by decide⟩

/-! ## The letter index: rejected characters (C13) -/

theorem toupper_toNat (ch : Char) :
    (toupper ch).toNat =
      if 'a'.toNat ≤ ch.toNat ∧ ch.toNat ≤ 'z'.toNat then ch.toNat - 32 else ch.toNat := by
  unfold toupper
  have ha : 'a'.toNat = 97 := rfl
  have hz : 'z'.toNat = 122 := rfl
  split
  · rename_i h
    rw [ha, hz] at h
    have hv : (ch.toNat - 32).isValidChar := by
      left
      omega
    simp only [Char.ofNat, hv, dif_pos]
    rfl
  · rfl

theorem toupper_fixed (c : Char) (h : ¬ ('a'.toNat ≤ c.toNat ∧ c.toNat ≤ 'z'.toNat)) :
    toupper c = c := by
  unfold toupper
  rw [if_neg h]

theorem toupper_idem (ch : Char) : toupper (toupper ch) = toupper ch := by
  have h := toupper_toNat ch
  have ha : 'a'.toNat = 97 := rfl
  have hz : 'z'.toNat = 122 := rfl
  rw [ha, hz] at h
  have hnot : ¬ ('a'.toNat ≤ (toupper ch).toNat ∧ (toupper ch).toNat ≤ 'z'.toNat) := by
    rw [ha, hz, h]
    split <;> omega
  exact toupper_fixed _ hnot

theorem index_ok_iff (ch : Char) :
    (∃ i, Letters.index ch = .ok i) ↔
      'A'.toNat ≤ (toupper ch).toNat ∧ (toupper ch).toNat ≤ 'Z'.toNat := by
  have hA : 'A'.toNat = 65 := rfl
  have hZ : 'Z'.toNat = 90 := rfl
  unfold Letters.index
  simp only
  split
  · rename_i h
    constructor
    · rintro ⟨i, hi⟩
      cases hi
    · intro h2
      omega
  · rename_i h
    constructor
    · intro _
      omega
    · intro _
      exact ⟨_, rfl⟩

theorem index_val (ch : Char) (i : Fin 26) (h : Letters.index ch = .ok i) :
    i.val = (toupper ch).toNat - 'A'.toNat := by
  have hA : 'A'.toNat = 65 := rfl
  unfold Letters.index at h
  simp only at h
  split at h
  · cases h
  · have := Except.ok.inj h
    rw [← this]
    simp only
    omega

theorem index_error (ch : Char) (e : Fault) (h : Letters.index ch = .error e) : e = .badIndex := by
  unfold Letters.index at h
  simp only at h
  split at h
  · exact (Except.error.inj h).symm
  · cases h

theorem index_toupper (ch : Char) : Letters.index (toupper ch) = Letters.index ch := by
  unfold Letters.index
  simp only [toupper_idem]

/-- C13. `Letters::operator[](ch)` throws `invalid_argument` exactly when
`toupper(ch)` is outside `'A'..'Z'`, and it throws nothing else; otherwise it
returns the list stored at the rank `toupper(ch) - 'A'` of the letter.  A
character and its upper-case form give the same outcome, so a lower-case letter
and the corresponding upper-case letter are mapped to the same list. -/
theorem letters_subscript (m : Fin 26 → List Point) (ch : Char) :
    (Letters.subscript m ch = .error .badIndex ↔
      ¬ ('A'.toNat ≤ (toupper ch).toNat ∧ (toupper ch).toNat ≤ 'Z'.toNat)) ∧
    (∀ e, Letters.subscript m ch = .error e → e = .badIndex) ∧
    ('A'.toNat ≤ (toupper ch).toNat ∧ (toupper ch).toNat ≤ 'Z'.toNat →
      ∃ i : Fin 26, i.val = (toupper ch).toNat - 'A'.toNat ∧ Letters.letter i = toupper ch ∧
        Letters.subscript m ch = .ok (m i)) ∧
    Letters.subscript m (toupper ch) = Letters.subscript m ch ∧
    ('a'.toNat ≤ ch.toNat ∧ ch.toNat ≤ 'z'.toNat →
      ∃ i : Fin 26, i.val = ch.toNat - 'a'.toNat ∧
        Letters.subscript m ch = .ok (m i) ∧ Letters.subscript m (toupper ch) = .ok (m i)) := by
  have hok := index_ok_iff ch
  have key : 'A'.toNat ≤ (toupper ch).toNat ∧ (toupper ch).toNat ≤ 'Z'.toNat →
      ∃ i : Fin 26, i.val = (toupper ch).toNat - 'A'.toNat ∧ Letters.letter i = toupper ch ∧
        Letters.subscript m ch = .ok (m i) := by
    intro h
    obtain ⟨i, hi⟩ := hok.mpr h
    refine ⟨i, index_val ch i hi, (toupper_of_index ch i hi).symm, ?_⟩
    unfold Letters.subscript
    rw [hi]
  have hup : Letters.subscript m (toupper ch) = Letters.subscript m ch := by
    unfold Letters.subscript
    rw [index_toupper]
  refine ⟨?_, ?_, key, hup, ?_⟩
  · rw [← hok]
    unfold Letters.subscript
    rcases hi : Letters.index ch with e | i
    · have := index_error ch e hi
      subst this
      simp
    · simp
  · intro e he
    unfold Letters.subscript at he
    rcases hi : Letters.index ch with e' | i
    · rw [hi] at he
      have := index_error ch e' hi
      subst this
      exact (Except.error.inj he).symm
    · rw [hi] at he
      cases he
  · intro hl
    have ha : 'a'.toNat = 97 := rfl
    have hz : 'z'.toNat = 122 := rfl
    have hA : 'A'.toNat = 65 := rfl
    have hZ : 'Z'.toNat = 90 := rfl
    have hn := toupper_toNat ch
    rw [if_pos hl] at hn
    rw [ha, hz] at hl
    obtain ⟨i, h1, -, h3⟩ := key (by rw [hA, hZ, hn]; omega)
    refine ⟨i, ?_, h3, by rw [hup]; exact h3⟩
    rw [h1, hn, hA, ha]
    omega

/-- C13 on concrete characters: `'c'` and `'C'` both give the list of rank 2,
and the blank `'.'` and the digit `'1'` are rejected. -/
theorem letters_subscript_witness :
    Letters.subscript catGrid.m_letters 'c' = .ok [⟨0, 0, .Vert⟩] ∧
      Letters.subscript catGrid.m_letters 'C' = .ok [⟨0, 0, .Vert⟩] ∧
      Letters.subscript catGrid.m_letters '.' = .error .badIndex ∧
      Letters.subscript catGrid.m_letters '1' = .error .badIndex ∧
      (Letters.subscript catGrid.m_letters '[' = .error .badIndex ↔
        ¬ ('A'.toNat ≤ (toupper '[').toNat ∧ (toupper '[').toNat ≤ 'Z'.toNat)) :=
  ⟨by decide, by decide, by decide, by decide, (letters_subscript catGrid.m_letters '[').1⟩

/-! ## The characters stored in the grid (C16) -/

namespace Grid

theorem add_word_loop_mem (cross_pnt pnt : Point) (cs : List Char) (pos : Int) (g g' : Grid)
    (h : add_word_loop cross_pnt pnt cs pos g = .ok g') :
    ∀ ch ∈ g'.m_grid, ch ∈ g.m_grid ∨ ch ∈ cs := by
  induction cs generalizing pnt pos g with
  | nil =>
    intro ch hch
    simp only [add_word_loop, Except.ok.injEq] at h
    subst h
    exact Or.inl hch
  | cons c rest ih =>
    intro ch hch
    unfold add_word_loop at h
    rcases hi : Letters.index c with e | i
    · rw [hi] at h
      cases h
    · rw [hi] at h
      simp only at h
      rcases hset : (if (pnt.setColrow pos).differs cross_pnt = true then g.push i (pnt.setColrow pos)
          else g).set (pnt.setColrow pos) c with e | g2
      · rw [hset] at h
        cases h
      · rw [hset] at h
        simp only at h
        rcases ih _ _ _ h ch hch with h1 | h1
        · have hg2 : g2.m_grid = g.m_grid.set (g.offset (pnt.setColrow pos).row
              (pnt.setColrow pos).col).toNat c := by
            obtain ⟨-, e⟩ := (set_ok_iff _ _ _ _).mp hset
            rw [e]
            split <;> rfl
          rw [hg2] at h1
          rcases List.mem_or_eq_of_mem_set h1 with h2 | h2
          · exact Or.inl h2
          · exact Or.inr (by rw [h2]; exact List.mem_cons_self _ _)
        · exact Or.inr (List.mem_cons_of_mem _ h1)

theorem add_word_mem (g : Grid) (word : List Char) (w : Int) (p : Point) (g' : Grid)
    (h : g.add_word word w p = .ok g') : ∀ ch ∈ g'.m_grid, ch ∈ g.m_grid ∨ ch ∈ word := by
  unfold add_word at h
  simp only at h
  split at h
  · exact add_word_loop_mem _ _ _ _ _ _ h
  · split at h
    · have := Except.ok.inj h
      subst this
      exact fun ch hch => Or.inl hch
    · split at h <;> cases h

theorem place_crossing_word_mem (g : Grid) (word : List Char) (b : Bool) (g' : Grid)
    (h : g.place_crossing_word word = .ok (b, g')) :
    ∀ ch ∈ g'.m_grid, ch ∈ g.m_grid ∨ (ch ∈ word ∧ alphabetic word) := by
  cases b
  · have := failed_attempt_state g word g' h
    subst this
    exact fun ch hch => Or.inl hch
  · obtain ⟨w, j, i, p, -, -, h3, -, h5⟩ := g.place_crossing_word_true word g' h
    obtain ⟨-, -, -, f4, -⟩ := g.commit_facts word w p i j g' h3 h5
    intro ch hch
    rcases add_word_mem _ _ _ _ _ h5 ch hch with h1 | h1
    · exact Or.inl h1
    · exact Or.inr ⟨h1, f4⟩

theorem seed_mem (size : Int) (d : Dir) (word : List Char) (g' : Grid)
    (h : (Grid.new size).place_initial_word d word = .ok g') :
    ∀ ch ∈ g'.m_grid, ch = Empty ∨ (ch ∈ word ∧ alphabetic word) := by
  obtain ⟨i, -, -, -, -, -, -, f7, -⟩ := seed_facts size d word g' h
  unfold place_initial_word at h
  rcases hi : Letters.index (word.headD (Char.ofNat 0)) with e | i
  · rw [hi] at h
    cases h
  · rw [hi] at h
    simp only at h
    intro ch hch
    rcases add_word_mem _ _ _ _ _ h ch hch with h1 | h1
    · left
      simp only [push, Grid.new] at h1
      exact (List.mem_replicate.mp h1).2
    · exact Or.inr ⟨h1, f7⟩

theorem placeAll_mem (words : List (List Char)) (g g' : Grid) (h : g.placeAll words = .ok g') :
    ∀ ch ∈ g'.m_grid, ch ∈ g.m_grid ∨ ∃ word ∈ words, ch ∈ word ∧ alphabetic word := by
  induction words generalizing g with
  | nil =>
    simp only [placeAll, Except.ok.injEq] at h
    subst h
    exact fun ch hch => Or.inl hch
  | cons word rest ih =>
    unfold placeAll at h
    rcases hr : g.place_crossing_word word with e | ⟨b, g2⟩
    · rw [hr] at h
      cases h
    · rw [hr] at h
      simp only at h
      intro ch hch
      rcases ih g2 h ch hch with h1 | ⟨v, hv, h1⟩
      · rcases place_crossing_word_mem g word b g2 hr ch h1 with h2 | h2
        · exact Or.inl h2
        · exact Or.inr ⟨word, List.mem_cons_self _ _, h2⟩
      · exact Or.inr ⟨v, List.mem_cons_of_mem _ hv, h1⟩

end Grid

/-- C16 as stated fails: `add_word` stores the characters of the word as they are
given, `toupper` is applied only by `Letters::operator[]` and by `print`.  After
the seed `cat` the cell `(0, 0)` holds `'c'`, which is neither `Empty` nor an
upper-case letter; after ATE has crossed it the grid holds both cases. -/
theorem cell_upper_case_counterexample :
    (Grid.new 5).place_initial_word .Vert "cat".toList = .ok lowerCatGrid ∧
      (∀ ch ∈ "cat".toList, ∃ i, Letters.index ch = .ok i) ∧
      lowerCatGrid.cell (0, 0) = 'c' ∧ lowerCatGrid.cell (0, 0) ≠ Empty ∧
      ¬ ('A' ≤ lowerCatGrid.cell (0, 0) ∧ lowerCatGrid.cell (0, 0) ≤ 'Z') ∧
      lowerCatGrid.placeAll ["ATE".toList] = .ok lowerCatAteGrid ∧
      lowerCatAteGrid.cell (0, 0) = 'c' ∧ lowerCatAteGrid.cell (0, 1) = 'A' :=
  ⟨by decide, by decide, by decide, by decide, by decide, by decide, by decide, by decide⟩

/-- C16, amended.  After `place_initial_word` on an empty grid and any sequence of
calls of `place_crossing_word` that return, every cell of the grid is `Empty` or
holds a character of one of the words given, in the case in which it was given;
that character is a letter, its upper-case form is one of `'A'..'Z'`.  When every
word is written in upper case, every cell is `Empty` or one of `'A'..'Z'`. -/
theorem cell_alphabet (size : Int) (d : Dir) (seed : List Char) (words : List (List Char))
    (g1 g : Grid) (h1 : (Grid.new size).place_initial_word d seed = .ok g1)
    (h2 : g1.placeAll words = .ok g) :
    (∀ ch ∈ g.m_grid, ch = Empty ∨
      ((∃ word ∈ seed :: words, ch ∈ word) ∧
        ∃ i, Letters.index ch = .ok i ∧ toupper ch = Letters.letter i)) ∧
    ((∀ word ∈ seed :: words, ∀ c ∈ word, 'A' ≤ c ∧ c ≤ 'Z') →
      ∀ ch ∈ g.m_grid, ch = Empty ∨ ('A' ≤ ch ∧ ch ≤ 'Z')) := by
  have key : ∀ ch ∈ g.m_grid, ch = Empty ∨ ∃ word ∈ seed :: words, ch ∈ word ∧ alphabetic word := by
    intro ch hch
    rcases Grid.placeAll_mem words g1 g h2 ch hch with h3 | ⟨v, hv, h3⟩
    · rcases Grid.seed_mem size d seed g1 h1 ch h3 with h4 | h4
      · exact Or.inl h4
      · exact Or.inr ⟨seed, List.mem_cons_self _ _, h4⟩
    · exact Or.inr ⟨v, List.mem_cons_of_mem _ hv, h3⟩
  constructor
  · intro ch hch
    rcases key ch hch with h3 | ⟨v, hv, h3, h4⟩
    · exact Or.inl h3
    · obtain ⟨i, hi⟩ := h4 ch h3
      exact Or.inr ⟨⟨v, hv, h3⟩, i, hi, toupper_of_index ch i hi⟩
  · intro hup ch hch
    rcases key ch hch with h3 | ⟨v, hv, h3, -⟩
    · exact Or.inl h3
    · exact Or.inr (hup v hv ch h3)

/-- C16, amended, at the scenario: seed CAT, then ATE (placed) and TO (refused). -/
theorem cell_alphabet_witness :
    (Grid.new 5).place_initial_word .Vert "CAT".toList = .ok catGrid ∧
      catGrid.placeAll ["ATE".toList, "TO".toList] = .ok catAteGrid ∧
      ((∀ ch ∈ catAteGrid.m_grid, ch = Empty ∨
        ((∃ word ∈ "CAT".toList :: ["ATE".toList, "TO".toList], ch ∈ word) ∧
          ∃ i, Letters.index ch = .ok i ∧ toupper ch = Letters.letter i)) ∧
      ((∀ word ∈ "CAT".toList :: ["ATE".toList, "TO".toList], ∀ c ∈ word, 'A' ≤ c ∧ c ≤ 'Z') →
        ∀ ch ∈ catAteGrid.m_grid, ch = Empty ∨ ('A' ≤ ch ∧ ch ≤ 'Z'))) :=
  ⟨by decide, by decide,
    cell_alphabet 5 .Vert "CAT".toList ["ATE".toList, "TO".toList] catGrid catAteGrid
      (by decide) (by decide)⟩

/-! ## The generation loop when every attempt fails (C17) -/

/-- C17. All-fail scenario.  When the seed placement leaves the state `g1` and each
of the first `maxTries` words sampled after the seed is refused by
`place_crossing_word`, `generate` ends after exactly `maxTries` calls of
`place_crossing_word` (one outcome per call is logged, all `false`) and the final
state, grid and position lists, is `g1`.  `maxTries.toNat + 1` iterations of the
loop are enough, and more change nothing. -/
theorem generate_all_fail (size maxTries : Int) (d : Dir) (rnd : Nat → List Char) (g1 : Grid)
    (hM : 0 ≤ maxTries)
    (hseed : (Grid.new size).place_initial_word d (rnd 0) = .ok g1)
    (hf : ∀ k : Nat, (k : Int) < maxTries →
      ∃ g', g1.place_crossing_word (rnd (1 + k)) = .ok (false, g')) :
    ∀ fuel, maxTries.toNat + 1 ≤ fuel →
      generate maxTries (Grid.new size) d rnd fuel =
        .ok (some (g1, List.replicate maxTries.toNat false)) ∧
      (List.replicate maxTries.toNat false).length = maxTries.toNat := by
  intro fuel hfuel
  refine ⟨?_, List.length_replicate _ _⟩
  unfold generate
  rw [hseed]
  simp only
  have hrun : generate_loop maxTries rnd (maxTries.toNat + 1) g1 0 1 [] =
      .ok (some (g1, [] ++ List.replicate maxTries.toNat false)) := by
    apply generate_loop_failures
    · omega
    · intro k hk
      obtain ⟨g', hg'⟩ := hf k (by omega)
      have := failed_attempt_state g1 _ g' hg'
      subst this
      exact hg'
  rw [generate_loop_stable maxTries rnd (maxTries.toNat + 1) g1 0 1 [] (by rw [hrun]; simp)
    fuel hfuel, hrun]
  rfl

/-- C17 with `maxTries = 5` on a 5 x 5 grid: the seed is CAT, every later word is DOG,
which shares no letter with CAT; the run ends after exactly five refused
attempts in the state the seed left. -/
theorem generate_all_fail_witness :
    (0 : Int) ≤ 5 ∧
      (Grid.new 5).place_initial_word .Vert (catThenDog 0) = .ok catGrid ∧
      (∀ k : Nat, (k : Int) < 5 →
        ∃ g', catGrid.place_crossing_word (catThenDog (1 + k)) = .ok (false, g')) ∧
      (∀ fuel, (5 : Int).toNat + 1 ≤ fuel →
        generate 5 (Grid.new 5) .Vert catThenDog fuel =
          .ok (some (catGrid, List.replicate (5 : Int).toNat false)) ∧
        (List.replicate (5 : Int).toNat false).length = (5 : Int).toNat) ∧
      generate 5 (Grid.new 5) .Vert catThenDog 6 =
        .ok (some (catGrid, [false, false, false, false, false])) ∧
      generate 5 (Grid.new 5) .Vert catThenDog 5 = .ok none :=
  have hdog : ∀ k : Nat,
      ∃ g', catGrid.place_crossing_word (catThenDog (1 + k)) = .ok (false, g') := fun k => by
    have e : catThenDog (1 + k) = "DOG".toList := by simp [catThenDog]
    rw [e]
    exact ⟨catGrid, by decide⟩
  ⟨by decide, by decide, fun k _ => hdog k,
    generate_all_fail 5 5 .Vert catThenDog catGrid (by decide) (by decide) (fun k _ => hdog k),
    by decide, by decide⟩

/-! ## `can_place` with the grid read through a given accessor -/

theorem orElse_congr (a a' b b' : Except Fault Bool) (ha : a = a')
    (hb : a = .ok false → b = b') : Grid.orElse a b = Grid.orElse a' b' := by
  subst ha
  rcases a with e | (_ | _)
  · rfl
  · simp only [orElse_ok_false]
    exact hb rfl
  · rfl

theorem andNotVia_congr (E E' : Int → Int → Except Fault Bool) (P : Prop) [Decidable P]
    (r c : Int) (h : P → E r c = E' r c) :
    andNotVia E (decide P) r c = andNotVia E' (decide P) r c := by
  unfold andNotVia notVia
  by_cases hP : P
  · simp only [hP, decide_True, if_true, h hP]
  · simp only [hP, decide_False, Bool.false_eq_true, if_false]

theorem skipLoop_congr (test test' : Int → Except Fault Bool) (w : Int) (n : Nat) (i x : Int)
    (h : ∀ k : Nat, k < n → i + k ≠ w → test (x + k) = test' (x + k)) :
    skipLoop test w n i x = skipLoop test' w n i x := by
  induction n generalizing i x with
  | zero => rfl
  | succ n ih =>
    have hrec : skipLoop test w n (i + 1) (x + 1) = skipLoop test' w n (i + 1) (x + 1) := by
      apply ih
      intro k hk hne
      have := h (k + 1) (Nat.succ_lt_succ hk) (by push_cast; omega)
      have e : x + 1 + (k : Int) = x + ((k + 1 : Nat) : Int) := by push_cast; ring
      rw [e]; exact this
    rw [skipLoop_succ, skipLoop_succ, hrec]
    by_cases hi : i = w
    · simp only [hi, if_true]
    · have h0 := h 0 (Nat.succ_pos n) (by simpa using hi)
      simp only [Nat.cast_zero, add_zero] at h0
      simp only [hi, if_false, h0]

namespace Grid

theorem can_place_via_empty (g : Grid) (word : List Char) (w : Int) (p : Point) :
    g.can_place_via g.empty word w p = g.can_place word w p := by
  unfold can_place_via can_place
  simp only [can_place_horz_loop_eq, can_place_vert_loop_eq]
  rfl

/-- Two accessors that agree on the cells `can_place` may read give the same
result: these cells lie inside the grid when the candidate does, and none of
them is the cell of the candidate when `w` is a position of the word. -/
theorem can_place_via_agree (g : Grid) (E E' : Int → Int → Except Fault Bool)
    (word : List Char) (w : Int) (p : Point)
    (hE : ∀ r c : Int, (g.inside p.coord → g.inside (r, c)) →
      (0 ≤ w → w < (word.length : Int) → (r, c) ≠ p.coord) → E r c = E' r c) :
    g.can_place_via E word w p = g.can_place_via E' word w p := by
  have key : ∀ (a a' b b' : Except Fault Bool), a = a' → (a = .ok false → b = b') →
      (match a with
        | .ok true => (Except.ok false : Except Fault Bool)
        | .ok false => b
        | .error e => .error e) =
      (match a' with
        | .ok true => (Except.ok false : Except Fault Bool)
        | .ok false => b'
        | .error e => .error e) := by
    intro a a' b b' ha hb
    subst ha
    rcases a with e | (_ | _)
    · rfl
    · exact hb rfl
    · rfl
  have hin : ∀ r c : Int,
      (0 ≤ p.row → p.row < g.m_size → 0 ≤ p.col → p.col < g.m_size →
        0 ≤ r ∧ r < g.m_size ∧ 0 ≤ c ∧ c < g.m_size) →
      (0 ≤ w → w < (word.length : Int) → r ≠ p.row ∨ c ≠ p.col) → E r c = E' r c := by
    intro r c h1 h2
    apply hE
    · rintro ⟨q1, q2, q3, q4⟩
      exact h1 q1 q2 q3 q4
    · intro q1 q2 e
      simp only [Point.coord, Prod.mk.injEq] at e
      rcases h2 q1 q2 with h | h
      · exact h e.1
      · exact h e.2
  have hnot : ∀ r c : Int,
      (0 ≤ p.row → p.row < g.m_size → 0 ≤ p.col → p.col < g.m_size →
        0 ≤ r ∧ r < g.m_size ∧ 0 ≤ c ∧ c < g.m_size) →
      (0 ≤ w → w < (word.length : Int) → r ≠ p.row ∨ c ≠ p.col) →
      notVia E r c = notVia E' r c := fun r c h1 h2 => by
    unfold notVia
    rw [hin r c h1 h2]
  unfold can_place_via
  cases hd : p.dir
  · simp only [Dir.not, Dir.horz, if_false, Bool.false_eq_true]
    apply key
    · apply orElse_congr _ _ _ _ rfl
      intro h1
      apply orElse_congr _ _ _ _ rfl
      intro h2
      simp only [Except.ok.injEq, decide_eq_false_iff_not, not_lt, gt_iff_lt] at h1 h2
      apply orElse_congr
      · exact andNotVia_congr _ _ _ _ _ (fun h => hin _ _ (by omega) (by omega))
      · intro _
        exact andNotVia_congr _ _ _ _ _ (fun h => hin _ _ (by omega) (by omega))
    · intro h
      simp only [orElse_decide_eq_false_iff, not_lt, gt_iff_lt] at h
      obtain ⟨h1, h2, -⟩ := h
      apply skipLoop_congr
      intro k hk hkw
      simp only [zero_add] at hkw
      apply orElse_congr
      · exact hnot _ _ (by omega) (by omega)
      · intro _
        apply orElse_congr
        · exact andNotVia_congr _ _ _ _ _ (fun h => hin _ _ (by omega) (by omega))
        · intro _
          exact andNotVia_congr _ _ _ _ _ (fun h => hin _ _ (by omega) (by omega))
  · simp only [Dir.not, Dir.horz, if_true]
    apply key
    · apply orElse_congr _ _ _ _ rfl
      intro h1
      apply orElse_congr _ _ _ _ rfl
      intro h2
      simp only [Except.ok.injEq, decide_eq_false_iff_not, not_lt, gt_iff_lt] at h1 h2
      apply orElse_congr
      · exact andNotVia_congr _ _ _ _ _ (fun h => hin _ _ (by omega) (by omega))
      · intro _
        exact andNotVia_congr _ _ _ _ _ (fun h => hin _ _ (by omega) (by omega))
    · intro h
      simp only [orElse_decide_eq_false_iff, not_lt, gt_iff_lt] at h
      obtain ⟨h1, h2, -⟩ := h
      apply skipLoop_congr
      intro k hk hkw
      simp only [zero_add] at hkw
      apply orElse_congr
      · exact hnot _ _ (by omega) (by omega)
      · intro _
        apply orElse_congr
        · exact andNotVia_congr _ _ _ _ _ (fun h => hin _ _ (by omega) (by omega))
        · intro _
          exact andNotVia_congr _ _ _ _ _ (fun h => hin _ _ (by omega) (by omega))

end Grid

/-! ## The crossing letter is taken from the index, not read from the grid (C18) -/

theorem cell_of_get (g : Grid) (rc : Int × Int) (ch : Char) (h : g.get rc.1 rc.2 = .ok ch) :
    g.cell rc = ch := by
  obtain ⟨-, h2⟩ := (g.get_ok_iff _ _ _).mp h
  rw [Grid.cell_eq]
  unfold Grid.slot
  rw [h2]
  rfl

/-- C18 as stated fails.  `can_place` skips the letter position `w`
(`if (i == w) continue;`) and never reads the cell at the candidate coordinate.
On the empty 5 x 5 grid it returns `true` for CAT with its first letter on `(2, 2)`,
a cell that is `Empty`, and it does so with the cell `(2, 2)` barred from being
read.  In the state reached from the seed `cat`, the candidate `(0, 1)` found in
the list of A is accepted for ATE while the cell holds `'a'`. -/
theorem can_place_letter_counterexample :
    ((Grid.new 5).can_place "CAT".toList 0 ⟨2, 2, .Vert⟩ = .ok true ∧
      (Grid.new 5).cell (2, 2) = Empty ∧ "CAT".toList[0]? = some 'C' ∧
      (Grid.new 5).can_place_via ((Grid.new 5).emptyBut (2, 2)) "CAT".toList 0 ⟨2, 2, .Vert⟩ =
        .ok true) ∧
    (Reach 5 "cat".toList lowerCatGrid [] [runCells ⟨0, 0, .Vert⟩ 0 3] ∧
      lowerCatGrid.candidate "ATE".toList 0 0 = some (0, ⟨0, 1, .Horz⟩) ∧
      lowerCatGrid.can_place "ATE".toList 0 ⟨0, 1, .Horz⟩ = .ok true ∧
      lowerCatGrid.cell (0, 1) = 'a' ∧ "ATE".toList[0]? = some 'A') :=
  ⟨⟨by decide, by decide, by decide, by decide⟩,
    ⟨Reach.seeded .Vert lowerCatGrid (by decide), by decide, by decide, by decide, by decide⟩⟩

/-- C18, amended.  `can_place` does not read the crossing cell: for a letter position
`w` of the word, it returns the same outcome when the cell at the coordinate of
the candidate is barred from being read.  The crossing letter is guaranteed by
the position index, up to the case of the letter: in every state reachable by
`place_initial_word` followed by calls of `place_crossing_word`, whenever
`can_place(word, w, p)` returns `true` for the `j`-th entry `p` of the position
list of `word[w]`, as in the search of `place_crossing_word`, the cell at the
coordinate of `p` holds the letter `word[w]` in upper or lower case. -/
theorem can_place_crossing_letter (size : Int) (seed : List Char) (g : Grid)
    (used : List (Int × Int)) (runs : List (List (Int × Int)))
    (h : Reach size seed g used runs) (word : List Char) (w j : Nat)
    (hfit : g.fits word w j) :
    (∀ (g0 : Grid) (q : Point), w < word.length →
      g0.can_place_via (g0.emptyBut q.coord) word w q = g0.can_place word w q) ∧
    ∃ (i : Fin 26) (p : Point) (hw : w < word.length),
      g.candidate word w j = some (i, p) ∧ g.can_place word w p = .ok true ∧
      toupper (g.cell p.coord) = toupper (word.get ⟨w, hw⟩) ∧
      toupper (g.cell p.coord) = Letters.letter i := by
  constructor
  · intro g0 q hw
    rw [← Grid.can_place_via_empty]
    apply Grid.can_place_via_agree
    intro r c _ hne
    unfold Grid.emptyBut
    rw [if_neg (hne (Int.natCast_nonneg _) (by exact_mod_cast hw))]
  obtain ⟨ch, i, p, q1, q2, q3, q4⟩ := (g.fits_iff word w j).mp hfit
  have hinv := Reach.inv size seed g used runs h
  obtain ⟨c, c1, c2⟩ := hinv.holds i p (List.getElem?_mem q3)
  have hw : w < word.length := (List.getElem?_eq_some_iff.mp q1).1
  have hch : word.get ⟨w, hw⟩ = ch := by
    have := (List.getElem?_eq_some_iff.mp q1).2
    simpa using this
  have hcand : g.candidate word w j = some (i, p) :=
    (g.candidate_eq_some word w j i p).mpr ⟨ch, q1, q2, q3⟩
  have hcell : g.cell p.coord = c := cell_of_get g p.coord c c1
  refine ⟨i, p, hw, hcand, q4, ?_, ?_⟩
  · rw [hcell, hch, toupper_of_index c i c2, toupper_of_index ch i q2]
  · rw [hcell, toupper_of_index c i c2]

/-- C18, amended, at the scenario: ATE is accepted through the entry of A left by
the seed CAT, and the cell there holds A. -/
theorem can_place_crossing_letter_witness :
    Reach 5 "CAT".toList catGrid [] [runCells ⟨0, 0, .Vert⟩ 0 3] ∧
      catGrid.fits "ATE".toList 0 0 ∧
      ((∀ (g0 : Grid) (q : Point), 0 < "ATE".toList.length →
        g0.can_place_via (g0.emptyBut q.coord) "ATE".toList (0 : Nat) q =
          g0.can_place "ATE".toList (0 : Nat) q) ∧
      ∃ (i : Fin 26) (p : Point) (hw : 0 < "ATE".toList.length),
        catGrid.candidate "ATE".toList 0 0 = some (i, p) ∧
        catGrid.can_place "ATE".toList (0 : Nat) p = .ok true ∧
        toupper (catGrid.cell p.coord) = toupper ("ATE".toList.get ⟨0, hw⟩) ∧
        toupper (catGrid.cell p.coord) = Letters.letter i) ∧
      catGrid.cell (0, 1) = 'A' ∧
      catGrid.can_place_via (catGrid.emptyBut (0, 1)) "ATE".toList 0 ⟨0, 1, .Horz⟩ = .ok true ∧
      catGrid.can_place_via (catGrid.emptyBut (1, 1)) "ATE".toList 0 ⟨0, 1, .Horz⟩ =
        .error .outOfRange :=
  ⟨Reach.seeded .Vert catGrid (by decide), by decide,
    can_place_crossing_letter 5 "CAT".toList catGrid _ _ (Reach.seeded .Vert catGrid (by decide))
      "ATE".toList 0 0 (by decide),
    by decide, by decide, by decide⟩

/-! ## The border rule (C12) -/

theorem Dir.not_not (d : Dir) : d.not.not = d := by
  cases d <;> rfl

theorem adjacent_iff (D : Dir) (a b : Int × Int) :
    adjacent a b ↔ b = step D a 1 ∨ b = step D a (-1) ∨ b = step D.not a 1 ∨
      b = step D.not a (-1) := by
  obtain ⟨a1, a2⟩ := a
  obtain ⟨b1, b2⟩ := b
  unfold adjacent step
  cases D <;> simp only [Dir.not, Prod.mk.injEq] <;> omega

theorem adjacent_symm (a b : Int × Int) (h : adjacent a b) : adjacent b a := by
  unfold adjacent at h ⊢
  omega

theorem step_step (D : Dir) (rc : Int × Int) (k l : Int) :
    step D (step D rc k) l = step D rc (k + l) := by
  cases D <;> simp [step, add_assoc]

theorem step_across_ne (D : Dir) (a : Int × Int) (k k' l : Int) (hl : l ≠ 0) :
    step D.not (step D a k) l ≠ step D a k' := by
  unfold step
  cases D <;> simp only [Dir.not, ne_eq, Prod.mk.injEq] <;> omega

theorem step_inj (D : Dir) (a : Int × Int) (k k' : Int) (h : step D a k = step D a k') :
    k = k' := by
  unfold step at h
  cases D <;> simp only [Prod.mk.injEq] at h <;> omega

namespace Grid

/-- A successful crossing in a well-formed state, in terms of the cells of the
grid: the run lies inside the grid and was legal, each of its cells holds the
letter of the word afterwards, and the cells off the run are unchanged. -/
theorem crossing_cells (g : Grid) (word : List Char) (g' : Grid) (w j : Nat) (i : Fin 26)
    (p : Point) (hs : g.sized) (hin : g.indexInside)
    (h : g.place_crossing_word word = .ok (true, g'))
    (hfirst : g.firstFit word w j) (hcand : g.candidate word w j = some (i, p)) :
    g'.m_size = g.m_size ∧ g.inside p.coord ∧ w < word.length ∧
    g.legal word.length w p ∧
    (∀ k : Nat, k < word.length → g'.cell (runCell p w k) ≠ Empty) ∧
    (∀ rc, g.inside rc → (∀ k : Nat, k < word.length → rc ≠ runCell p w k) →
      g'.cell rc = g.cell rc) := by
  obtain ⟨h3, f2, ⟨hw, -⟩, f1, -, f6, -, f8⟩ := g.crossing_facts word g' w j i p h hfirst hcand
  have hp : g.inside p.coord := g.indexInside_apply hin i p (List.getElem?_mem f2)
  have hleg : g.legal word.length w p := (g.passes_iff_legal _ w p hs hw hp).mp h3
  refine ⟨f1, hp, hw, hleg, fun k hk => ?_, fun rc hrc hne => ?_⟩
  · obtain ⟨q1, ⟨i', q2⟩⟩ := f6 k hk
    rw [cell_of_get g' _ _ q1]
    exact index_ne_Empty _ i' q2
  · have hget : g'.get rc.1 rc.2 = g.get rc.1 rc.2 := by
      apply f8
      intro k hk e
      apply hne k hk
      apply g.slot_inj _ _ hrc (g.passes_run_inside _ _ _ h3 hp k hk)
      unfold slot
      rw [e]
    have hb := g.inside_inBuffer hs rc hrc
    have hg : g.get rc.1 rc.2 = .ok (g.cell rc) := by
      unfold get cell
      rw [if_pos hb]
    rw [hg] at hget
    exact cell_of_get g' rc _ hget


/-- Next to a cell newly filled by a crossing word, the only cells that hold a
letter afterwards are the neighbouring cells of the run itself. -/
theorem new_cell_neighbour (g : Grid) (word : List Char) (g' : Grid) (w j : Nat) (i : Fin 26)
    (p : Point) (hs : g.sized) (hin : g.indexInside)
    (h : g.place_crossing_word word = .ok (true, g'))
    (hfirst : g.firstFit word w j) (hcand : g.candidate word w j = some (i, p))
    (k : Nat) (hk : k < word.length) (hkw : k ≠ w) (b : Int × Int) (hb : g.inside b)
    (hadj : adjacent (runCell p w k) b) (hne : g'.cell b ≠ Empty) :
    (∃ k' : Nat, k' < word.length ∧ b = runCell p w k') ∧
      (b = step p.dir.not (runCell p w k) 1 ∨ b = step p.dir.not (runCell p w k) (-1)) := by
  obtain ⟨-, -, -, hleg, -, hoff⟩ := g.crossing_cells word g' w j i p hs hin h hfirst hcand
  obtain ⟨-, ⟨l2a, l2b⟩, l3⟩ := hleg
  obtain ⟨-, l3a, l3b⟩ := l3 k hk hkw
  have hrun : ∀ m : Int, runCell p w m = step p.dir.not (step p.dir.not p.coord (-(w : Int))) m :=
    fun m => rfl
  simp only [hrun] at hoff hadj ⊢
  generalize step p.dir.not p.coord (-(w : Int)) = s at *
  generalize p.dir.not = D at *
  -- a cell that was outside or empty and is off the run is still empty
  have hempty : g.outsideOrEmpty b → (∀ k' : Nat, k' < word.length → b ≠ step D s k') → False := by
    intro ho hoffrun
    rcases ho with ho | ho
    · exact ho hb
    · rw [hoff b hb hoffrun, ho] at hne
      exact hne rfl
  rcases (adjacent_iff D (step D s k) b).mp hadj with e | e | e | e
  · -- one step on along the run
    refine ⟨?_, Or.inl e⟩
    rw [step_step] at e
    by_cases hlast : k + 1 < word.length
    · refine ⟨k + 1, hlast, ?_⟩
      rw [e]
      push_cast
      rfl
    · exfalso
      have hk1 : (k : Int) + 1 = (word.length : Int) := by omega
      rw [hk1] at e
      apply hempty (e ▸ l2b)
      intro k' hk' e'
      have := step_inj D s _ _ (e.symm.trans e')
      omega
  · -- one step back along the run
    refine ⟨?_, Or.inr e⟩
    rw [step_step] at e
    by_cases hpos : 1 ≤ k
    · refine ⟨k - 1, by omega, ?_⟩
      rw [e]
      congr 1
      omega
    · exfalso
      have hk0 : (k : Int) + -1 = -1 := by omega
      rw [hk0] at e
      apply hempty (e ▸ l2a)
      intro k' hk' e'
      have := step_inj D s _ _ (e.symm.trans e')
      omega
  · -- across the run
    exfalso
    apply hempty (e ▸ l3b)
    intro k' hk' e'
    exact step_across_ne D s k k' 1 (by decide) (e.symm.trans e')
  · exfalso
    apply hempty (e ▸ l3a)
    intro k' hk' e'
    exact step_across_ne D s k k' (-1) (by decide) (e.symm.trans e')

/-- A cell that holds a letter after a crossing was newly filled by it or held a
letter before. -/
theorem cell_new_or_old (g : Grid) (word : List Char) (g' : Grid) (w j : Nat) (i : Fin 26)
    (p : Point) (hs : g.sized) (hin : g.indexInside)
    (h : g.place_crossing_word word = .ok (true, g'))
    (hfirst : g.firstFit word w j) (hcand : g.candidate word w j = some (i, p))
    (hcross : g.cell p.coord ≠ Empty) (a : Int × Int) (ha : g.inside a)
    (hne : g'.cell a ≠ Empty) :
    (∃ k : Nat, k < word.length ∧ k ≠ w ∧ a = runCell p w k) ∨ g.cell a ≠ Empty := by
  obtain ⟨-, -, -, -, -, hoff⟩ := g.crossing_cells word g' w j i p hs hin h hfirst hcand
  by_cases hex : ∃ k : Nat, k < word.length ∧ a = runCell p w k
  · obtain ⟨k, hk, e⟩ := hex
    by_cases hkw : k = w
    · right
      rw [e, hkw, runCell_self]
      exact hcross
    · exact Or.inl ⟨k, hk, hkw, e⟩
  · right
    rw [← hoff a ha (fun k hk e => hex ⟨k, hk, e⟩)]
    exact hne

/-- The border invariants are kept by a successful crossing. -/
theorem border_crossed (g : Grid) (word : List Char) (g' : Grid) (w j : Nat) (i : Fin 26)
    (p : Point) (runs : List (List (Int × Int))) (hs : g.sized) (hin : g.indexInside)
    (h : g.place_crossing_word word = .ok (true, g'))
    (hfirst : g.firstFit word w j) (hcand : g.candidate word w j = some (i, p))
    (hcross : g.cell p.coord ≠ Empty) (hJ : g.joined runs) (hB : g.noBlock) :
    g'.joined (runCells p w word.length :: runs) ∧ g'.noBlock := by
  obtain ⟨hsize, -, -, -, -, -⟩ := g.crossing_cells word g' w j i p hs hin h hfirst hcand
  have hins : ∀ rc, g'.inside rc → g.inside rc := fun rc hrc => by
    unfold inside at hrc ⊢
    rw [hsize] at hrc
    exact hrc
  have hnew := g.cell_new_or_old word g' w j i p hs hin h hfirst hcand hcross
  have hnb := g.new_cell_neighbour word g' w j i p hs hin h hfirst hcand
  constructor
  · intro a b ha hb hadj hca hcb
    have ha' := hins a ha
    have hb' := hins b hb
    rcases hnew a ha' hca with ⟨k, hk, hkw, rfl⟩ | hoa
    · obtain ⟨⟨k', hk', rfl⟩, -⟩ := hnb k hk hkw b hb' hadj hcb
      exact ⟨_, List.mem_cons_self _ _, (mem_runCells _ _ _ _).mpr ⟨k, hk, rfl⟩,
        (mem_runCells _ _ _ _).mpr ⟨k', hk', rfl⟩⟩
    · rcases hnew b hb' hcb with ⟨k, hk, hkw, rfl⟩ | hob
      · obtain ⟨⟨k', hk', rfl⟩, -⟩ := hnb k hk hkw a ha' (adjacent_symm _ _ hadj) hca
        exact ⟨_, List.mem_cons_self _ _, (mem_runCells _ _ _ _).mpr ⟨k', hk', rfl⟩,
          (mem_runCells _ _ _ _).mpr ⟨k, hk, rfl⟩⟩
      · obtain ⟨r, hr, h1, h2⟩ := hJ a b ha' hb' hadj hoa hob
        exact ⟨r, List.mem_cons_of_mem _ hr, h1, h2⟩
  · intro r c h00 h11
    by_contra hfull
    simp only [not_or] at hfull
    obtain ⟨c00, c01, c10, c11⟩ := hfull
    have i00 := hins _ h00
    have i11 := hins _ h11
    have i01 : g.inside (r, c + 1) := by
      unfold inside at i00 i11 ⊢
      simp only at i00 i11 ⊢
      omega
    have i10 : g.inside (r + 1, c) := by
      unfold inside at i00 i11 ⊢
      simp only at i00 i11 ⊢
      omega
    -- a newly filled cell cannot have letters both beside it and above or below it
    have corner : ∀ X Y Z : Int × Int, (∃ k : Nat, k < word.length ∧ k ≠ w ∧ X = runCell p w k) →
        g.inside Y → g.inside Z → g'.cell Y ≠ Empty → g'.cell Z ≠ Empty →
        Y.1 = X.1 → (Y.2 = X.2 + 1 ∨ X.2 = Y.2 + 1) →
        Z.2 = X.2 → (Z.1 = X.1 + 1 ∨ X.1 = Z.1 + 1) → False := by
      rintro X Y Z ⟨k, hk, hkw, rfl⟩ hY hZ cY cZ y1 y2 z1 z2
      obtain ⟨-, eY⟩ := hnb k hk hkw Y hY (Or.inl ⟨y1.symm, by omega⟩) cY
      obtain ⟨-, eZ⟩ := hnb k hk hkw Z hZ (Or.inr ⟨z1.symm, by omega⟩) cZ
      generalize runCell p w k = X at *
      generalize p.dir.not = D at *
      obtain ⟨X1, X2⟩ := X
      unfold step at eY eZ
      cases D
      · simp only at eY eZ y1 y2 z1 z2
        rcases eZ with rfl | rfl <;> simp at z2
      · simp only at eY eZ y1 y2 z1 z2
        rcases eY with rfl | rfl <;> simp at y2
    rcases hnew _ i00 c00 with n00 | o00
    · exact corner (r, c) (r, c + 1) (r + 1, c) n00 i01 i10 c01 c10 rfl (Or.inl rfl) rfl
        (Or.inl rfl)
    rcases hnew _ i01 c01 with n01 | o01
    · exact corner (r, c + 1) (r, c) (r + 1, c + 1) n01 i00 i11 c00 c11 rfl (Or.inr rfl) rfl
        (Or.inl rfl)
    rcases hnew _ i10 c10 with n10 | o10
    · exact corner (r + 1, c) (r + 1, c + 1) (r, c) n10 i11 i00 c11 c00 rfl (Or.inl rfl) rfl
        (Or.inr rfl)
    rcases hnew _ i11 c11 with n11 | o11
    · exact corner (r + 1, c + 1) (r + 1, c) (r, c + 1) n11 i10 i01 c10 c01 rfl (Or.inr rfl) rfl
        (Or.inr rfl)
    rcases hB r c i00 i11 with e | e | e | e
    · exact o00 e
    · exact o01 e
    · exact o10 e
    · exact o11 e

/-- After the seed placement of a word not longer than the grid size, the cells
that hold a letter are those of the run of the seed. -/
theorem seed_cells (size : Int) (d : Dir) (seed : List Char) (g : Grid)
    (h : (Grid.new size).place_initial_word d seed = .ok g)
    (hfit : (seed.length : Int) ≤ size) (rc : Int × Int) (hrc : g.inside rc)
    (hne : g.cell rc ≠ Empty) :
    ∃ k : Nat, k < seed.length ∧ rc = runCell ⟨0, 0, d⟩ 0 k := by
  obtain ⟨i, -, -, -, h4, h5, -, -, -, -, h10⟩ := seed_facts size d seed g h
  obtain ⟨hs, -⟩ := seed_wf size d seed g h hfit
  by_contra hex
  have hrun : ∀ k : Nat, k < seed.length → g.inside (runCell ⟨0, 0, d⟩ 0 k) := by
    intro k hk
    rw [runCell_anchor]
    unfold inside step
    rw [h4]
    cases d <;> simp [Dir.not] <;> omega
  have hslot : ∀ x, (Grid.new size).slot x = g.slot x := fun x => by
    simp [slot, offset, Grid.new, h4]
  have hb := g.inside_inBuffer hs rc hrc
  rcases h10 (g.slot rc) (fun k hk e => hex ⟨k, hk,
      (g.slot_inj _ _ (hrun k hk) hrc (by rw [← hslot, e])).symm⟩) with h11 | h11
  · apply hne
    rw [cell_eq, h11]
    rfl
  · unfold inBuffer at hb
    simp only [Grid.new, List.length_replicate] at h11
    unfold slot at h11
    omega

theorem border_seeded (size : Int) (d : Dir) (seed : List Char) (g : Grid)
    (h : (Grid.new size).place_initial_word d seed = .ok g)
    (hfit : (seed.length : Int) ≤ size) :
    g.joined [runCells ⟨0, 0, d⟩ 0 seed.length] ∧ g.noBlock := by
  have hcells := seed_cells size d seed g h hfit
  constructor
  · intro a b ha hb _ hca hcb
    obtain ⟨k, hk, rfl⟩ := hcells a ha hca
    obtain ⟨k', hk', rfl⟩ := hcells b hb hcb
    exact ⟨_, List.mem_singleton.mpr rfl, (mem_runCells _ _ _ _).mpr ⟨k, hk, rfl⟩,
      (mem_runCells _ _ _ _).mpr ⟨k', hk', rfl⟩⟩
  · intro r c h00 h11
    right; right; right
    by_contra hne
    obtain ⟨k, hk, e⟩ := hcells _ h11 hne
    rw [runCell_anchor] at e
    unfold inside at h00
    simp only at h00
    unfold step at e
    cases d <;> simp only [Dir.not, Prod.mk.injEq] at e <;> omega

end Grid

/-- Border invariants of the reachable states. -/
theorem Reach.border (size : Int) (seed : List Char) (g : Grid) (used : List (Int × Int))
    (runs : List (List (Int × Int))) (h : Reach size seed g used runs)
    (hfit : (seed.length : Int) ≤ size) : g.joined runs ∧ g.noBlock := by
  induction h with
  | seeded d g h => exact Grid.border_seeded size d seed g h hfit
  | crossed g used runs word g' w j i p hr h hfirst hcand ih =>
    obtain ⟨hs, hin⟩ := Reach.wf size seed g used runs hr hfit
    have hinv := Reach.inv size seed g used runs hr
    obtain ⟨ch, -, -, q3⟩ := (g.candidate_eq_some word w j i p).mp hcand
    obtain ⟨c, c1, c2⟩ := hinv.holds i p (List.getElem?_mem q3)
    have hcross : g.cell p.coord ≠ Empty := by
      rw [cell_of_get g p.coord c c1]
      exact Grid.index_ne_Empty c i c2
    exact g.border_crossed word g' w j i p runs hs hin h hfirst hcand hcross ih.1 ih.2
  | failed g used runs word g' _ h ih =>
    have := failed_attempt_state g word g' h
    subst this
    exact ih

/-- C12 as stated fails in two ways.  Seed CAT in row 0 of a 5 x 5 grid, TEA going
down from its T, then EEL crossing TEA at its E: the parallel words CAT and EEL
lie in rows 0 and 1 and occupy the cells `(0, 2)` and `(1, 2)`, one above the
other (`can_place` does not test the neighbours of the crossing cell).  And on
a 3 x 3 grid the seed HELLO, longer than the grid size, goes on into row 1 and
fills the 2 x 2 block at the anchor. -/
theorem border_rule_counterexample :
    (Reach 5 "CAT".toList catTeaEelGrid [(1, 2), (0, 2)]
        [runCells ⟨1, 2, .Vert⟩ 0 3, runCells ⟨0, 2, .Horz⟩ 0 3, runCells ⟨0, 0, .Vert⟩ 0 3] ∧
      runCells ⟨0, 0, .Vert⟩ 0 3 = [(0, 0), (0, 1), (0, 2)] ∧
      runCells ⟨1, 2, .Vert⟩ 0 3 = [(1, 2), (1, 3), (1, 4)] ∧
      catTeaEelGrid.cell (0, 2) = 'T' ∧ catTeaEelGrid.cell (1, 2) = 'E' ∧
      adjacent (0, 2) (1, 2)) ∧
    (Reach 3 "HELLO".toList helloGrid [] [runCells ⟨0, 0, .Vert⟩ 0 5] ∧
      helloGrid.cell (0, 0) = 'H' ∧ helloGrid.cell (0, 1) = 'E' ∧
      helloGrid.cell (1, 0) = 'L' ∧ helloGrid.cell (1, 1) = 'O' ∧ ¬ helloGrid.noBlock) := by
  have hseed : Reach 5 "CAT".toList catGrid [] [runCells ⟨0, 0, .Vert⟩ 0 "CAT".toList.length] :=
    Reach.seeded .Vert catGrid (by decide)
  have hfirst1 : catGrid.firstFit "TEA".toList 0 0 := by
    refine ⟨by decide, fun w' j' he => ?_⟩
    unfold earlier at he
    simp at he
  have hfirst2 : catTeaGrid.firstFit "EEL".toList 0 0 := by
    refine ⟨by decide, fun w' j' he => ?_⟩
    unfold earlier at he
    simp at he
  have h1 := Reach.crossed catGrid [] _ "TEA".toList catTeaGrid 0 0 19 ⟨0, 2, .Horz⟩ hseed
    (by decide) hfirst1 (by decide)
  have h2 := Reach.crossed catTeaGrid _ _ "EEL".toList catTeaEelGrid 0 0 4 ⟨1, 2, .Vert⟩ h1
    (by decide) hfirst2 (by decide)
  refine ⟨⟨h2, by decide, by decide, by decide, by decide, by decide⟩,
    ⟨Reach.seeded .Vert helloGrid (by decide), by decide, by decide, by decide, by decide, ?_⟩⟩
  intro hnb
  exact absurd (hnb 0 0 (by decide) (by decide)) (by decide)

/-- C12, amended.  In every state reachable by `place_initial_word` with a seed word
not longer than the grid size, followed by calls of `place_crossing_word`: two
neighbouring cells that both hold a letter always lie together on the run of
one placed word, so two parallel words have side-by-side cells only where a
word crossing both runs through the two cells; no 2 x 2 block of cells is
entirely non-empty; and when a further placement is accepted, every cell it
newly writes (every position other than the crossing position `w`) lay inside
the grid, was `Empty`, and had both its neighbours perpendicular to the run
outside the grid or `Empty` when `can_place` tested it. -/
theorem border_rule (size : Int) (seed : List Char) (g : Grid) (used : List (Int × Int))
    (runs : List (List (Int × Int))) (h : Reach size seed g used runs)
    (hfit : (seed.length : Int) ≤ size) :
    g.joined runs ∧ g.noBlock ∧
    ∀ (word : List Char) (g' : Grid) (w j : Nat) (i : Fin 26) (p : Point),
      g.place_crossing_word word = .ok (true, g') → g.firstFit word w j →
      g.candidate word w j = some (i, p) →
      ∀ k : Nat, k < word.length → k ≠ w →
        g.inside (runCell p w k) ∧ g.cell (runCell p w k) = Empty ∧
        g.outsideOrEmpty (step p.dir (runCell p w k) (-1)) ∧
        g.outsideOrEmpty (step p.dir (runCell p w k) 1) := by
  obtain ⟨hJ, hB⟩ := Reach.border size seed g used runs h hfit
  refine ⟨hJ, hB, ?_⟩
  intro word g' w j i p hc hfirst hcand k hk hkw
  obtain ⟨hs, hin⟩ := Reach.wf size seed g used runs h hfit
  obtain ⟨-, -, -, hleg, -, -⟩ := g.crossing_cells word g' w j i p hs hin hc hfirst hcand
  obtain ⟨l1, -, l3⟩ := hleg
  obtain ⟨l3a, l3b, l3c⟩ := l3 k hk hkw
  rw [Dir.not_not] at l3b l3c
  exact ⟨l1 k hk, l3a, l3b, l3c⟩

/-- C12, amended, at the scenario: the state after ATE has crossed CAT. -/
theorem border_rule_witness :
    Reach 5 "CAT".toList catAteGrid [(0, 1)]
        [runCells ⟨0, 1, .Horz⟩ 0 3, runCells ⟨0, 0, .Vert⟩ 0 3] ∧
      (("CAT".toList.length : Nat) : Int) ≤ 5 ∧
      (catAteGrid.joined [runCells ⟨0, 1, .Horz⟩ 0 3, runCells ⟨0, 0, .Vert⟩ 0 3] ∧
        catAteGrid.noBlock ∧
        ∀ (word : List Char) (g' : Grid) (w j : Nat) (i : Fin 26) (p : Point),
          catAteGrid.place_crossing_word word = .ok (true, g') → catAteGrid.firstFit word w j →
          catAteGrid.candidate word w j = some (i, p) →
          ∀ k : Nat, k < word.length → k ≠ w →
            catAteGrid.inside (runCell p w k) ∧ catAteGrid.cell (runCell p w k) = Empty ∧
            catAteGrid.outsideOrEmpty (step p.dir (runCell p w k) (-1)) ∧
            catAteGrid.outsideOrEmpty (step p.dir (runCell p w k) 1)) ∧
      catAteGrid.place_crossing_word "EE".toList = .ok (true, catAteEeGrid) :=
  ⟨catAteGrid_reachable, by decide,
    border_rule 5 "CAT".toList catAteGrid _ _ catAteGrid_reachable (by decide), by decide⟩

/-! ## The word list: length filter (C14) and empty source (C15) -/

theorem WordList.read_eq (words acc : List (List Char)) :
    WordList.read words acc = acc ++ words.filter fun word =>
      decide (ShortestWord ≤ (word.length : Int) ∧ (word.length : Int) ≤ LongestWord) := by
  induction words generalizing acc with
  | nil => simp [WordList.read]
  | cons word rest ih =>
    unfold WordList.read
    by_cases h : ShortestWord ≤ (word.length : Int) ∧ (word.length : Int) ≤ LongestWord
    · rw [if_pos (by simpa [ge_iff_le] using h), ih, List.filter_cons_of_pos (by simpa using h)]
      simp
    · rw [if_neg (by simpa [ge_iff_le] using h), ih, List.filter_cons_of_neg (by simpa using h)]

theorem WordList.rnd_word_mem (wl : WordList) (r : Int) (word : List Char)
    (h : wl.rnd_word r = .ok word) : word ∈ wl.m_words := by
  unfold WordList.rnd_word at h
  split at h
  · rename_i hr
    have hlt : r.toNat < wl.m_words.length := by omega
    have := Except.ok.inj h
    rw [← this, List.getD_eq_getElem _ _ hlt]
    exact List.getElem_mem _
  · cases h

/-- C14. Length filtering.  The constructor of `WordList`, given a file that can be
opened, returns normally, and `m_words` is the sequence of the words read whose
length `n` satisfies `ShortestWord <= n <= LongestWord` (3 and 8, both
inclusive), in the order in which they were read.  Whatever value the
distribution yields, a word returned by `rnd_word` is an element of `m_words`;
and when `m_words` is not empty the distribution is set to the range
`0 .. m_words.size() - 1`, on which `rnd_word` does return a word. -/
theorem wordlist_filter (words : List (List Char)) :
    ∃ wl, WordList.new (some words) = .ok wl ∧
      wl.m_words = words.filter (fun word =>
        decide (ShortestWord ≤ (word.length : Int) ∧ (word.length : Int) ≤ LongestWord)) ∧
      (∀ word, word ∈ wl.m_words ↔ word ∈ words ∧ 3 ≤ word.length ∧ word.length ≤ 8) ∧
      wl.m_words.Sublist words ∧
      (∀ r word, wl.rnd_word r = .ok word → word ∈ wl.m_words) ∧
      (wl.m_words ≠ [] → wl.m_words.length < 2 ^ 31 →
        wl.m_dist = (0, (wl.m_words.length : Int) - 1) ∧
        ∀ r, wl.m_dist.1 ≤ r → r ≤ wl.m_dist.2 → ∃ word ∈ wl.m_words, wl.rnd_word r = .ok word) := by
  refine ⟨_, rfl, ?_, ?_, ?_, fun r word h => WordList.rnd_word_mem _ r word h, ?_⟩
  · simp only [WordList.read_eq, List.nil_append]
  · intro word
    simp only [WordList.read_eq, List.nil_append, List.mem_filter, decide_eq_true_eq,
      ShortestWord, LongestWord]
    constructor
    · rintro ⟨h1, h2, h3⟩
      exact ⟨h1, by omega, by omega⟩
    · rintro ⟨h1, h2, h3⟩
      exact ⟨h1, by omega, by omega⟩
  · simp only [WordList.read_eq, List.nil_append]
    exact List.filter_sublist _
  · intro hne hlen
    simp only at hne hlen ⊢
    have hpos : 0 < (WordList.read words []).length := List.length_pos.mpr hne
    have hd : toInt32 ((((WordList.read words []).length : Int) - 1) % 2 ^ 64) =
        ((WordList.read words []).length : Int) - 1 := by
      unfold toInt32
      omega
    rw [hd]
    refine ⟨rfl, fun r h1 h2 => ?_⟩
    have hr : 0 ≤ r ∧ r < ((WordList.read words []).length : Int) := ⟨h1, by omega⟩
    have hlt : r.toNat < (WordList.read words []).length := by omega
    refine ⟨(WordList.read words []).get ⟨r.toNat, hlt⟩, List.get_mem _ _ _, ?_⟩
    unfold WordList.rnd_word
    simp only
    rw [if_pos hr, List.getD_eq_getElem _ _ hlt]
    rfl

/-- C14 on a concrete file: of the six words read, TO (2 letters) and
CROSSWORD (9 letters) are dropped, CAT (3) and ELEPHANT (8) are kept, the order
is that of the file. -/
theorem wordlist_filter_witness :
    WordList.new (some ["TO".toList, "CAT".toList, "CROSSWORD".toList, "ELEPHANT".toList,
        "ATE".toList, "A".toList]) =
      .ok { m_words := ["CAT".toList, "ELEPHANT".toList, "ATE".toList], m_dist := (0, 2) } ∧
    WordList.rnd_word ⟨["CAT".toList, "ELEPHANT".toList, "ATE".toList], (0, 2)⟩ 2 =
      .ok "ATE".toList ∧
    ∃ wl, WordList.new (some ["TO".toList, "CAT".toList]) = .ok wl ∧
      wl.m_words = ["TO".toList, "CAT".toList].filter (fun word =>
        decide (ShortestWord ≤ (word.length : Int) ∧ (word.length : Int) ≤ LongestWord)) :=
  ⟨by decide, by decide,
    (wordlist_filter ["TO".toList, "CAT".toList]).imp fun _ h => ⟨h.1, h.2.1⟩⟩

/-- C15 (what the code does).  When no word read has a length within
`ShortestWord .. LongestWord`, the constructor of `WordList` still returns
normally: `m_words` is empty and the distribution is set to the range `0 .. -1`,
`m_words.size() - 1` having wrapped around.  No exception is raised; every later
call of `rnd_word` reads outside the empty vector. -/
theorem wordlist_empty (words : List (List Char))
    (h : ∀ word ∈ words, ¬ (ShortestWord ≤ (word.length : Int) ∧
      (word.length : Int) ≤ LongestWord)) :
    WordList.new (some words) = .ok { m_words := [], m_dist := (0, -1) } ∧
    ∀ r, WordList.rnd_word { m_words := [], m_dist := (0, -1) } r = .error .outOfRange := by
  have hnil : WordList.read words [] = [] := by
    rw [WordList.read_eq, List.nil_append, List.filter_eq_nil_iff]
    intro word hw
    simpa using h word hw
  constructor
  · unfold WordList.new
    simp only [hnil]
    rfl
  · intro r
    unfold WordList.rnd_word
    rw [if_neg]
    simp only [List.length_nil, Nat.cast_zero]
    omega

/-- C15 on a concrete file: the words TO and CROSSWORD are both outside the
bounds, the constructor returns an empty list and sampling it fails. -/
theorem wordlist_empty_witness :
    (∀ word ∈ ["TO".toList, "CROSSWORD".toList],
      ¬ (ShortestWord ≤ (word.length : Int) ∧ (word.length : Int) ≤ LongestWord)) ∧
    (WordList.new (some ["TO".toList, "CROSSWORD".toList]) =
        .ok { m_words := [], m_dist := (0, -1) } ∧
      ∀ r, WordList.rnd_word { m_words := [], m_dist := (0, -1) } r = .error .outOfRange) ∧
    WordList.new none = .error .cannotOpen :=
  ⟨by decide, wordlist_empty ["TO".toList, "CROSSWORD".toList] (by decide), by decide⟩

/-! ## Bounds of the cells read and written (C19) -/

namespace Grid

theorem add_word_loop_via_set (cross_pnt pnt : Point) (cs : List Char) (pos : Int) (g : Grid) :
    add_word_loop_via Grid.set cross_pnt pnt cs pos g = add_word_loop cross_pnt pnt cs pos g := by
  induction cs generalizing pnt pos g with
  | nil => rfl
  | cons ch rest ih =>
    simp only [add_word_loop_via, add_word_loop, ih]

theorem add_word_via_set (g : Grid) (word : List Char) (w : Int) (p : Point) :
    add_word_via Grid.set g word w p = g.add_word word w p := by
  unfold add_word_via add_word
  simp only [add_word_loop_via_set]

theorem place_initial_word_via_set (g : Grid) (d : Dir) (word : List Char) :
    place_initial_word_via Grid.set g d word = g.place_initial_word d word := by
  unfold place_initial_word_via place_initial_word
  simp only [add_word_via_set]

/-- When every point the loop of `add_word` assigns to lies inside the grid, the
checked assignments behave as the plain ones. -/
theorem add_word_loop_via_setIn (cross_pnt pnt : Point) (cs : List Char) (pos : Int) (g : Grid)
    (hin : ∀ k : Nat, k < cs.length → g.inside (pnt.setColrow (pos + k)).coord) :
    add_word_loop_via Grid.setIn cross_pnt pnt cs pos g =
      add_word_loop cross_pnt pnt cs pos g := by
  induction cs generalizing pnt pos g with
  | nil => rfl
  | cons ch rest ih =>
    have h0 := hin 0 (by simp)
    simp only [Nat.cast_zero, add_zero] at h0
    have hrest : ∀ g2 : Grid, g2.m_size = g.m_size →
        add_word_loop_via Grid.setIn cross_pnt (pnt.setColrow pos) rest (pos + 1) g2 =
          add_word_loop cross_pnt (pnt.setColrow pos) rest (pos + 1) g2 := by
      intro g2 e
      apply ih
      intro k hk
      have := hin (k + 1) (by simpa using hk)
      rw [show pos + ((k + 1 : Nat) : Int) = pos + 1 + k by push_cast; ring] at this
      simpa [inside, e] using this
    simp only [add_word_loop_via, add_word_loop]
    rcases hi : Letters.index ch with e | i
    · rfl
    · simp only
      have hset : ∀ g1 : Grid, g1.m_size = g.m_size →
          (match g1.setIn (pnt.setColrow pos) ch with
            | .error e => (Except.error e : Except Fault Grid)
            | .ok g2 =>
              add_word_loop_via Grid.setIn cross_pnt (pnt.setColrow pos) rest (pos + 1) g2) =
          (match g1.set (pnt.setColrow pos) ch with
            | .error e => (Except.error e : Except Fault Grid)
            | .ok g2 => add_word_loop cross_pnt (pnt.setColrow pos) rest (pos + 1) g2) := by
        intro g1 e1
        have hin1 : g1.inside (pnt.setColrow pos).coord := by
          simpa [inside, e1] using h0
        unfold setIn
        rw [if_pos hin1]
        rcases hs : g1.set (pnt.setColrow pos) ch with e | g2
        · rfl
        · obtain ⟨-, e2⟩ := (set_ok_iff _ _ _ _).mp hs
          exact hrest g2 (by rw [e2]; exact e1)
      by_cases hd : (pnt.setColrow pos).differs cross_pnt = true
      · simp only [hd, if_true]
        exact hset _ rfl
      · simp only [hd, if_false, Bool.false_eq_true]
        exact hset _ rfl

/-- The loop of `add_word` on points that lie inside the buffer can only fail with
the exception of `Letters::operator[]`. -/
theorem add_word_loop_fault (cross_pnt pnt : Point) (cs : List Char) (pos : Int) (g : Grid)
    (hbuf : ∀ k : Nat, k < cs.length → g.inBuffer (g.offAt pnt (pos + k))) :
    add_word_loop cross_pnt pnt cs pos g ≠ .error .outOfRange := by
  induction cs generalizing pnt pos g with
  | nil =>
    intro h
    cases h
  | cons ch rest ih =>
    have hb := hbuf 0 (by simp)
    simp only [Nat.cast_zero, add_zero, offAt] at hb
    have hrest : ∀ g2 : Grid, g2.m_size = g.m_size → g2.m_grid.length = g.m_grid.length →
        add_word_loop cross_pnt (pnt.setColrow pos) rest (pos + 1) g2 ≠ .error .outOfRange := by
      intro g2 e1 e2
      apply ih
      intro k hk
      have := hbuf (k + 1) (by simpa using hk)
      rw [show pos + ((k + 1 : Nat) : Int) = pos + 1 + k by push_cast; ring] at this
      simpa [inBuffer, offAt, offset, e1, e2] using this
    simp only [add_word_loop]
    rcases hi : Letters.index ch with e | i
    · have := index_error ch e hi
      subst this
      intro h
      cases h
    · simp only
      by_cases hd : (pnt.setColrow pos).differs cross_pnt = true
      · rw [if_pos hd]
        have hs : (g.push i (pnt.setColrow pos)).set (pnt.setColrow pos) ch =
            .ok { g.push i (pnt.setColrow pos) with
              m_grid := g.m_grid.set
                (g.offset (pnt.setColrow pos).row (pnt.setColrow pos).col).toNat ch } :=
          (set_ok_iff _ _ _ _).mpr ⟨hb, rfl⟩
        rw [hs]
        exact hrest _ rfl (by simp [push])
      · rw [if_neg hd]
        have hs : g.set (pnt.setColrow pos) ch =
            .ok { g with
              m_grid := g.m_grid.set
                (g.offset (pnt.setColrow pos).row (pnt.setColrow pos).col).toNat ch } :=
          (set_ok_iff _ _ _ _).mpr ⟨hb, rfl⟩
        rw [hs]
        exact hrest _ rfl (by simp)

/-- `add_word` on a run that starts at a non-negative position and lies inside the
grid: the checked assignments behave as the plain ones and no access leaves the
buffer. -/
theorem add_word_inside (g : Grid) (word : List Char) (w : Int) (p : Point) (hs : g.sized)
    (hstart : 0 ≤ p.flip.colrow - w)
    (hin : ∀ k : Nat, k < word.length → g.inside (runCell p w k)) :
    add_word_via Grid.setIn g word w p = g.add_word word w p ∧
      g.add_word word w p ≠ .error .outOfRange := by
  have e1 : add_word_via Grid.setIn g word w p =
      add_word_loop_via Grid.setIn p p.flip word (p.flip.colrow - w) g := by
    unfold add_word_via
    simp only [Point.flip] at hstart ⊢
    rw [if_pos hstart]
    cases word with
    | nil => rfl
    | cons ch rest => simp only [add_word_loop_via, Point.setColrow_setColrow]
  rw [e1, add_word_eq_loop _ _ _ _ hstart]
  constructor
  · apply add_word_loop_via_setIn
    intro k hk
    rw [flip_setColrow]
    exact hin k hk
  · apply add_word_loop_fault
    intro k hk
    rw [offAt_flip]
    exact g.inside_inBuffer hs _ (hin k hk)

end Grid

/-- The seed placement on the empty grid, for a seed word not longer than the grid
size: the checked assignments behave as the plain ones and no access leaves the
buffer. -/
theorem seed_inside (size : Int) (d : Dir) (seed : List Char) (i0 : Fin 26)
    (hfit : (seed.length : Int) ≤ size) :
    Grid.add_word_via Grid.setIn ((Grid.new size).push i0 ⟨0, 0, d⟩) seed 0 ⟨0, 0, d⟩ =
        ((Grid.new size).push i0 ⟨0, 0, d⟩).add_word seed 0 ⟨0, 0, d⟩ ∧
      ((Grid.new size).push i0 ⟨0, 0, d⟩).add_word seed 0 ⟨0, 0, d⟩ ≠ .error .outOfRange := by
  apply Grid.add_word_inside
  · unfold Grid.sized Grid.push Grid.new
    have : 0 ≤ size * size := mul_self_nonneg size
    simp only [List.length_replicate]
    omega
  · simp only [Point.flip, Point.colrow]
    split <;> simp
  · intro k hk
    rw [runCell_anchor]
    unfold Grid.inside step Grid.push Grid.new
    cases d <;> simp [Dir.not] <;> omega

/-- C19. Bounds safety of the placement engine.  On a grid of size `N` whose buffer
holds `N * N` cells, for a candidate whose coordinate lies inside the grid:
`can_place` returns, and it returns the same value when every read made by
`empty` is checked to have its row and column in `[0, N)`, so no read leaves the
grid; when `can_place` returns `true`, the cells of the run lie inside the grid and
`add_word`, called as `place_crossing_word` does after erasing the entry, behaves
the same when every assignment to the grid is checked in this way, and it does
not leave the buffer.  The same holds for `place_initial_word` on the empty grid
when the seed word is not longer than `N`. -/
theorem bounds_safety (g : Grid) (word : List Char) (w : Int) (p : Point) (i : Fin 26) (j : Nat)
    (hs : g.sized) (hp : g.inside p.coord) :
    (∃ b, g.can_place word w p = .ok b ∧ g.can_place_via g.emptyIn word w p = .ok b ∧
      g.can_place_via g.empty word w p = .ok b) ∧
    (g.can_place word w p = .ok true →
      (∀ k : Nat, k < word.length → g.inside (runCell p w k)) ∧
      Grid.add_word_via Grid.setIn (g.erase i j) word w p = (g.erase i j).add_word word w p ∧
      Grid.add_word_via Grid.set (g.erase i j) word w p = (g.erase i j).add_word word w p ∧
      (g.erase i j).add_word word w p ≠ .error .outOfRange) ∧
    ∀ (size : Int) (d : Dir) (seed : List Char), (seed.length : Int) ≤ size →
      Grid.place_initial_word_via Grid.setIn (Grid.new size) d seed =
        (Grid.new size).place_initial_word d seed ∧
      Grid.place_initial_word_via Grid.set (Grid.new size) d seed =
        (Grid.new size).place_initial_word d seed ∧
      (Grid.new size).place_initial_word d seed ≠ .error .outOfRange := by
  refine ⟨?_, fun hc => ?_, fun size d seed hfit => ?_⟩
  · obtain ⟨b, hb⟩ := g.can_place_returns word w p hs hp
    refine ⟨b, hb, ?_, ?_⟩
    · rw [g.can_place_via_agree g.emptyIn g.empty word w p, Grid.can_place_via_empty, hb]
      intro r c hrc _
      unfold Grid.emptyIn
      rw [if_pos (hrc hp)]
    · rw [Grid.can_place_via_empty, hb]
  · have hpass := (g.can_place_true_iff word w p).mp hc
    have hin : ∀ k : Nat, k < word.length → g.inside (runCell p w k) :=
      fun k hk => g.passes_run_inside _ _ _ hpass hp k hk
    have hse : (g.erase i j).sized := hs
    obtain ⟨a1, a2⟩ := Grid.add_word_inside (g.erase i j) word w p hse
      (g.passes_start _ _ _ hpass) hin
    exact ⟨hin, a1, Grid.add_word_via_set _ _ _ _, a2⟩
  · refine ⟨?_, Grid.place_initial_word_via_set _ _ _, ?_⟩
    · unfold Grid.place_initial_word_via Grid.place_initial_word
      rcases hi : Letters.index (seed.headD (Char.ofNat 0)) with e | i0
      · rfl
      · exact (seed_inside size d seed i0 hfit).1
    · unfold Grid.place_initial_word
      rcases hi : Letters.index (seed.headD (Char.ofNat 0)) with e | i0
      · have := index_error _ e hi
        subst this
        intro h
        cases h
      · exact (seed_inside size d seed i0 hfit).2

/-- C19 at the scenario: ATE through the A of CAT on the 5 x 5 grid, and the seed CAT
itself. -/
theorem bounds_safety_witness :
    catGrid.sized ∧ catGrid.inside (Point.mk 0 1 .Horz).coord ∧
      ((∃ b, catGrid.can_place "ATE".toList 0 ⟨0, 1, .Horz⟩ = .ok b ∧
          catGrid.can_place_via catGrid.emptyIn "ATE".toList 0 ⟨0, 1, .Horz⟩ = .ok b ∧
          catGrid.can_place_via catGrid.empty "ATE".toList 0 ⟨0, 1, .Horz⟩ = .ok b) ∧
        (catGrid.can_place "ATE".toList 0 ⟨0, 1, .Horz⟩ = .ok true →
          (∀ k : Nat, k < "ATE".toList.length → catGrid.inside (runCell ⟨0, 1, .Horz⟩ 0 k)) ∧
          Grid.add_word_via Grid.setIn (catGrid.erase 0 0) "ATE".toList 0 ⟨0, 1, .Horz⟩ =
            (catGrid.erase 0 0).add_word "ATE".toList 0 ⟨0, 1, .Horz⟩ ∧
          Grid.add_word_via Grid.set (catGrid.erase 0 0) "ATE".toList 0 ⟨0, 1, .Horz⟩ =
            (catGrid.erase 0 0).add_word "ATE".toList 0 ⟨0, 1, .Horz⟩ ∧
          (catGrid.erase 0 0).add_word "ATE".toList 0 ⟨0, 1, .Horz⟩ ≠ .error .outOfRange) ∧
        ∀ (size : Int) (d : Dir) (seed : List Char), (seed.length : Int) ≤ size →
          Grid.place_initial_word_via Grid.setIn (Grid.new size) d seed =
            (Grid.new size).place_initial_word d seed ∧
          Grid.place_initial_word_via Grid.set (Grid.new size) d seed =
            (Grid.new size).place_initial_word d seed ∧
          (Grid.new size).place_initial_word d seed ≠ .error .outOfRange) ∧
      catGrid.can_place_via catGrid.emptyIn "ATE".toList 0 ⟨0, 1, .Horz⟩ = .ok true ∧
      Grid.add_word_via Grid.setIn (catGrid.erase 0 0) "ATE".toList 0 ⟨0, 1, .Horz⟩ =
        .ok catAteGrid ∧
      Grid.place_initial_word_via Grid.setIn (Grid.new 5) .Vert "CAT".toList = .ok catGrid ∧
      Grid.place_initial_word_via Grid.setIn (Grid.new 3) .Vert "CATS".toList =
        .error .outOfRange ∧
      (Grid.new 3).place_initial_word .Vert "CATS".toList = .ok catsGrid :=
  ⟨by decide, by decide,
    bounds_safety catGrid "ATE".toList 0 ⟨0, 1, .Horz⟩ 0 0 (by decide) (by decide),
    by decide, by decide, by decide, by decide, by decide⟩

/-! ## The weight of a position (C20) -/

namespace Cwg

theorem get_eq_cell (g : Cwg) (W H : Nat) (hrect : g.rect W H) (x y : Int)
    (hx : 0 ≤ x) (hx2 : x < W) (hy : 0 ≤ y) (hy2 : y < H) : g.get y x = .ok (g.cell x y) := by
  obtain ⟨h1, h2⟩ := hrect
  have hlt : y.toNat < g.m_grid.length := by omega
  have hrow : (g.m_grid.getD y.toNat []).length = W := by
    rw [List.getD_eq_getElem _ _ hlt]
    exact h2 _ (List.getElem_mem _)
  unfold get cell
  rw [if_pos ⟨hy, by omega⟩, if_pos ⟨hx, by omega⟩, if_pos ⟨hx, hy⟩]

theorem notBlank_eq (g : Cwg) (W H : Nat) (hrect : g.rect W H) (x y : Int)
    (hx : 0 ≤ x) (hx2 : x < W) (hy : 0 ≤ y) (hy2 : y < H) :
    g.notBlank y x = .ok (decide (g.cell x y ≠ '.')) := by
  unfold notBlank
  rw [g.get_eq_cell W H hrect x y hx hx2 hy hy2]
  by_cases h : g.cell x y = '.' <;> simp [h]

theorem orElse_decide (P : Prop) [Decidable P] (b : Except Fault Bool) (Q : Prop) [Decidable Q]
    (hb : b = .ok (decide Q)) :
    Grid.orElse (.ok (decide P)) b = .ok (decide (P ∨ Q)) := by
  subst hb
  by_cases hP : P <;> simp [hP, Grid.orElse]

theorem exists_lt_succ (P : Nat → Prop) (n : Nat) :
    (∃ p, p < n + 1 ∧ P p) ↔ P 0 ∨ ∃ p, p < n ∧ P (p + 1) := by
  constructor
  · rintro ⟨p, hp, h⟩
    cases p with
    | zero => exact Or.inl h
    | succ q => exact Or.inr ⟨q, by omega, h⟩
  · rintro (h | ⟨q, hq, h⟩)
    · exact ⟨0, by omega, h⟩
    · exact ⟨q + 1, by omega, h⟩

theorem countP_range_succ (P : Nat → Bool) (n : Nat) :
    (List.range (n + 1)).countP P = (if P 0 then 1 else 0) + (List.range n).countP (fun p => P (p + 1)) := by
  rw [List.range_succ_eq_map, List.countP_cons, List.countP_map]
  simp only [Function.comp_def, Nat.succ_eq_add_one]
  omega

/-- The loop of `doWeight` on a run whose cells and their neighbours lie inside the
grid. -/
theorem doWeight_loop_eq (g : Cwg) (W H : Nat) (hrect : g.rect W H) (dx dy : Int)
    (hdir : (dx = 1 ∧ dy = 0) ∨ (dx = 0 ∧ dy = 1)) :
    ∀ (cs : List Char) (x y wt : Int), '.' ∉ cs → 1 ≤ x → x + dx * (cs.length : Int) < W - 1 →
      1 ≤ y → y + dy * (cs.length : Int) < H - 1 →
      g.doWeight_loop dx dy cs x y wt =
        .ok (if ∃ p : Nat, p < cs.length ∧ g.clash dx dy (cs.getD p '.') (x + dx * p) (y + dy * p)
          then -1
          else wt + ((List.range cs.length).countP fun (p : Nat) =>
            decide (g.cell (x + dx * (p : Int)) (y + dy * (p : Int)) = cs.getD p '.') : Nat)) := by
  intro cs
  induction cs with
  | nil =>
    intro x y wt _ _ _ _ _
    simp [doWeight_loop]
  | cons ch rest ih =>
    intro x y wt hdot hx hx2 hy hy2
    have hch : ch ≠ '.' := fun e => hdot (by rw [e]; exact List.mem_cons_self _ _)
    have hrest : '.' ∉ rest := fun h => hdot (List.mem_cons_of_mem _ h)
    simp only [List.length_cons, Nat.cast_add, Nat.cast_one] at hx2 hy2
    have hd0 : 0 ≤ dx ∧ 0 ≤ dy ∧ dx ≤ 1 ∧ dy ≤ 1 := by omega
    have hL : (0 : Int) ≤ (rest.length : Int) := Int.natCast_nonneg _
    have hxa : x + dx ≤ x + dx * ((rest.length : Int) + 1) := by
      rcases hdir with ⟨rfl, rfl⟩ | ⟨rfl, rfl⟩ <;> simp
    have hya : y + dy ≤ y + dy * ((rest.length : Int) + 1) := by
      rcases hdir with ⟨rfl, rfl⟩ | ⟨rfl, rfl⟩ <;> simp
    have hxe : x + dx + dx * (rest.length : Int) = x + dx * ((rest.length : Int) + 1) := by ring
    have hye : y + dy + dy * (rest.length : Int) = y + dy * ((rest.length : Int) + 1) := by ring
    have hih := fun wt' => ih (x + dx) (y + dy) wt' hrest (by omega) (by omega) (by omega) (by omega)
    have hshift : ∀ p : Nat, x + dx * ((p + 1 : Nat) : Int) = x + dx + dx * (p : Int) ∧
        y + dy * ((p + 1 : Nat) : Int) = y + dy + dy * (p : Int) := fun p => by
      constructor <;> push_cast <;> ring
    have hex : (∃ p : Nat, p < (ch :: rest).length ∧
          g.clash dx dy ((ch :: rest).getD p '.') (x + dx * p) (y + dy * p)) ↔
        g.clash dx dy ch x y ∨ ∃ p : Nat, p < rest.length ∧
          g.clash dx dy (rest.getD p '.') (x + dx + dx * p) (y + dy + dy * p) := by
      rw [List.length_cons, exists_lt_succ]
      simp only [List.getD_cons_zero, Nat.cast_zero, mul_zero, add_zero, List.getD_cons_succ,
        (hshift _).1, (hshift _).2]
    have hcnt : ((List.range (ch :: rest).length).countP fun (p : Nat) =>
          decide (g.cell (x + dx * (p : Int)) (y + dy * (p : Int)) = (ch :: rest).getD p '.')) =
        (if g.cell x y = ch then 1 else 0) + ((List.range rest.length).countP fun (p : Nat) =>
          decide (g.cell (x + dx + dx * (p : Int)) (y + dy + dy * (p : Int)) =
            rest.getD p '.')) := by
      rw [List.length_cons, countP_range_succ]
      simp only [List.getD_cons_zero, Nat.cast_zero, mul_zero, add_zero, List.getD_cons_succ,
        (hshift _).1, (hshift _).2, decide_eq_true_eq]
    rw [hcnt]
    simp only [hex]
    unfold doWeight_loop
    rw [g.get_eq_cell W H hrect x y (by omega) (by omega) (by omega) (by omega)]
    simp only
    by_cases h1 : ch = g.cell x y
    · have hnc : ¬ g.clash dx dy ch x y := by
        unfold clash
        rw [← h1]
        simp [hch]
      rw [if_pos h1, hih, if_pos h1.symm]
      simp only [hnc, false_or]
      split
      · rfl
      · push_cast
        congr 1
        ring
    · rw [if_neg h1]
      have h1' : ¬ g.cell x y = ch := fun e => h1 e.symm
      by_cases h2 : g.cell x y ≠ '.'
      · have hc : g.clash dx dy ch x y := Or.inl ⟨h2, h1'⟩
        rw [if_pos h2]
        simp [hc]
      · rw [if_neg h2]
        have h2' : g.cell x y = '.' := not_not.mp h2
        have hn1 := g.notBlank_eq W H hrect x (y + dx) (by omega) (by omega) (by omega) (by omega)
        have hn2 := g.notBlank_eq W H hrect (x + dy) y (by omega) (by omega) (by omega) (by omega)
        have hn3 := g.notBlank_eq W H hrect x (y - dx) (by omega) (by omega) (by omega) (by omega)
        have hn4 := g.notBlank_eq W H hrect (x - dy) y (by omega) (by omega) (by omega) (by omega)
        rw [hn1, hn2, hn3, hn4,
          orElse_decide _ _ _ (orElse_decide _ _ _ (orElse_decide _ _ _ rfl))]
        have hiff : (g.cell x (y + dx) ≠ '.' ∨ g.cell (x + dy) y ≠ '.' ∨
            g.cell x (y - dx) ≠ '.' ∨ g.cell (x - dy) y ≠ '.') ↔ g.clash dx dy ch x y := by
          unfold clash
          rcases hdir with ⟨rfl, rfl⟩ | ⟨rfl, rfl⟩
          · simp [h2']
          · simp [h2']
        by_cases hc : g.clash dx dy ch x y
        · rw [decide_eq_true (hiff.mpr hc)]
          simp only
          rw [if_pos (Or.inl hc)]
        · rw [decide_eq_false (fun h => hc (hiff.mp h))]
          simp only
          rw [hih, if_neg h1']
          simp only [hc, false_or, zero_add]

end Cwg

/-- C20 as stated fails for a word that contains the blank character.  On a 7 x 5
grid holding only the letter C at column 1 of row 1, the position `(1, 2)` is
scanned for the word `.NET` along the row.  The word does not fit there: its
first cell is blank and the cell above it holds the C.  No cell of the run holds
a letter.  Yet `doWeight` returns the weight 1: the `'.'` of the word matches the
blank cell, which is counted and whose neighbours are not tested. -/
theorem doWeight_weight_counterexample :
    cCwg.rect 7 5 ∧ Cwg.scans 7 5 ".NET".toList.length 1 0 1 2 ∧
      cCwg.doWeight ".NET".toList 1 2 1 0 = .ok ⟨1, 2, 1⟩ ∧
      cCwg.unfit ".NET".toList 1 2 1 0 ∧
      cCwg.cell 1 2 = '.' ∧ cCwg.cell 1 1 = 'C' ∧
      (∀ p : Nat, p < ".NET".toList.length → cCwg.cell (1 + 1 * (p : Int)) (2 + 0 * (p : Int)) = '.') ∧
      cCwg.intersections ".NET".toList 1 2 1 0 = 1 :=
  ⟨by decide, by decide, by decide, by decide, by decide, by decide, by decide, by decide⟩

/-- C20, amended.  Weight semantics of `Cwg::doWeight`.  On a grid of `H` rows of
`W` cells, for a direction `(dx, dy)` among `(1, 0)` and `(0, 1)`, a start position `(x, y)`
scanned by `highestWeight` (`1 <= x < W - dx * L - 1`, `1 <= y < H - dy * L - 1`)
and a word without the blank character `'.'`: `doWeight` returns, the weight it
returns carries the start position, its `wt` is `-1` exactly when the word does
not fit there (the cell before the start or after the end is not blank, or a cell
of the run holds a letter different from the word's, or a blank cell of the run
has a non-blank perpendicular neighbour), and otherwise `wt` is the number of
positions of the run whose cell already holds the letter of the word. -/
theorem doWeight_weight (g : Cwg) (W H : Nat) (word : List Char) (x y dx dy : Int)
    (hrect : g.rect W H) (hdir : (dx = 1 ∧ dy = 0) ∨ (dx = 0 ∧ dy = 1))
    (hx : 1 ≤ x) (hx2 : x < (W : Int) - dx * (word.length : Int) - 1)
    (hy : 1 ≤ y) (hy2 : y < (H : Int) - dy * (word.length : Int) - 1)
    (hword : '.' ∉ word) :
    ∃ wt, g.doWeight word x y dx dy = .ok ⟨x, y, wt⟩ ∧
      (wt = -1 ↔ g.unfit word x y dx dy) ∧
      (¬ g.unfit word x y dx dy → wt = (g.intersections word x y dx dy : Int)) := by
  have hL : (0 : Int) ≤ (word.length : Int) := Int.natCast_nonneg _
  have hd0 : 0 ≤ dx ∧ 0 ≤ dy ∧ dx ≤ 1 ∧ dy ≤ 1 := by omega
  have hxa : x ≤ x + dx * (word.length : Int) := by
    rcases hdir with ⟨rfl, rfl⟩ | ⟨rfl, rfl⟩ <;> simp
  have hya : y ≤ y + dy * (word.length : Int) := by
    rcases hdir with ⟨rfl, rfl⟩ | ⟨rfl, rfl⟩ <;> simp
  have hb := g.notBlank_eq W H hrect (x - dx) (y - dy) (by omega) (by omega) (by omega) (by omega)
  have ha := g.notBlank_eq W H hrect (x + dx * (word.length : Int)) (y + dy * (word.length : Int))
    (by omega) (by omega) (by omega) (by omega)
  have hloop := g.doWeight_loop_eq W H hrect dx dy hdir word x y 0 hword hx (by omega) hy
    (by omega)
  unfold Cwg.doWeight
  rw [hb, Cwg.orElse_decide _ _ _ ha]
  by_cases hends : g.cell (x - dx) (y - dy) ≠ '.' ∨
      g.cell (x + dx * (word.length : Int)) (y + dy * (word.length : Int)) ≠ '.'
  · rw [decide_eq_true hends]
    have hu : g.unfit word x y dx dy := by
      unfold Cwg.unfit
      rcases hends with h | h
      · exact Or.inl h
      · exact Or.inr (Or.inl h)
    exact ⟨-1, rfl, ⟨fun _ => hu, fun _ => rfl⟩, fun h => absurd hu h⟩
  · rw [decide_eq_false hends, hloop]
    simp only
    have hiff : g.unfit word x y dx dy ↔ ∃ p : Nat, p < word.length ∧
        g.clash dx dy (word.getD p '.') (x + dx * p) (y + dy * p) := by
      unfold Cwg.unfit
      constructor
      · rintro (h | h | h)
        · exact absurd (Or.inl h) hends
        · exact absurd (Or.inr h) hends
        · exact h
      · exact fun h => Or.inr (Or.inr h)
    refine ⟨_, rfl, ?_, ?_⟩
    · rw [hiff]
      constructor
      · intro h
        by_contra hne
        rw [if_neg hne] at h
        have : (0 : Int) ≤ ((List.range word.length).countP fun (p : Nat) =>
          decide (g.cell (x + dx * (p : Int)) (y + dy * (p : Int)) = word.getD p '.') : Nat) :=
          Int.natCast_nonneg _
        omega
      · intro h
        rw [if_pos h]
    · intro hnu
      rw [if_neg (fun h => hnu (hiff.mpr h)), zero_add]
      rfl

/-- C20 on a 7 x 5 grid holding CAT in row 1 and TEA going down from its T: EAR along
row 3 through the A gets weight 1; TEA along row 2 through the E is refused, its
first cell lying under the A of CAT; ON along row 3 left of the A is refused, the
cell after its end holding the A; and ON on the empty grid gets weight 0. -/
theorem doWeight_weight_witness :
    catTeaCwg.rect 7 5 ∧ (((1 : Int) = 1 ∧ (0 : Int) = 0) ∨ ((1 : Int) = 0 ∧ (0 : Int) = 1)) ∧
      (1 : Int) ≤ 2 ∧ (2 : Int) < ((7 : Nat) : Int) - 1 * ("EAR".toList.length : Int) - 1 ∧
      (1 : Int) ≤ 3 ∧ (3 : Int) < ((5 : Nat) : Int) - 0 * ("EAR".toList.length : Int) - 1 ∧
      '.' ∉ "EAR".toList ∧
      (∃ wt, catTeaCwg.doWeight "EAR".toList 2 3 1 0 = .ok ⟨2, 3, wt⟩ ∧
        (wt = -1 ↔ catTeaCwg.unfit "EAR".toList 2 3 1 0) ∧
        (¬ catTeaCwg.unfit "EAR".toList 2 3 1 0 →
          wt = (catTeaCwg.intersections "EAR".toList 2 3 1 0 : Int))) ∧
      catTeaCwg.doWeight "EAR".toList 2 3 1 0 = .ok ⟨2, 3, 1⟩ ∧
      ¬ catTeaCwg.unfit "EAR".toList 2 3 1 0 ∧
      catTeaCwg.doWeight "TEA".toList 2 2 1 0 = .ok ⟨2, 2, -1⟩ ∧
      catTeaCwg.unfit "TEA".toList 2 2 1 0 ∧
      catTeaCwg.doWeight "ON".toList 1 3 1 0 = .ok ⟨1, 3, -1⟩ ∧
      (Cwg.new 7 5).doWeight "ON".toList 1 3 1 0 = .ok ⟨1, 3, 0⟩ ∧
      ¬ (Cwg.new 7 5).unfit "ON".toList 1 3 1 0 :=
  ⟨by decide, by decide, by decide, by decide, by decide, by decide, by decide,
    doWeight_weight catTeaCwg 7 5 "EAR".toList 2 3 1 0 (by decide) (by decide) (by decide)
      (by decide) (by decide) (by decide) (by decide),
    by decide, by decide, by decide, by decide, by decide, by decide, by decide⟩

/-! ## The scan of `highestWeight` and the placement of `emplaceWord` (C21, C22) -/

namespace Cwg

/-- The loop of `doWeight` on a run whose cells and their neighbours lie inside the
grid returns, whatever the word. -/
theorem doWeight_loop_returns (g : Cwg) (W H : Nat) (hrect : g.rect W H) (dx dy : Int)
    (hdir : (dx = 1 ∧ dy = 0) ∨ (dx = 0 ∧ dy = 1)) :
    ∀ (cs : List Char) (x y wt : Int), 1 ≤ x → x + dx * (cs.length : Int) < W - 1 →
      1 ≤ y → y + dy * (cs.length : Int) < H - 1 → 0 ≤ wt →
      ∃ r, g.doWeight_loop dx dy cs x y wt = .ok r ∧ (r = -1 ∨ wt ≤ r) := by
  intro cs
  induction cs with
  | nil =>
    intro x y wt _ _ _ _ _
    exact ⟨wt, rfl, Or.inr (le_refl _)⟩
  | cons ch rest ih =>
    intro x y wt hx hx2 hy hy2 hwt
    simp only [List.length_cons, Nat.cast_add, Nat.cast_one] at hx2 hy2
    have hd0 : 0 ≤ dx ∧ 0 ≤ dy ∧ dx ≤ 1 ∧ dy ≤ 1 := by omega
    have hL : (0 : Int) ≤ (rest.length : Int) := Int.natCast_nonneg _
    have hxa : x + dx ≤ x + dx * ((rest.length : Int) + 1) := by
      rcases hdir with ⟨rfl, rfl⟩ | ⟨rfl, rfl⟩ <;> simp
    have hya : y + dy ≤ y + dy * ((rest.length : Int) + 1) := by
      rcases hdir with ⟨rfl, rfl⟩ | ⟨rfl, rfl⟩ <;> simp
    have hxe : x + dx + dx * (rest.length : Int) = x + dx * ((rest.length : Int) + 1) := by ring
    have hye : y + dy + dy * (rest.length : Int) = y + dy * ((rest.length : Int) + 1) := by ring
    have hih := fun wt' hwt' =>
      ih (x + dx) (y + dy) wt' (by omega) (by omega) (by omega) (by omega) hwt'
    unfold doWeight_loop
    rw [g.get_eq_cell W H hrect x y (by omega) (by omega) (by omega) (by omega)]
    simp only
    by_cases h1 : ch = g.cell x y
    · rw [if_pos h1]
      obtain ⟨r, hr, hr2⟩ := hih (wt + 1) (by omega)
      exact ⟨r, hr, by omega⟩
    · rw [if_neg h1]
      by_cases h2 : g.cell x y ≠ '.'
      · rw [if_pos h2]
        exact ⟨-1, rfl, Or.inl rfl⟩
      · rw [if_neg h2]
        have hn1 := g.notBlank_eq W H hrect x (y + dx) (by omega) (by omega) (by omega) (by omega)
        have hn2 := g.notBlank_eq W H hrect (x + dy) y (by omega) (by omega) (by omega) (by omega)
        have hn3 := g.notBlank_eq W H hrect x (y - dx) (by omega) (by omega) (by omega) (by omega)
        have hn4 := g.notBlank_eq W H hrect (x - dy) y (by omega) (by omega) (by omega) (by omega)
        rw [hn1, hn2, hn3, hn4,
          orElse_decide _ _ _ (orElse_decide _ _ _ (orElse_decide _ _ _ rfl))]
        by_cases hc : g.cell x (y + dx) ≠ '.' ∨ g.cell (x + dy) y ≠ '.' ∨
            g.cell x (y - dx) ≠ '.' ∨ g.cell (x - dy) y ≠ '.'
        · rw [decide_eq_true hc]
          exact ⟨-1, rfl, Or.inl rfl⟩
        · rw [decide_eq_false hc]
          exact hih wt hwt

/-- On a scanned position `doWeight` returns a weight that carries the position and
is `-1` or more. -/
theorem doWeight_returns (g : Cwg) (W H : Nat) (word : List Char) (x y dx dy : Int)
    (hrect : g.rect W H) (hdir : (dx = 1 ∧ dy = 0) ∨ (dx = 0 ∧ dy = 1))
    (hs : scans W H word.length dx dy x y) :
    g.doWeight word x y dx dy = .ok ⟨x, y, g.weightAt word dx dy x y⟩ ∧
      -1 ≤ g.weightAt word dx dy x y := by
  obtain ⟨hx, hx2, hy, hy2⟩ := hs
  have hL : (0 : Int) ≤ (word.length : Int) := Int.natCast_nonneg _
  have hd0 : 0 ≤ dx ∧ 0 ≤ dy ∧ dx ≤ 1 ∧ dy ≤ 1 := by omega
  have hxa : x ≤ x + dx * (word.length : Int) := by
    rcases hdir with ⟨rfl, rfl⟩ | ⟨rfl, rfl⟩ <;> simp
  have hya : y ≤ y + dy * (word.length : Int) := by
    rcases hdir with ⟨rfl, rfl⟩ | ⟨rfl, rfl⟩ <;> simp
  have hb := g.notBlank_eq W H hrect (x - dx) (y - dy) (by omega) (by omega) (by omega) (by omega)
  have ha := g.notBlank_eq W H hrect (x + dx * (word.length : Int)) (y + dy * (word.length : Int))
    (by omega) (by omega) (by omega) (by omega)
  obtain ⟨r, hr, hr2⟩ := g.doWeight_loop_returns W H hrect dx dy hdir word x y 0 hx (by omega) hy
    (by omega) (le_refl _)
  have key : ∃ wt, g.doWeight word x y dx dy = .ok ⟨x, y, wt⟩ ∧ -1 ≤ wt := by
    unfold doWeight
    rw [hb, orElse_decide _ _ _ ha]
    by_cases hends : g.cell (x - dx) (y - dy) ≠ '.' ∨
        g.cell (x + dx * (word.length : Int)) (y + dy * (word.length : Int)) ≠ '.'
    · rw [decide_eq_true hends]
      exact ⟨-1, rfl, le_refl _⟩
    · rw [decide_eq_false hends, hr]
      exact ⟨r, rfl, by omega⟩
  obtain ⟨wt, hwt, hge⟩ := key
  have hw : g.weightAt word dx dy x y = wt := by
    unfold weightAt
    rw [hwt]
  rw [hw]
  exact ⟨hwt, hge⟩

theorem highestWeight_row_eq (g : Cwg) (word : List Char) (dx dy h : Int) (n : Nat) (w : Int)
    (weight : Weight) :
    g.highestWeight_row word dx dy h n w weight =
      scanBest (fun x y => g.doWeight word x y dx dy) (scanRow h n w) weight := by
  induction n generalizing w weight with
  | zero => rfl
  | succ n ih =>
    simp only [highestWeight_row, scanRow, scanBest]
    rcases g.doWeight word w h dx dy with e | t
    · rfl
    · exact ih _ _

end Cwg

theorem scanBest_append (D : Int → Int → Except Fault Weight) (ps qs : List (Int × Int))
    (weight : Weight) :
    scanBest D (ps ++ qs) weight =
      match scanBest D ps weight with
      | .error e => .error e
      | .ok weight2 => scanBest D qs weight2 := by
  induction ps generalizing weight with
  | nil => rfl
  | cons p rest ih =>
    simp only [List.cons_append, scanBest]
    rcases D p.1 p.2 with e | t
    · rfl
    · exact ih _

theorem Cwg.highestWeight_rows_eq (g : Cwg) (word : List Char) (dx dy : Int) (W : Int)
    (hW : g.width = .ok W) (m : Nat) (h : Int) (weight : Weight) :
    g.highestWeight_rows word dx dy m h weight =
      scanBest (fun x y => g.doWeight word x y dx dy)
        (scanRows (toSize (W - dx * (word.length : Int) - 1) - 1).toNat m h) weight := by
  induction m generalizing h weight with
  | zero => rfl
  | succ m ih =>
    simp only [Cwg.highestWeight_rows, scanRows, hW, scanBest_append, Cwg.highestWeight_row_eq]
    rcases scanBest (fun x y => g.doWeight word x y dx dy)
        (scanRow h (toSize (W - dx * (word.length : Int) - 1) - 1).toNat 1) weight with e | t
    · rfl
    · exact ih _ _

/-- What a scan returns when every position has a weight: the weight it started
from if no position has a greater one, and otherwise the first position whose
weight is the greatest. -/
theorem scanBest_first (D : Int → Int → Except Fault Weight) (f : Int → Int → Int)
    (ps : List (Int × Int)) (best : Weight)
    (hD : ∀ p ∈ ps, D p.1 p.2 = .ok ⟨p.1, p.2, f p.1 p.2⟩) :
    ∃ r, scanBest D ps best = .ok r ∧
      ((r = best ∧ ∀ q ∈ ps, f q.1 q.2 ≤ best.wt) ∨
        ∃ pre p post, ps = pre ++ p :: post ∧ r = ⟨p.1, p.2, f p.1 p.2⟩ ∧
          best.wt < f p.1 p.2 ∧ (∀ q ∈ pre, f q.1 q.2 < f p.1 p.2) ∧
          ∀ q ∈ post, f q.1 q.2 ≤ f p.1 p.2) := by
  induction ps generalizing best with
  | nil => exact ⟨best, rfl, Or.inl ⟨rfl, fun q hq => absurd hq (List.not_mem_nil q)⟩⟩
  | cons a rest ih =>
    have ha := hD a (List.mem_cons_self _ _)
    have hrest : ∀ p ∈ rest, D p.1 p.2 = .ok ⟨p.1, p.2, f p.1 p.2⟩ :=
      fun p hp => hD p (List.mem_cons_of_mem _ hp)
    simp only [scanBest, ha]
    by_cases hgt : f a.1 a.2 > best.wt
    · rw [if_pos hgt]
      obtain ⟨r, hr, hcase⟩ := ih ⟨a.1, a.2, f a.1 a.2⟩ hrest
      refine ⟨r, hr, Or.inr ?_⟩
      rcases hcase with ⟨h1, h2⟩ | ⟨pre, p, post, h1, h2, h3, h4, h5⟩
      · exact ⟨[], a, rest, rfl, h1, hgt, fun q hq => absurd hq (List.not_mem_nil q), h2⟩
      · refine ⟨a :: pre, p, post, by rw [h1]; rfl, h2, ?_, ?_, h5⟩
        · simp only at h3
          omega
        · intro q hq
          rcases List.mem_cons.mp hq with rfl | hq
          · exact h3
          · exact h4 q hq
    · rw [if_neg hgt]
      obtain ⟨r, hr, hcase⟩ := ih best hrest
      refine ⟨r, hr, ?_⟩
      rcases hcase with ⟨h1, h2⟩ | ⟨pre, p, post, h1, h2, h3, h4, h5⟩
      · left
        refine ⟨h1, fun q hq => ?_⟩
        rcases List.mem_cons.mp hq with rfl | hq
        · omega
        · exact h2 q hq
      · right
        refine ⟨a :: pre, p, post, by rw [h1]; rfl, h2, h3, ?_, h5⟩
        intro q hq
        rcases List.mem_cons.mp hq with rfl | hq
        · omega
        · exact h4 q hq

theorem mem_scanRow (h : Int) (n : Nat) (w : Int) (p : Int × Int) :
    p ∈ scanRow h n w ↔ p.2 = h ∧ w ≤ p.1 ∧ p.1 < w + n := by
  induction n generalizing w with
  | zero =>
    simp only [scanRow, List.not_mem_nil, Nat.cast_zero, add_zero, false_iff]
    omega
  | succ n ih =>
    obtain ⟨p1, p2⟩ := p
    simp only [scanRow, List.mem_cons, ih, Prod.mk.injEq, Nat.cast_add, Nat.cast_one]
    omega

theorem mem_scanRows (cols m : Nat) (h : Int) (p : Int × Int) :
    p ∈ scanRows cols m h ↔ (h ≤ p.2 ∧ p.2 < h + m) ∧ 1 ≤ p.1 ∧ p.1 < 1 + cols := by
  induction m generalizing h with
  | zero =>
    simp only [scanRows, List.not_mem_nil, Nat.cast_zero, add_zero, false_iff]
    omega
  | succ m ih =>
    simp only [scanRows, List.mem_append, mem_scanRow, ih, Nat.cast_add, Nat.cast_one]
    omega

theorem scanRow_sorted (h : Int) (n : Nat) (w : Int) :
    (scanRow h n w).Pairwise fun p q => p.2 < q.2 ∨ (p.2 = q.2 ∧ p.1 < q.1) := by
  induction n generalizing w with
  | zero => exact List.Pairwise.nil
  | succ n ih =>
    simp only [scanRow, List.pairwise_cons]
    refine ⟨fun q hq => ?_, ih _⟩
    have := (mem_scanRow h n (w + 1) q).mp hq
    omega

theorem scanRows_sorted (cols m : Nat) (h : Int) :
    (scanRows cols m h).Pairwise fun p q => p.2 < q.2 ∨ (p.2 = q.2 ∧ p.1 < q.1) := by
  induction m generalizing h with
  | zero => exact List.Pairwise.nil
  | succ m ih =>
    simp only [scanRows, List.pairwise_append]
    refine ⟨scanRow_sorted _ _ _, ih _, fun p hp q hq => ?_⟩
    have h1 := (mem_scanRow h cols 1 p).mp hp
    have h2 := (mem_scanRows cols m (h + 1) q).mp hq
    omega

namespace Cwg

theorem cell_getElem (g : Cwg) (x y : Int) :
    g.cell x y = if 0 ≤ x ∧ 0 ≤ y then ((g.m_grid[y.toNat]?).getD [])[x.toNat]?.getD '.' else '.' := by
  unfold cell
  simp only [List.getD_eq_getElem?_getD]

/-- The assignment `m_grid[y][x] = ch` inside a rectangular grid: it returns, keeps
the shape, puts `ch` on the cell and leaves the other cells as they were. -/
theorem set_spec (g : Cwg) (W H : Nat) (hrect : g.rect W H) (x y : Int) (ch : Char)
    (hx : 0 ≤ x) (hx2 : x < W) (hy : 0 ≤ y) (hy2 : y < H) :
    ∃ g2, g.set y x ch = .ok g2 ∧ g2.rect W H ∧ g2.cell x y = ch ∧
      ∀ a b : Int, (a, b) ≠ (x, y) → g2.cell a b = g.cell a b := by
  obtain ⟨h1, h2⟩ := hrect
  have hlt : y.toNat < g.m_grid.length := by omega
  have hrow : (g.m_grid.getD y.toNat []).length = W := by
    rw [List.getD_eq_getElem _ _ hlt]
    exact h2 _ (List.getElem_mem _)
  have hxlt : x.toNat < (g.m_grid.getD y.toNat []).length := by omega
  refine ⟨⟨g.m_grid.set y.toNat ((g.m_grid.getD y.toNat []).set x.toNat ch)⟩, ?_, ?_, ?_, ?_⟩
  · unfold set
    rw [if_pos ⟨hy, by omega⟩, if_pos ⟨hx, by omega⟩]
  · unfold rect
    refine ⟨?_, fun row hrow' => ?_⟩
    · simp only [List.length_set]
      exact h1
    · rcases List.mem_or_eq_of_mem_set hrow' with h | h
      · exact h2 row h
      · rw [h, List.length_set]
        exact hrow
  · rw [cell_getElem]
    simp only [hx, hy, and_self, if_true, List.getElem?_set_self hlt, Option.getD_some,
      List.getElem?_set_self hxlt]
  · intro a b hne
    rw [cell_getElem, cell_getElem]
    by_cases hab : 0 ≤ a ∧ 0 ≤ b
    · simp only [hab, and_self, if_true]
      by_cases hb : b = y
      · subst hb
        have ha : x.toNat ≠ a.toNat := by
          intro e
          apply hne
          have : a = x := by omega
          rw [this]
        simp only [List.getElem?_set_self hlt, Option.getD_some, List.getElem?_set_ne ha,
          List.getD_eq_getElem?_getD]
      · have hb' : y.toNat ≠ b.toNat := by omega
        simp only [List.getElem?_set_ne hb']
    · simp only [hab, if_false]

/-- The loop of `emplaceWord` on a run inside a rectangular grid: it returns, keeps
the shape, leaves each letter of the word on its cell and every cell off the
run as it was. -/
theorem emplaceWord_loop_spec (W H : Nat) (dx dy : Int)
    (hdir : (dx = 1 ∧ dy = 0) ∨ (dx = 0 ∧ dy = 1)) :
    ∀ (cs : List Char) (x y : Int) (g : Cwg), g.rect W H →
      (∀ p : Nat, p < cs.length →
        (0 ≤ x + dx * p ∧ x + dx * p < W) ∧ 0 ≤ y + dy * p ∧ y + dy * p < H) →
      ∃ g', emplaceWord_loop dx dy cs x y g = .ok g' ∧ g'.rect W H ∧
        (∀ (p : Nat) (hp : p < cs.length), g'.cell (x + dx * p) (y + dy * p) = cs.get ⟨p, hp⟩) ∧
        ∀ a b : Int, (∀ p : Nat, p < cs.length → (a, b) ≠ (x + dx * p, y + dy * p)) →
          g'.cell a b = g.cell a b := by
  intro cs
  induction cs with
  | nil =>
    intro x y g hrect _
    exact ⟨g, rfl, hrect, fun p hp => absurd hp (Nat.not_lt_zero p), fun a b _ => rfl⟩
  | cons ch rest ih =>
    intro x y g hrect hin
    have h0 := hin 0 (by simp)
    simp only [Nat.cast_zero, mul_zero, add_zero] at h0
    obtain ⟨g2, s1, s2, s3, s4⟩ := g.set_spec W H hrect x y ch h0.1.1 h0.1.2 h0.2.1 h0.2.2
    have hshift : ∀ p : Nat, x + dx + dx * (p : Int) = x + dx * ((p + 1 : Nat) : Int) ∧
        y + dy + dy * (p : Int) = y + dy * ((p + 1 : Nat) : Int) := fun p => by
      constructor <;> push_cast <;> ring
    obtain ⟨g', i1, i2, i3, i4⟩ := ih (x + dx) (y + dy) g2 s2 (fun p hp => by
      have := hin (p + 1) (by simpa using hp)
      rw [← (hshift p).1, ← (hshift p).2] at this
      exact this)
    refine ⟨g', ?_, i2, ?_, ?_⟩
    · simp only [emplaceWord_loop, s1]
      exact i1
    · intro p hp
      cases p with
      | zero =>
        have hoff : ∀ q : Nat, q < rest.length →
            (x, y) ≠ (x + dx + dx * (q : Int), y + dy + dy * (q : Int)) := by
          intro q _ e
          simp only [Prod.mk.injEq] at e
          have hq : (0 : Int) ≤ (q : Int) := Int.natCast_nonneg _
          rcases hdir with ⟨rfl, rfl⟩ | ⟨rfl, rfl⟩ <;> omega
        simp only [Nat.cast_zero, mul_zero, add_zero]
        rw [i4 x y hoff, s3]
        rfl
      | succ q =>
        have := i3 q (by simpa using hp)
        rw [(hshift q).1, (hshift q).2] at this
        rw [this]
        rfl
    · intro a b hne
      rw [i4 a b, s4 a b]
      · have := hne 0 (by simp)
        simpa using this
      · intro q hq
        have := hne (q + 1) (by simpa using hq)
        rw [← (hshift q).1, ← (hshift q).2] at this
        exact this

theorem width_eq (g : Cwg) (W H : Nat) (hrect : g.rect W H) (hH : 1 ≤ H) (hW32 : W < 2 ^ 32) :
    g.width = .ok (W : Int) := by
  obtain ⟨h1, h2⟩ := hrect
  unfold width
  rcases hg : g.m_grid with _ | ⟨row, rest⟩
  · rw [hg] at h1
    simp only [List.length_nil] at h1
    omega
  · have := h2 row (by rw [hg]; exact List.mem_cons_self _ _)
    simp only [this, toUnsigned]
    congr 1
    omega

theorem height_eq (g : Cwg) (W H : Nat) (hrect : g.rect W H) (hH32 : H < 2 ^ 32) :
    g.height = (H : Int) := by
  unfold height toUnsigned
  rw [hrect.1]
  omega

theorem toSize_eq (n : Int) (h0 : 0 ≤ n) (h1 : n < 2 ^ 64) : toSize n = n := by
  unfold toSize
  omega

/-- The scan of `highestWeight`, called as `emplaceWord` does after its length check:
it returns the initial weight `-1` when no scanned position has a greater weight,
and otherwise the first scanned position, row by row, whose weight is the
greatest. -/
theorem highestWeight_spec (g : Cwg) (W H : Nat) (word : List Char) (dx dy : Int)
    (hrect : g.rect W H) (hdir : (dx = 1 ∧ dy = 0) ∨ (dx = 0 ∧ dy = 1)) (hH : 1 ≤ H)
    (hW32 : W < 2 ^ 32) (hH32 : H < 2 ^ 32)
    (hgx : dx * (word.length : Int) ≤ (W : Int) - 2)
    (hgy : dy * (word.length : Int) ≤ (H : Int) - 2) :
    ∃ r, g.highestWeight word dx dy = .ok r ∧
      ((r.wt = -1 ∧ ∀ x y, scans W H word.length dx dy x y →
          g.weightAt word dx dy x y ≤ -1) ∨
        (scans W H word.length dx dy r.x r.y ∧ r.wt = g.weightAt word dx dy r.x r.y ∧
          -1 < r.wt ∧
          ∀ x' y', scans W H word.length dx dy x' y' →
            g.weightAt word dx dy x' y' ≤ r.wt ∧
            (g.weightAt word dx dy x' y' = r.wt → scannedBefore r.x r.y x' y'))) := by
  have hL : (0 : Int) ≤ (word.length : Int) := Int.natCast_nonneg _
  have hd0 : 0 ≤ dx ∧ 0 ≤ dy ∧ dx ≤ 1 ∧ dy ≤ 1 := by omega
  have hdxL : 0 ≤ dx * (word.length : Int) := mul_nonneg hd0.1 hL
  have hdyL : 0 ≤ dy * (word.length : Int) := mul_nonneg hd0.2.1 hL
  have hw := g.width_eq W H hrect hH hW32
  have hh := g.height_eq W H hrect hH32
  have hcols : toSize ((W : Int) - dx * (word.length : Int) - 1) =
      (W : Int) - dx * (word.length : Int) - 1 := toSize_eq _ (by omega) (by omega)
  have hrows : toSize ((H : Int) - dy * (word.length : Int) - 1) =
      (H : Int) - dy * (word.length : Int) - 1 := toSize_eq _ (by omega) (by omega)
  have hmem : ∀ p : Int × Int,
      p ∈ scanRows ((W : Int) - dx * (word.length : Int) - 1 - 1).toNat
          ((H : Int) - dy * (word.length : Int) - 1 - 1).toNat 1 ↔
        scans W H word.length dx dy p.1 p.2 := by
    intro p
    rw [mem_scanRows]
    unfold scans
    omega
  have hsorted := scanRows_sorted ((W : Int) - dx * (word.length : Int) - 1 - 1).toNat
    ((H : Int) - dy * (word.length : Int) - 1 - 1).toNat 1
  obtain ⟨r, hr, hcase⟩ := scanBest_first (fun x y => g.doWeight word x y dx dy)
    (fun x y => g.weightAt word dx dy x y)
    (scanRows ((W : Int) - dx * (word.length : Int) - 1 - 1).toNat
      ((H : Int) - dy * (word.length : Int) - 1 - 1).toNat 1) ⟨1, 1, -1⟩
    (fun p hp => (g.doWeight_returns W H word p.1 p.2 dx dy hrect hdir ((hmem p).mp hp)).1)
  refine ⟨r, ?_, ?_⟩
  · unfold highestWeight
    rw [hh, hrows, g.highestWeight_rows_eq word dx dy W hw, hcols]
    exact hr
  · rcases hcase with ⟨h1, h2⟩ | ⟨pre, p, post, h1, h2, h3, h4, h5⟩
    · left
      refine ⟨by rw [h1], fun x y hs => ?_⟩
      exact h2 (x, y) ((hmem (x, y)).mpr hs)
    · right
      rw [h1] at hmem hsorted
      have hp : scans W H word.length dx dy p.1 p.2 :=
        (hmem p).mp (List.mem_append_right _ (List.mem_cons_self _ _))
      obtain ⟨-, hs2, -⟩ := List.pairwise_append.mp hsorted
      have hafter := (List.pairwise_cons.mp hs2).1
      rw [h2]
      refine ⟨hp, rfl, h3, fun x' y' hs => ?_⟩
      have hq := (hmem (x', y')).mpr hs
      rcases List.mem_append.mp hq with hq | hq
      · have := h4 _ hq
        simp only at this ⊢
        exact ⟨by omega, fun e => by omega⟩
      · rcases List.mem_cons.mp hq with hq | hq
        · have e1 : x' = p.1 := congrArg Prod.fst hq
          have e2 : y' = p.2 := congrArg Prod.snd hq
          subst e1 e2
          exact ⟨le_refl _, fun _ => Or.inr ⟨rfl, le_refl _⟩⟩
        · have h6 := h5 _ hq
          have h7 := hafter _ hq
          simp only at h6 h7 ⊢
          refine ⟨h6, fun _ => ?_⟩
          unfold scannedBefore
          omega

theorem setDeltas_dir (horizontally : Bool) (dx dy : Int)
    (hd : setDeltas horizontally = (dx, dy)) : (dx = 1 ∧ dy = 0) ∨ (dx = 0 ∧ dy = 1) := by
  unfold setDeltas at hd
  cases horizontally
  · simp only [Bool.false_eq_true, if_false, Prod.mk.injEq] at hd
    exact Or.inr ⟨hd.1.symm, hd.2.symm⟩
  · simp only [if_true, Prod.mk.injEq] at hd
    exact Or.inl ⟨hd.1.symm, hd.2.symm⟩

/-- The length check of `emplaceWord` on values that fit their unsigned types. -/
theorem guard_iff (W H L : Nat) (dx dy : Int) (hdir : (dx = 1 ∧ dy = 0) ∨ (dx = 0 ∧ dy = 1))
    (hW : 2 ≤ W) (hH : 2 ≤ H) (hW32 : W < 2 ^ 32) (hH32 : H < 2 ^ 32) (hL : L < 2 ^ 32) :
    (toSize ((L : Int) * dx) > toUnsigned ((W : Int) - 2) ∨
      toSize ((L : Int) * dy) > toUnsigned ((H : Int) - 2)) ↔
    (dx * (L : Int) > (W : Int) - 2 ∨ dy * (L : Int) > (H : Int) - 2) := by
  unfold toSize toUnsigned
  rcases hdir with ⟨rfl, rfl⟩ | ⟨rfl, rfl⟩ <;> simp only [mul_one, mul_zero, one_mul, zero_mul] <;>
    omega

/-- The run of a word that starts on a scanned position lies inside the grid. -/
theorem scans_run (W H L : Nat) (dx dy x y : Int)
    (hdir : (dx = 1 ∧ dy = 0) ∨ (dx = 0 ∧ dy = 1)) (hs : scans W H L dx dy x y) (p : Nat)
    (hp : p < L) :
    (0 ≤ x + dx * p ∧ x + dx * p < W) ∧ 0 ≤ y + dy * p ∧ y + dy * p < H := by
  unfold scans at hs
  rcases hdir with ⟨rfl, rfl⟩ | ⟨rfl, rfl⟩ <;> simp only [one_mul, zero_mul] at hs ⊢ <;> omega

/-- What `emplaceWord` does on a rectangular grid, in terms of the scanned positions
and their weights. -/
theorem emplaceWord_cases (g : Cwg) (W H : Nat) (word : List Char) (horizontally : Bool)
    (dx dy : Int) (hrect : g.rect W H) (hW : 2 ≤ W) (hH : 2 ≤ H) (hW32 : W < 2 ^ 32)
    (hH32 : H < 2 ^ 32) (hL : word.length < 2 ^ 32) (hd : setDeltas horizontally = (dx, dy)) :
    (g.emplaceWord word horizontally = .ok (false, g) ∧
      ∀ x y, scans W H word.length dx dy x y → g.weightAt word dx dy x y ≤ -1) ∨
    ∃ x y g', g.emplaceWord word horizontally = .ok (true, g') ∧
      scans W H word.length dx dy x y ∧ 0 ≤ g.weightAt word dx dy x y ∧
      (∀ x' y', scans W H word.length dx dy x' y' →
        g.weightAt word dx dy x' y' ≤ g.weightAt word dx dy x y ∧
        (g.weightAt word dx dy x' y' = g.weightAt word dx dy x y → scannedBefore x y x' y')) ∧
      emplaceWord_loop dx dy word x y g = .ok g' := by
  have hdir := setDeltas_dir horizontally dx dy hd
  have hw := g.width_eq W H hrect (by omega) hW32
  have hh := g.height_eq W H hrect hH32
  have hguard := guard_iff W H word.length dx dy hdir hW hH hW32 hH32 hL
  have hd1 : (setDeltas horizontally).1 = dx := by rw [hd]
  have hd2 : (setDeltas horizontally).2 = dy := by rw [hd]
  unfold emplaceWord
  simp only [hd1, hd2, hw, hh]
  by_cases hg : dx * (word.length : Int) > (W : Int) - 2 ∨ dy * (word.length : Int) > (H : Int) - 2
  · left
    rw [if_pos (hguard.mpr hg)]
    refine ⟨rfl, fun x y hs => ?_⟩
    unfold scans at hs
    omega
  · rw [if_neg (fun h => hg (hguard.mp h))]
    obtain ⟨r, hr, hcase⟩ := g.highestWeight_spec W H word dx dy hrect hdir (by omega) hW32 hH32
      (by omega) (by omega)
    rw [hr]
    simp only
    rcases hcase with ⟨h1, h2⟩ | ⟨h1, h2, h3, h4⟩
    · left
      rw [if_pos h1]
      exact ⟨rfl, h2⟩
    · right
      rw [if_neg (by omega)]
      obtain ⟨g', l1, -⟩ := emplaceWord_loop_spec W H dx dy hdir word r.x r.y g hrect
        (fun p hp => scans_run W H word.length dx dy r.x r.y hdir h1 p hp)
      refine ⟨r.x, r.y, g', ?_, h1, by omega, ?_, l1⟩
      · rw [l1]
      · intro x' y' hs
        rw [← h2]
        exact h4 x' y' hs

end Cwg

/-- C21. On a grid of `H` rows of `W` cells (at least 2 each, as the constructor
ensures, the sizes fitting their unsigned types), `doWeight` returns on every
position scanned by `highestWeight` and `emplaceWord` returns.  It returns `true`
exactly when some scanned position has a weight of 0 or more.  When it returns
`false` the grid is unchanged.  When it returns `true`, there is a scanned
position of greatest weight that comes first, row by row, among the scanned
positions of that weight; afterwards the grid has the same shape, each letter
of the word lies on its cell of the run from that position, and every other
cell is unchanged. -/
theorem emplaceWord_first_best (g : Cwg) (W H : Nat) (word : List Char) (horizontally : Bool)
    (dx dy : Int) (hrect : g.rect W H) (hW : 2 ≤ W) (hH : 2 ≤ H) (hW32 : W < 2 ^ 32)
    (hH32 : H < 2 ^ 32) (hL : word.length < 2 ^ 32) (hd : setDeltas horizontally = (dx, dy)) :
    (∀ x y, Cwg.scans W H word.length dx dy x y →
      g.doWeight word x y dx dy = .ok ⟨x, y, g.weightAt word dx dy x y⟩) ∧
    ∃ b g', g.emplaceWord word horizontally = .ok (b, g') ∧
      (b = true ↔ ∃ x y, Cwg.scans W H word.length dx dy x y ∧
        0 ≤ g.weightAt word dx dy x y) ∧
      (b = false → g' = g) ∧
      (b = true → ∃ x y, Cwg.scans W H word.length dx dy x y ∧
        0 ≤ g.weightAt word dx dy x y ∧
        (∀ x' y', Cwg.scans W H word.length dx dy x' y' →
          g.weightAt word dx dy x' y' ≤ g.weightAt word dx dy x y ∧
          (g.weightAt word dx dy x' y' = g.weightAt word dx dy x y →
            Cwg.scannedBefore x y x' y')) ∧
        g'.rect W H ∧
        (∀ (p : Nat) (hp : p < word.length),
          g'.cell (x + dx * p) (y + dy * p) = word.get ⟨p, hp⟩) ∧
        ∀ a b : Int, (∀ p : Nat, p < word.length → (a, b) ≠ (x + dx * p, y + dy * p)) →
          g'.cell a b = g.cell a b) := by
  have hdir := Cwg.setDeltas_dir horizontally dx dy hd
  refine ⟨fun x y hs => (g.doWeight_returns W H word x y dx dy hrect hdir hs).1, ?_⟩
  rcases g.emplaceWord_cases W H word horizontally dx dy hrect hW hH hW32 hH32 hL hd with
    ⟨h1, h2⟩ | ⟨x, y, g', h1, h2, h3, h4, h5⟩
  · have hiff : false = true ↔ ∃ x y, Cwg.scans W H word.length dx dy x y ∧
        0 ≤ g.weightAt word dx dy x y := by
      constructor
      · intro h
        exact absurd h (by decide)
      · rintro ⟨x, y, hs, hwt⟩
        have := h2 x y hs
        omega
    exact ⟨false, g, h1, hiff, fun _ => rfl, fun h => absurd h (by decide)⟩
  · obtain ⟨g'', l1, l2, l3, l4⟩ := Cwg.emplaceWord_loop_spec W H dx dy hdir word x y g hrect
      (fun p hp => Cwg.scans_run W H word.length dx dy x y hdir h2 p hp)
    rw [h5] at l1
    have e := Except.ok.inj l1
    subst e
    have hiff : true = true ↔ ∃ x y, Cwg.scans W H word.length dx dy x y ∧
        0 ≤ g.weightAt word dx dy x y := ⟨fun _ => ⟨x, y, h2, h3⟩, fun _ => rfl⟩
    exact ⟨true, g', h1, hiff, fun h => absurd h (by decide),
      fun _ => ⟨x, y, h2, h3, h4, l2, l3, l4⟩⟩

/-- C21 on the 7 x 5 grid holding CAT and TEA: of the six positions scanned for EAR
along a row only column 2 of row 3 has a weight other than `-1`, and EAR is
written there.  On the empty 7 x 5 grid every scanned position has weight 0 and
ON is written on the first, column 1 of row 1.  For EAGLE, whose five letters
pass the length check of a grid of width 7, no position is scanned, and the grid
is left as it was. -/
theorem emplaceWord_first_best_witness :
    catTeaCwg.rect 7 5 ∧ 2 ≤ 7 ∧ 2 ≤ 5 ∧ 7 < 2 ^ 32 ∧ 5 < 2 ^ 32 ∧ "EAR".toList.length < 2 ^ 32 ∧
      setDeltas true = (1, 0) ∧
      ((∀ x y, Cwg.scans 7 5 "EAR".toList.length 1 0 x y →
        catTeaCwg.doWeight "EAR".toList x y 1 0 =
          .ok ⟨x, y, catTeaCwg.weightAt "EAR".toList 1 0 x y⟩) ∧
      ∃ b g', catTeaCwg.emplaceWord "EAR".toList true = .ok (b, g') ∧
        (b = true ↔ ∃ x y, Cwg.scans 7 5 "EAR".toList.length 1 0 x y ∧
          0 ≤ catTeaCwg.weightAt "EAR".toList 1 0 x y) ∧
        (b = false → g' = catTeaCwg) ∧
        (b = true → ∃ x y, Cwg.scans 7 5 "EAR".toList.length 1 0 x y ∧
          0 ≤ catTeaCwg.weightAt "EAR".toList 1 0 x y ∧
          (∀ x' y', Cwg.scans 7 5 "EAR".toList.length 1 0 x' y' →
            catTeaCwg.weightAt "EAR".toList 1 0 x' y' ≤ catTeaCwg.weightAt "EAR".toList 1 0 x y ∧
            (catTeaCwg.weightAt "EAR".toList 1 0 x' y' = catTeaCwg.weightAt "EAR".toList 1 0 x y →
              Cwg.scannedBefore x y x' y')) ∧
          g'.rect 7 5 ∧
          (∀ (p : Nat) (hp : p < "EAR".toList.length),
            g'.cell (x + 1 * p) (y + 0 * p) = "EAR".toList.get ⟨p, hp⟩) ∧
          ∀ a b : Int, (∀ p : Nat, p < "EAR".toList.length → (a, b) ≠ (x + 1 * p, y + 0 * p)) →
            g'.cell a b = catTeaCwg.cell a b)) ∧
      catTeaCwg.emplaceWord "EAR".toList true = .ok (true, catTeaEarCwg) ∧
      catTeaCwg.highestWeight "EAR".toList 1 0 = .ok ⟨2, 3, 1⟩ ∧
      (Cwg.new 7 5).emplaceWord "ON".toList true = .ok (true, onCwg) ∧
      catTeaCwg.emplaceWord "EAGLE".toList true = .ok (false, catTeaCwg) :=
  ⟨by decide, by decide, by decide, by decide, by decide, by decide, by decide,
    emplaceWord_first_best catTeaCwg 7 5 "EAR".toList true 1 0 (by decide) (by decide) (by decide)
      (by decide) (by decide) (by decide) (by decide),
    by decide, by decide, by decide, by decide⟩

namespace Cwg

theorem new_eq (W H : Nat) (hW : 3 ≤ W) (hH : 3 ≤ H) :
    Cwg.new W H = ⟨List.replicate H (List.replicate W '.')⟩ := by
  unfold Cwg.new
  have h1 : ¬ ((W : Int) < 3) := by omega
  have h2 : ¬ ((H : Int) < 3) := by omega
  simp only [h1, h2, if_false, Int.toNat_ofNat]

theorem new_rect (W H : Nat) (hW : 3 ≤ W) (hH : 3 ≤ H) : (Cwg.new W H).rect W H := by
  rw [new_eq W H hW hH]
  unfold rect
  refine ⟨List.length_replicate _ _, fun row hrow => ?_⟩
  rw [(List.mem_replicate.mp hrow).2]
  exact List.length_replicate _ _

theorem new_cell (W H : Nat) (hW : 3 ≤ W) (hH : 3 ≤ H) (x y : Int) :
    (Cwg.new W H).cell x y = '.' := by
  rw [new_eq W H hW hH, cell_getElem]
  split
  · simp only [List.getElem?_replicate]
    split
    · simp only [Option.getD_some, List.getElem?_replicate]
      split <;> rfl
    · rfl
  · rfl

/-- On a grid whose cells are all blank the loop of `doWeight` never refuses. -/
theorem doWeight_loop_blank (g : Cwg) (W H : Nat) (hrect : g.rect W H)
    (hblank : ∀ x y, g.cell x y = '.') (dx dy : Int)
    (hdir : (dx = 1 ∧ dy = 0) ∨ (dx = 0 ∧ dy = 1)) :
    ∀ (cs : List Char) (x y wt : Int), 1 ≤ x → x + dx * (cs.length : Int) < W - 1 →
      1 ≤ y → y + dy * (cs.length : Int) < H - 1 →
      ∃ r, g.doWeight_loop dx dy cs x y wt = .ok r ∧ wt ≤ r := by
  intro cs
  induction cs with
  | nil =>
    intro x y wt _ _ _ _
    exact ⟨wt, rfl, le_refl _⟩
  | cons ch rest ih =>
    intro x y wt hx hx2 hy hy2
    simp only [List.length_cons, Nat.cast_add, Nat.cast_one] at hx2 hy2
    have hd0 : 0 ≤ dx ∧ 0 ≤ dy ∧ dx ≤ 1 ∧ dy ≤ 1 := by omega
    have hL : (0 : Int) ≤ (rest.length : Int) := Int.natCast_nonneg _
    have hxa : x + dx ≤ x + dx * ((rest.length : Int) + 1) := by
      rcases hdir with ⟨rfl, rfl⟩ | ⟨rfl, rfl⟩ <;> simp
    have hya : y + dy ≤ y + dy * ((rest.length : Int) + 1) := by
      rcases hdir with ⟨rfl, rfl⟩ | ⟨rfl, rfl⟩ <;> simp
    have hxe : x + dx + dx * (rest.length : Int) = x + dx * ((rest.length : Int) + 1) := by ring
    have hye : y + dy + dy * (rest.length : Int) = y + dy * ((rest.length : Int) + 1) := by ring
    have hih := fun wt' => ih (x + dx) (y + dy) wt' (by omega) (by omega) (by omega) (by omega)
    unfold doWeight_loop
    rw [g.get_eq_cell W H hrect x y (by omega) (by omega) (by omega) (by omega)]
    simp only
    by_cases h1 : ch = g.cell x y
    · rw [if_pos h1]
      obtain ⟨r, hr, hr2⟩ := hih (wt + 1)
      exact ⟨r, hr, by omega⟩
    · rw [if_neg h1, if_neg (not_not.mpr (hblank x y))]
      have hn1 := g.notBlank_eq W H hrect x (y + dx) (by omega) (by omega) (by omega) (by omega)
      have hn2 := g.notBlank_eq W H hrect (x + dy) y (by omega) (by omega) (by omega) (by omega)
      have hn3 := g.notBlank_eq W H hrect x (y - dx) (by omega) (by omega) (by omega) (by omega)
      have hn4 := g.notBlank_eq W H hrect (x - dy) y (by omega) (by omega) (by omega) (by omega)
      rw [hn1, hn2, hn3, hn4,
        orElse_decide _ _ _ (orElse_decide _ _ _ (orElse_decide _ _ _ rfl))]
      have hc : ¬ (g.cell x (y + dx) ≠ '.' ∨ g.cell (x + dy) y ≠ '.' ∨
          g.cell x (y - dx) ≠ '.' ∨ g.cell (x - dy) y ≠ '.') := by
        simp only [hblank, ne_eq, not_true_eq_false, or_self, not_false_eq_true]
      rw [decide_eq_false hc]
      exact hih wt

/-- On a grid whose cells are all blank every scanned position has a weight of 0 or
more. -/
theorem weightAt_blank (g : Cwg) (W H : Nat) (word : List Char) (x y dx dy : Int)
    (hrect : g.rect W H) (hblank : ∀ x y, g.cell x y = '.')
    (hdir : (dx = 1 ∧ dy = 0) ∨ (dx = 0 ∧ dy = 1))
    (hs : scans W H word.length dx dy x y) : 0 ≤ g.weightAt word dx dy x y := by
  obtain ⟨hx, hx2, hy, hy2⟩ := hs
  have hL : (0 : Int) ≤ (word.length : Int) := Int.natCast_nonneg _
  have hd0 : 0 ≤ dx ∧ 0 ≤ dy ∧ dx ≤ 1 ∧ dy ≤ 1 := by omega
  have hxa : x ≤ x + dx * (word.length : Int) := by
    rcases hdir with ⟨rfl, rfl⟩ | ⟨rfl, rfl⟩ <;> simp
  have hya : y ≤ y + dy * (word.length : Int) := by
    rcases hdir with ⟨rfl, rfl⟩ | ⟨rfl, rfl⟩ <;> simp
  have hb := g.notBlank_eq W H hrect (x - dx) (y - dy) (by omega) (by omega) (by omega) (by omega)
  have ha := g.notBlank_eq W H hrect (x + dx * (word.length : Int)) (y + dy * (word.length : Int))
    (by omega) (by omega) (by omega) (by omega)
  obtain ⟨r, hr, hr2⟩ := g.doWeight_loop_blank W H hrect hblank dx dy hdir word x y 0 hx
    (by omega) hy (by omega)
  have hends : ¬ (g.cell (x - dx) (y - dy) ≠ '.' ∨
      g.cell (x + dx * (word.length : Int)) (y + dy * (word.length : Int)) ≠ '.') := by
    simp only [hblank, ne_eq, not_true_eq_false, or_self, not_false_eq_true]
  unfold weightAt doWeight
  rw [hb, orElse_decide _ _ _ ha, decide_eq_false hends, hr]
  exact hr2

end Cwg

/-- C22 (what the code does).  On an empty grid of `H` rows of `W` cells, as the
constructor builds it, `emplaceWord` returns, and it returns `true` exactly when
`dx * L + 3 <= W` and `dy * L + 3 <= H`: for a horizontal word when `L <= W - 3`,
for a vertical word when `L <= H - 3`.  The length check of `emplaceWord` lets a
word through when `dx * L <= W - 2` and `dy * L <= H - 2`; a word of exactly that
length finds no position to scan, `emplaceWord` returns `false` and leaves the
grid empty. -/
theorem emplaceWord_blank (W H : Nat) (word : List Char) (horizontally : Bool) (dx dy : Int)
    (hW : 3 ≤ W) (hH : 3 ≤ H) (hW32 : W < 2 ^ 32) (hH32 : H < 2 ^ 32)
    (hL : word.length < 2 ^ 32) (hd : setDeltas horizontally = (dx, dy)) :
    (Cwg.new W H).width = .ok (W : Int) ∧ (Cwg.new W H).height = (H : Int) ∧
    ((toSize ((word.length : Int) * dx) > toUnsigned ((W : Int) - 2) ∨
        toSize ((word.length : Int) * dy) > toUnsigned ((H : Int) - 2)) ↔
      ¬ (dx * (word.length : Int) ≤ (W : Int) - 2 ∧ dy * (word.length : Int) ≤ (H : Int) - 2)) ∧
    ∃ b g', (Cwg.new W H).emplaceWord word horizontally = .ok (b, g') ∧
      (b = true ↔ dx * (word.length : Int) + 3 ≤ W ∧ dy * (word.length : Int) + 3 ≤ H) ∧
      (b = false → g' = Cwg.new W H) := by
  have hdir := Cwg.setDeltas_dir horizontally dx dy hd
  have hrect := Cwg.new_rect W H hW hH
  have hblank := Cwg.new_cell W H hW hH
  refine ⟨Cwg.width_eq _ W H hrect (by omega) hW32, Cwg.height_eq _ W H hrect hH32, ?_, ?_⟩
  · rw [Cwg.guard_iff W H word.length dx dy hdir (by omega) (by omega) hW32 hH32 hL]
    omega
  rcases (Cwg.new W H).emplaceWord_cases W H word horizontally dx dy hrect (by omega) (by omega)
      hW32 hH32 hL hd with ⟨h1, h2⟩ | ⟨x, y, g', h1, h2, -, -, -⟩
  · have hiff : false = true ↔
        dx * (word.length : Int) + 3 ≤ W ∧ dy * (word.length : Int) + 3 ≤ H := by
      constructor
      · intro h
        exact absurd h (by decide)
      · rintro ⟨q1, q2⟩
        have hs : Cwg.scans W H word.length dx dy 1 1 := by
          unfold Cwg.scans
          omega
        have := h2 1 1 hs
        have := Cwg.weightAt_blank _ W H word 1 1 dx dy hrect hblank hdir hs
        omega
    exact ⟨false, _, h1, hiff, fun _ => rfl⟩
  · have hiff : true = true ↔
        dx * (word.length : Int) + 3 ≤ W ∧ dy * (word.length : Int) + 3 ≤ H := by
      refine ⟨fun _ => ?_, fun _ => rfl⟩
      unfold Cwg.scans at h2
      omega
    exact ⟨true, g', h1, hiff, fun h => absurd h (by decide)⟩

/-- C22 on the empty 5 x 5 grid: CAT, of length 3 = 5 - 2, passes the length check
in either direction and is refused, the grid staying empty; TO, of length 2, is
placed. -/
theorem emplaceWord_blank_witness :
    3 ≤ 5 ∧ 5 < 2 ^ 32 ∧ "CAT".toList.length < 2 ^ 32 ∧ setDeltas true = (1, 0) ∧
      ((Cwg.new (5 : Nat) (5 : Nat)).width = .ok ((5 : Nat) : Int) ∧
        (Cwg.new (5 : Nat) (5 : Nat)).height = ((5 : Nat) : Int) ∧
        ((toSize (("CAT".toList.length : Int) * 1) > toUnsigned (((5 : Nat) : Int) - 2) ∨
            toSize (("CAT".toList.length : Int) * 0) > toUnsigned (((5 : Nat) : Int) - 2)) ↔
          ¬ (1 * ("CAT".toList.length : Int) ≤ ((5 : Nat) : Int) - 2 ∧
            0 * ("CAT".toList.length : Int) ≤ ((5 : Nat) : Int) - 2)) ∧
        ∃ b g', (Cwg.new (5 : Nat) (5 : Nat)).emplaceWord "CAT".toList true = .ok (b, g') ∧
          (b = true ↔ 1 * ("CAT".toList.length : Int) + 3 ≤ (5 : Nat) ∧
            0 * ("CAT".toList.length : Int) + 3 ≤ (5 : Nat)) ∧
          (b = false → g' = Cwg.new (5 : Nat) (5 : Nat))) ∧
      "CAT".toList.length ≤ 5 - 2 ∧
      (Cwg.new 5 5).emplaceWord "CAT".toList true = .ok (false, Cwg.new 5 5) ∧
      (Cwg.new 5 5).emplaceWord "CAT".toList false = .ok (false, Cwg.new 5 5) ∧
      (Cwg.new 5 5).highestWeight "CAT".toList 1 0 = .ok ⟨1, 1, -1⟩ ∧
      (Cwg.new 5 5).emplaceWord "TO".toList true =
        .ok (true, ⟨[".....".toList, ".TO..".toList, ".....".toList, ".....".toList,
          ".....".toList]⟩) :=
  ⟨by decide, by decide, by decide, by decide,
    emplaceWord_blank 5 5 "CAT".toList true 1 0 (by decide) (by decide) (by decide) (by decide)
      (by decide) (by decide),
    by decide, by decide, by decide, by decide, by decide⟩

/-! ## Crossing attempts: written cells (C3), first fit (C5) -/

/-- C3 as stated fails after a seed longer than the grid.  On a 5 x 5 grid the
seed ABCDEFG leaves the entry of F at row 0, column 5.  FXY is then placed
through it, at letter position 0: the run is `(0, 5)`, `(1, 5)`, `(2, 5)`, every
access stays inside the buffer, and the letter X goes to offset 10, which is the
cell `(2, 0)` of the grid: a cell that is not on the run changes from `Empty`
to X. -/
theorem place_crossing_word_cells_counterexample :
    Reach 5 "ABCDEFG".toList longSeedGrid [] [runCells ⟨0, 0, .Vert⟩ 0 7] ∧
      longSeedGrid.place_crossing_word "FXY".toList = .ok (true, longSeedFxyGrid) ∧
      longSeedGrid.firstFit "FXY".toList 0 0 ∧
      longSeedGrid.candidate "FXY".toList 0 0 = some (5, ⟨0, 5, .Horz⟩) ∧
      runCells ⟨0, 5, .Horz⟩ 0 "FXY".toList.length = [(0, 5), (1, 5), (2, 5)] ∧
      longSeedGrid.inside (2, 0) ∧ (2, 0) ∉ runCells ⟨0, 5, .Horz⟩ 0 "FXY".toList.length ∧
      longSeedGrid.cell (2, 0) = Empty ∧ longSeedFxyGrid.cell (2, 0) = 'X' :=
  ⟨Reach.seeded .Vert longSeedGrid (by decide), by decide,
    ⟨by decide, fun w' j' he => by
      unfold earlier at he
      simp at he⟩,
    by decide, by decide, by decide, by decide, by decide, by decide⟩

/-- C3, amended.  No corruption on commit.  When `place_crossing_word` succeeds it
does so through the first legal candidate `p`, at a letter position `w`; the size
is unchanged; the letter at index `w` lies on the coordinate of `p`; for every
`k < L` the cell `k` steps along `opposite(p.dir)` from the start cell, read at its
offset in the buffer, which lies inside the buffer, holds `word[k]`; and every
position of the buffer other than the offsets of these `L` cells is unchanged.
When the coordinate of `p` lies inside the grid, the run lies inside the grid and
every cell of the grid that is not on the run is unchanged.  The coordinate of
`p` does lie inside the grid in every state reachable by `place_initial_word` with
a seed word no longer than the grid size, followed by calls of
`place_crossing_word`. -/
theorem place_crossing_word_cells (g : Grid) (word : List Char) (g' : Grid)
    (h : g.place_crossing_word word = .ok (true, g')) :
    ∃ w j i p, g.candidate word w j = some (i, p) ∧ g.firstFit word w j ∧
      (g.erase i j).add_word word w p = .ok g' ∧
      g'.m_size = g.m_size ∧
      runCell p w w = p.coord ∧
      (∀ k : Nat, k < word.length →
        g.inBuffer (g.offset (runCell p w k).1 (runCell p w k).2)) ∧
      (∀ (k : Nat) (hk : k < word.length), g'.cell (runCell p w k) = word.get ⟨k, hk⟩) ∧
      (∀ o : Nat, (∀ k : Nat, k < word.length → g.slot (runCell p w k) ≠ o) →
        g'.m_grid[o]? = g.m_grid[o]?) ∧
      (g.inside p.coord →
        (∀ k : Nat, k < word.length → g.inside (runCell p w k)) ∧
        ∀ rc, g.inside rc → (∀ k : Nat, k < word.length → rc ≠ runCell p w k) →
          g'.cell rc = g.cell rc) ∧
      ∀ (size : Int) (seed : List Char) (used : List (Int × Int))
        (runs : List (List (Int × Int))),
        Reach size seed g used runs → (seed.length : Int) ≤ size → g.inside p.coord := by
  obtain ⟨w, j, i, p, h1, h2, h3, h4, h5⟩ := g.place_crossing_word_true word g' h
  obtain ⟨f1, -, -, -, f5, f6, f7⟩ := g.commit_facts word w p i j g' h3 h5
  obtain ⟨ch, -, -, r3⟩ := (g.candidate_eq_some word w j i p).mp h1
  have hslot : ∀ rc, g'.slot rc = g.slot rc := fun rc => by simp [Grid.slot, Grid.offset, f1]
  refine ⟨w, j, i, p, h1, h2, h5, f1, runCell_self p w, f5, fun k hk => ?_, f7,
    fun hp => ⟨fun k hk => g.passes_run_inside _ _ _ h3 hp k hk, fun rc hrc hne => ?_⟩,
    fun size seed used runs hr hfit => ?_⟩
  · rw [Grid.cell_eq, hslot, f6 k hk]
    rfl
  · rw [Grid.cell_eq, Grid.cell_eq, hslot, f7]
    intro k hk e
    exact hne k hk (g.slot_inj _ _ hrc (g.passes_run_inside _ _ _ h3 hp k hk) e.symm)
  · exact g.indexInside_apply (Reach.wf size seed g used runs hr hfit).2 i p
      (List.getElem?_mem r3)

/-- C3, amended, at the scenario: with CAT horizontal at `(0, 0)`, placing ATE yields
A at `(0, 1)`, T at `(1, 1)` and E at `(2, 1)`; the candidate `(0, 1)` lies inside
the grid, and so does the run. -/
theorem place_crossing_word_cells_witness :
    catGrid.place_crossing_word "ATE".toList = .ok (true, catAteGrid) ∧
      (∃ w j i p, catGrid.candidate "ATE".toList w j = some (i, p) ∧
        catGrid.firstFit "ATE".toList w j ∧
        (catGrid.erase i j).add_word "ATE".toList w p = .ok catAteGrid ∧
        catAteGrid.m_size = catGrid.m_size ∧
        runCell p w w = p.coord ∧
        (∀ k : Nat, k < "ATE".toList.length →
          catGrid.inBuffer (catGrid.offset (runCell p w k).1 (runCell p w k).2)) ∧
        (∀ (k : Nat) (hk : k < "ATE".toList.length),
          catAteGrid.cell (runCell p w k) = "ATE".toList.get ⟨k, hk⟩) ∧
        (∀ o : Nat, (∀ k : Nat, k < "ATE".toList.length → catGrid.slot (runCell p w k) ≠ o) →
          catAteGrid.m_grid[o]? = catGrid.m_grid[o]?) ∧
        (catGrid.inside p.coord →
          (∀ k : Nat, k < "ATE".toList.length → catGrid.inside (runCell p w k)) ∧
          ∀ rc, catGrid.inside rc → (∀ k : Nat, k < "ATE".toList.length → rc ≠ runCell p w k) →
            catAteGrid.cell rc = catGrid.cell rc) ∧
        ∀ (size : Int) (seed : List Char) (used : List (Int × Int))
          (runs : List (List (Int × Int))),
          Reach size seed catGrid used runs → (seed.length : Int) ≤ size →
            catGrid.inside p.coord) ∧
      catGrid.candidate "ATE".toList 0 0 = some (0, ⟨0, 1, .Horz⟩) ∧
      catGrid.inside (Point.mk 0 1 .Horz).coord ∧
      Reach 5 "CAT".toList catGrid [] [runCells ⟨0, 0, .Vert⟩ 0 "CAT".toList.length] ∧
      (("CAT".toList.length : Nat) : Int) ≤ 5 ∧
      catAteGrid.cell (0, 1) = 'A' ∧ catAteGrid.cell (1, 1) = 'T' ∧ catAteGrid.cell (2, 1) = 'E' :=
  ⟨by decide, place_crossing_word_cells catGrid "ATE".toList catAteGrid (by decide),
    by decide, by decide, Reach.seeded .Vert catGrid (by decide), by decide,
    by decide, by decide, by decide⟩

/-- C5 as stated fails in two ways.  In the scenario state the pair `(0, 0)` is
legal for the word `T'S` (`can_place` returns `true` for the recorded T), yet
the call does not succeed: `add_word` reaches the apostrophe and
`Letters::operator[]` throws.  And in the state reached on a 3 x 3 grid from the
seed CATS once TOP has crossed its T, the pair `(1, 0)` is legal for the word
SP, yet the call first tests the entry of S at column 3, outside the grid, and
`can_place` reads offset 9 of a buffer of 9 cells. -/
theorem place_crossing_word_first_fit_counterexample :
    (Reach 5 "CAT".toList catGrid [] [runCells ⟨0, 0, .Vert⟩ 0 "CAT".toList.length] ∧
      catGrid.sized ∧ catGrid.indexInside ∧
      catGrid.fits "T'S".toList 0 0 ∧
      catGrid.place_crossing_word "T'S".toList = .error .badIndex) ∧
    (Reach 3 "CATS".toList catsTopGrid [(0, 2)]
        [runCells ⟨0, 2, .Horz⟩ 0 "TOP".toList.length,
          runCells ⟨0, 0, .Vert⟩ 0 "CATS".toList.length] ∧
      ¬ catsTopGrid.indexInside ∧
      catsTopGrid.fits "SP".toList 1 0 ∧
      catsTopGrid.can_place "SP".toList 0 ⟨0, 3, .Horz⟩ = .error .outOfRange ∧
      catsTopGrid.place_crossing_word "SP".toList = .error .outOfRange) :=
  ⟨⟨Reach.seeded .Vert catGrid (by decide), by decide, by decide, by decide, by decide⟩,
    ⟨Reach.crossed catsGrid [] _ "TOP".toList catsTopGrid 0 0 19 ⟨0, 2, .Horz⟩
        (Reach.seeded .Vert catsGrid (by decide)) (by decide)
        ⟨by decide, fun w' j' he => by
          unfold earlier at he
          simp at he⟩
        (by decide),
      by decide, by decide, by decide, by decide⟩⟩

/-- C5, amended.  First-fit tie-breaking.  Whenever `place_crossing_word` succeeds,
the word is made of letters, some pair `(w, j)` is legal (`can_place` returns
`true` for the `j`-th entry of the list of `word[w]`), and the committed placement
is the one for the lexicographically least legal pair: that entry is erased and
the word added through it.  Conversely, for a word made of letters, in a state
whose buffer holds `m_size * m_size` cells and whose index entries lie inside the
grid, the call succeeds if and only if some pair is legal.  Every state reachable
by `place_initial_word` with a seed word no longer than the grid size, followed by
calls of `place_crossing_word`, is such a state. -/
theorem place_crossing_word_first_fit (g : Grid) (word : List Char) :
    (∀ g', g.place_crossing_word word = .ok (true, g') →
      alphabetic word ∧
      ∃ w j i p, g.firstFit word w j ∧ g.candidate word w j = some (i, p) ∧
        (g.erase i j).add_word word w p = .ok g') ∧
    (alphabetic word → g.sized → g.indexInside →
      ((∃ g', g.place_crossing_word word = .ok (true, g')) ↔ ∃ w j, g.fits word w j)) ∧
    ∀ (size : Int) (seed : List Char) (used : List (Int × Int))
      (runs : List (List (Int × Int))),
      Reach size seed g used runs → (seed.length : Int) ≤ size → g.sized ∧ g.indexInside := by
  refine ⟨fun g' h => ?_, fun hw hs hin => ⟨?_, ?_⟩, fun size seed used runs hr hfit =>
    Reach.wf size seed g used runs hr hfit⟩
  · obtain ⟨w, j, i, p, h1, h2, h3, -, h5⟩ := g.place_crossing_word_true word g' h
    obtain ⟨-, -, -, f4, -⟩ := g.commit_facts word w p i j g' h3 h5
    exact ⟨f4, w, j, i, p, h2, h1, h5⟩
  · rintro ⟨g', h⟩
    obtain ⟨w, j, i, p, -, h2, -⟩ := g.place_crossing_word_true word g' h
    exact ⟨w, j, h2.1⟩
  · rintro ⟨w, j, hf⟩
    obtain ⟨⟨b, g'⟩, hr⟩ := g.place_crossing_word_returns word hs hin hw
    cases b
    · exact absurd hf ((g.loop_false word word 0 g' hr (by simp)).2 w j (Nat.zero_le _))
    · exact ⟨g', hr⟩

/-- C5, amended, at the scenario: for EE after ATE has crossed CAT, both `(0, 0)` and
`(1, 0)` are legal pairs (the recorded E can carry either letter of EE); the call
succeeds and commits the pair `(0, 0)`, writing the second E at `(2, 2)`. -/
theorem place_crossing_word_first_fit_witness :
    alphabetic "EE".toList ∧ catAteGrid.sized ∧ catAteGrid.indexInside ∧
      ((∃ g', catAteGrid.place_crossing_word "EE".toList = .ok (true, g')) ↔
          ∃ w j, catAteGrid.fits "EE".toList w j) ∧
      catAteGrid.place_crossing_word "EE".toList = .ok (true, catAteEeGrid) ∧
      (alphabetic "EE".toList ∧
        ∃ w j i p, catAteGrid.firstFit "EE".toList w j ∧
          catAteGrid.candidate "EE".toList w j = some (i, p) ∧
          (catAteGrid.erase i j).add_word "EE".toList w p = .ok catAteEeGrid) ∧
      Reach 5 "CAT".toList catAteGrid [(0, 1)]
        [runCells ⟨0, 1, .Horz⟩ 0 3, runCells ⟨0, 0, .Vert⟩ 0 3] ∧
      (("CAT".toList.length : Nat) : Int) ≤ 5 ∧
      (catAteGrid.sized ∧ catAteGrid.indexInside) ∧
      catAteGrid.fits "EE".toList 0 0 ∧ catAteGrid.fits "EE".toList 1 0 ∧
      (catAteGrid.erase 4 0).add_word "EE".toList 0 ⟨2, 1, .Vert⟩ = .ok catAteEeGrid :=
  have hw : alphabetic "EE".toList := fun ch hch => by
    have : ch = 'E' := by simpa using hch
    subst this
    exact ⟨4, by decide⟩
  ⟨hw, by decide, by decide,
    (place_crossing_word_first_fit catAteGrid "EE".toList).2.1 hw (by decide) (by decide),
    by decide,
    (place_crossing_word_first_fit catAteGrid "EE".toList).1 catAteEeGrid (by decide),
    catAteGrid_reachable, by decide,
    (place_crossing_word_first_fit catAteGrid "EE".toList).2.2 5 "CAT".toList _ _
      catAteGrid_reachable (by decide),
    by decide, by decide, by decide⟩

end Crossword
